import Mathlib

/-!
# A verification development for `plain_config.py`

This file gives a shallow embedding, in Lean 4, of the configuration
codec implemented in `plain_config.py` (functions `write_config`,
`write_k_v`, `read_config`/`_read_config`, `_check_eval_safe`) together
with models of the Python library functions the module calls
(`base64.b64encode/b64decode`, `base64.b32encode/b32decode`,
`str.encode('utf8')`/`bytes.decode('utf8')`, `repr`, `int()`, `float()`,
`ast.literal_eval`).

Conventions of the embedding:

* Python text is modelled as `List Char` (`PyStr`); a "line" carries its
  trailing terminator exactly as Python file iteration yields it.
* Python `bytes` are `List Nat` with every element `< 256`.
* Python `float` objects are modelled by their `repr` string: the module
  only ever formats a float with `repr` and re-parses that text with
  `float()` (which is exact for the canonical shortest repr), so the repr
  string is a faithful identity for the float values the claims quantify
  over.  Canonicalisation of non-canonical decimal text (e.g. `float("1.50")`
  printing back as `1.5`) is not modelled; a grammar check stands in for
  `float()` acceptance.
* Python `dict` objects are association lists in insertion order;
  `d[k] = v` replaces in place or appends, `pop` removes.
* Exceptions are `Option`/`Except`: a Python operation that raises is a
  Lean function returning `none`/`.error`.
* The opaque/pickle branch of the codec is outside the model: `PyValue`
  is the closed class of values `_check_eval_safe` accepts (which is the
  only class the claims quantify over), so `pickle.dumps`/`pickle.loads`
  are never reached on the write side and modelled as a failure marker on
  the read side (where, with `safe=True`, the code fails before pickling).
-/

set_option maxHeartbeats 1000000

namespace PlainConfig

/-- Python text: a list of unicode scalar values. -/
abbrev PyStr := List Char

/-- Python bytes: a list of octets. -/
abbrev PyBytes := List Nat

/-! ## The Python value model -/

/-- The values `plain_config` can write with `safe=True`: exactly the
class accepted by `_check_eval_safe` (strings, bytes, ints, floats,
bools, `None`, and tuples/lists/sets/dicts of these).  A `set` is carried
with its iteration order, a `dict` with its insertion order.  A float is
carried as its `repr` string (see the header comment). -/
inductive PyValue where
  | str (s : PyStr)
  | bytes (b : PyBytes)
  | int (n : Int)
  | float (s : PyStr)
  | bool (b : Bool)
  | none
  | tup (xs : List PyValue)
  | list (xs : List PyValue)
  | set (xs : List PyValue)
  | dict (xs : List (PyValue × PyValue))
deriving Repr

mutual

/-- Decidable equality on `PyValue` (written by hand: `deriving` does not
handle the nested occurrences of `List`). -/
def PyValue.decEq : (a b : PyValue) → Decidable (a = b)
  | .str s, .str t =>
      if h : s = t then isTrue (by rw [h])
      else isFalse (by intro hh; cases hh; exact h rfl)
  | .bytes s, .bytes t =>
      if h : s = t then isTrue (by rw [h])
      else isFalse (by intro hh; cases hh; exact h rfl)
  | .int m, .int n =>
      if h : m = n then isTrue (by rw [h])
      else isFalse (by intro hh; cases hh; exact h rfl)
  | .float s, .float t =>
      if h : s = t then isTrue (by rw [h])
      else isFalse (by intro hh; cases hh; exact h rfl)
  | .bool a, .bool b =>
      if h : a = b then isTrue (by rw [h])
      else isFalse (by intro hh; cases hh; exact h rfl)
  | .none, .none => isTrue rfl
  | .tup xs, .tup ys =>
      match PyValue.decEqList xs ys with
      | isTrue h => isTrue (by rw [h])
      | isFalse h => isFalse (by intro hh; cases hh; exact h rfl)
  | .list xs, .list ys =>
      match PyValue.decEqList xs ys with
      | isTrue h => isTrue (by rw [h])
      | isFalse h => isFalse (by intro hh; cases hh; exact h rfl)
  | .set xs, .set ys =>
      match PyValue.decEqList xs ys with
      | isTrue h => isTrue (by rw [h])
      | isFalse h => isFalse (by intro hh; cases hh; exact h rfl)
  | .dict xs, .dict ys =>
      match PyValue.decEqPairs xs ys with
      | isTrue h => isTrue (by rw [h])
      | isFalse h => isFalse (by intro hh; cases hh; exact h rfl)
  | .str _, .bytes _ => isFalse (by intro h; cases h)
  | .str _, .int _ => isFalse (by intro h; cases h)
  | .str _, .float _ => isFalse (by intro h; cases h)
  | .str _, .bool _ => isFalse (by intro h; cases h)
  | .str _, .none => isFalse (by intro h; cases h)
  | .str _, .tup _ => isFalse (by intro h; cases h)
  | .str _, .list _ => isFalse (by intro h; cases h)
  | .str _, .set _ => isFalse (by intro h; cases h)
  | .str _, .dict _ => isFalse (by intro h; cases h)
  | .bytes _, .str _ => isFalse (by intro h; cases h)
  | .bytes _, .int _ => isFalse (by intro h; cases h)
  | .bytes _, .float _ => isFalse (by intro h; cases h)
  | .bytes _, .bool _ => isFalse (by intro h; cases h)
  | .bytes _, .none => isFalse (by intro h; cases h)
  | .bytes _, .tup _ => isFalse (by intro h; cases h)
  | .bytes _, .list _ => isFalse (by intro h; cases h)
  | .bytes _, .set _ => isFalse (by intro h; cases h)
  | .bytes _, .dict _ => isFalse (by intro h; cases h)
  | .int _, .str _ => isFalse (by intro h; cases h)
  | .int _, .bytes _ => isFalse (by intro h; cases h)
  | .int _, .float _ => isFalse (by intro h; cases h)
  | .int _, .bool _ => isFalse (by intro h; cases h)
  | .int _, .none => isFalse (by intro h; cases h)
  | .int _, .tup _ => isFalse (by intro h; cases h)
  | .int _, .list _ => isFalse (by intro h; cases h)
  | .int _, .set _ => isFalse (by intro h; cases h)
  | .int _, .dict _ => isFalse (by intro h; cases h)
  | .float _, .str _ => isFalse (by intro h; cases h)
  | .float _, .bytes _ => isFalse (by intro h; cases h)
  | .float _, .int _ => isFalse (by intro h; cases h)
  | .float _, .bool _ => isFalse (by intro h; cases h)
  | .float _, .none => isFalse (by intro h; cases h)
  | .float _, .tup _ => isFalse (by intro h; cases h)
  | .float _, .list _ => isFalse (by intro h; cases h)
  | .float _, .set _ => isFalse (by intro h; cases h)
  | .float _, .dict _ => isFalse (by intro h; cases h)
  | .bool _, .str _ => isFalse (by intro h; cases h)
  | .bool _, .bytes _ => isFalse (by intro h; cases h)
  | .bool _, .int _ => isFalse (by intro h; cases h)
  | .bool _, .float _ => isFalse (by intro h; cases h)
  | .bool _, .none => isFalse (by intro h; cases h)
  | .bool _, .tup _ => isFalse (by intro h; cases h)
  | .bool _, .list _ => isFalse (by intro h; cases h)
  | .bool _, .set _ => isFalse (by intro h; cases h)
  | .bool _, .dict _ => isFalse (by intro h; cases h)
  | .none, .str _ => isFalse (by intro h; cases h)
  | .none, .bytes _ => isFalse (by intro h; cases h)
  | .none, .int _ => isFalse (by intro h; cases h)
  | .none, .float _ => isFalse (by intro h; cases h)
  | .none, .bool _ => isFalse (by intro h; cases h)
  | .none, .tup _ => isFalse (by intro h; cases h)
  | .none, .list _ => isFalse (by intro h; cases h)
  | .none, .set _ => isFalse (by intro h; cases h)
  | .none, .dict _ => isFalse (by intro h; cases h)
  | .tup _, .str _ => isFalse (by intro h; cases h)
  | .tup _, .bytes _ => isFalse (by intro h; cases h)
  | .tup _, .int _ => isFalse (by intro h; cases h)
  | .tup _, .float _ => isFalse (by intro h; cases h)
  | .tup _, .bool _ => isFalse (by intro h; cases h)
  | .tup _, .none => isFalse (by intro h; cases h)
  | .tup _, .list _ => isFalse (by intro h; cases h)
  | .tup _, .set _ => isFalse (by intro h; cases h)
  | .tup _, .dict _ => isFalse (by intro h; cases h)
  | .list _, .str _ => isFalse (by intro h; cases h)
  | .list _, .bytes _ => isFalse (by intro h; cases h)
  | .list _, .int _ => isFalse (by intro h; cases h)
  | .list _, .float _ => isFalse (by intro h; cases h)
  | .list _, .bool _ => isFalse (by intro h; cases h)
  | .list _, .none => isFalse (by intro h; cases h)
  | .list _, .tup _ => isFalse (by intro h; cases h)
  | .list _, .set _ => isFalse (by intro h; cases h)
  | .list _, .dict _ => isFalse (by intro h; cases h)
  | .set _, .str _ => isFalse (by intro h; cases h)
  | .set _, .bytes _ => isFalse (by intro h; cases h)
  | .set _, .int _ => isFalse (by intro h; cases h)
  | .set _, .float _ => isFalse (by intro h; cases h)
  | .set _, .bool _ => isFalse (by intro h; cases h)
  | .set _, .none => isFalse (by intro h; cases h)
  | .set _, .tup _ => isFalse (by intro h; cases h)
  | .set _, .list _ => isFalse (by intro h; cases h)
  | .set _, .dict _ => isFalse (by intro h; cases h)
  | .dict _, .str _ => isFalse (by intro h; cases h)
  | .dict _, .bytes _ => isFalse (by intro h; cases h)
  | .dict _, .int _ => isFalse (by intro h; cases h)
  | .dict _, .float _ => isFalse (by intro h; cases h)
  | .dict _, .bool _ => isFalse (by intro h; cases h)
  | .dict _, .none => isFalse (by intro h; cases h)
  | .dict _, .tup _ => isFalse (by intro h; cases h)
  | .dict _, .list _ => isFalse (by intro h; cases h)
  | .dict _, .set _ => isFalse (by intro h; cases h)

/-- Decidable equality on lists of `PyValue`. -/
def PyValue.decEqList : (a b : List PyValue) → Decidable (a = b)
  | [], [] => isTrue rfl
  | [], _ :: _ => isFalse (by intro h; cases h)
  | _ :: _, [] => isFalse (by intro h; cases h)
  | x :: xs, y :: ys =>
      match PyValue.decEq x y with
      | isFalse h => isFalse (by intro hh; cases hh; exact h rfl)
      | isTrue h1 =>
          match PyValue.decEqList xs ys with
          | isTrue h2 => isTrue (by rw [h1, h2])
          | isFalse h2 => isFalse (by intro hh; cases hh; exact h2 rfl)

/-- Decidable equality on lists of `PyValue` pairs. -/
def PyValue.decEqPairs : (a b : List (PyValue × PyValue)) → Decidable (a = b)
  | [], [] => isTrue rfl
  | [], _ :: _ => isFalse (by intro h; cases h)
  | _ :: _, [] => isFalse (by intro h; cases h)
  | (k1, v1) :: xs, (k2, v2) :: ys =>
      match PyValue.decEq k1 k2 with
      | isFalse h => isFalse (by intro hh; cases hh; exact h rfl)
      | isTrue h1 =>
          match PyValue.decEq v1 v2 with
          | isFalse h => isFalse (by intro hh; cases hh; exact h rfl)
          | isTrue h2 =>
              match PyValue.decEqPairs xs ys with
              | isTrue h3 => isTrue (by rw [h1, h2, h3])
              | isFalse h3 => isFalse (by intro hh; cases hh; exact h3 rfl)

end

instance : DecidableEq PyValue := PyValue.decEq

/-! ## Small Python string helpers -/

/-- Python whitespace characters stripped by `str.strip()` — the
`str.isspace` set: tab through carriage return, the file/group/record/unit
separators `\x1c`-`\x1f`, space, NEL `\x85`, NBSP `\xa0`, Ogham space
mark, the Unicode space separators ` `-` `, line and paragraph
separators, narrow NBSP, medium mathematical space, and ideographic
space. -/
def pyIsSpace (c : Char) : Bool :=
  decide ((9 ≤ c.toNat ∧ c.toNat ≤ 13) ∨ (28 ≤ c.toNat ∧ c.toNat ≤ 31) ∨
    c.toNat = 32 ∨ c.toNat = 133 ∨ c.toNat = 160 ∨ c.toNat = 5760 ∨
    (8192 ≤ c.toNat ∧ c.toNat ≤ 8202) ∨ c.toNat = 8232 ∨ c.toNat = 8233 ∨
    c.toNat = 8239 ∨ c.toNat = 8287 ∨ c.toNat = 12288)

/-- `str.strip()` (both ends, Python whitespace). -/
def pyStrip (s : PyStr) : PyStr :=
  (((s.dropWhile pyIsSpace).reverse).dropWhile pyIsSpace).reverse

/-- `line.rstrip('\n\r')` : drop trailing newline/carriage-return characters. -/
def rstripNl (s : PyStr) : PyStr :=
  (s.reverse.dropWhile (fun c => c = '\n' || c = '\x0d')).reverse

/-- `s.split(sep, 1)` for a one-character separator: split at the first
occurrence, `none` when the separator does not occur. -/
def splitOnce (sep : Char) : PyStr → Option (PyStr × PyStr)
  | [] => Option.none
  | c :: cs =>
      if c = sep then Option.some ([], cs)
      else (splitOnce sep cs).map (fun p => (c :: p.1, p.2))

/-! ## Decimal integers: `str(int)` and `int(str)` -/

/-- The decimal digits of a natural number, most significant first
(Python `str` of a non-negative int). -/
def natDigits (n : Nat) : List Char :=
  if h : n < 10 then [Char.ofNat (48 + n)]
  else natDigits (n / 10) ++ [Char.ofNat (48 + n % 10)]
decreasing_by exact Nat.div_lt_self (by omega) (by omega)

/-- Value of a list of decimal digit characters, most significant first. -/
def digitsVal (ds : List Char) : Nat :=
  ds.foldl (fun a c => a * 10 + (c.toNat - 48)) 0

/-- Python `str(n)` for an integer `n`. -/
def intRepr (n : Int) : PyStr :=
  if n < 0 then '-' :: natDigits n.natAbs else natDigits n.toNat

/-- The tail of an `int()` digit run after its first digit: digits, with
a single underscore allowed only directly between two digits. -/
def undTail : PyStr → Bool
  | [] => true
  | c :: rest =>
      if c = '_' then
        (match rest with
         | [] => false
         | d :: r2 => d.isDigit && undTail r2)
      else c.isDigit && undTail rest

/-- The digit-run core of `int(text)`: a digit followed by digits with
single underscore separators between digits (`int('1_0')` is accepted,
`int('_1')`, `int('1_')` and `int('1__0')` are not); the value ignores
the underscores. -/
def parseIntCore : PyStr → Option Int
  | [] => Option.none
  | c :: rest =>
      if c.isDigit && undTail rest then
        Option.some (digitsVal ((c :: rest).filter (fun x => !(x = '_'))) : Nat)
      else Option.none

/-- Python `int(s)` on text: strip whitespace, optional sign, then a
non-empty run of decimal digits with optional underscore grouping.
(Non-ASCII digits, which Python also accepts, are not modelled.) -/
def parseIntPy (s : PyStr) : Option Int :=
  match pyStrip s with
  | [] => Option.none
  | c :: ds =>
      if c = '-' then (parseIntCore ds).map Int.neg
      else if c = '+' then parseIntCore ds
      else parseIntCore (c :: ds)

/-! ## Float text: `repr(float)` output shape and `float(str)` acceptance -/

/-- Scan a run of decimal digits; returns the run and the rest. -/
def scanDigits (s : PyStr) : PyStr × PyStr :=
  (s.takeWhile Char.isDigit, s.dropWhile Char.isDigit)

/-- The optional fraction part `.digits*` of a number token. -/
def scanFrac (s : PyStr) : PyStr × PyStr :=
  match s with
  | c :: r =>
      if c = '.' then
        let p := scanDigits r
        ('.' :: p.1, p.2)
      else ([], s)
  | [] => ([], s)

/-- The optional exponent part `(e|E) sign? digits` of a number token;
not consumed unless at least one exponent digit follows. -/
def scanExp (s : PyStr) : PyStr × PyStr :=
  match s with
  | c :: r =>
      if c = 'e' ∨ c = 'E' then
        match r with
        | d :: r2 =>
            if d = '+' ∨ d = '-' then
              (match scanDigits r2 with
               | ([], _) => ([], s)
               | (ds, r') => (c :: d :: ds, r'))
            else
              (match scanDigits r with
               | ([], _) => ([], s)
               | (ds, r') => (c :: ds, r'))
        | [] => ([], s)
      else ([], s)
  | [] => ([], s)

/-- Scan one unsigned number token the way `ast.literal_eval`'s grammar
reads it: `digits ('.' digits*)? ((e|E) sign? digits)?`.  Returns the
exact text consumed and the rest; `none` if the text does not start with
a digit. -/
def scanNumber (s : PyStr) : Option (PyStr × PyStr) :=
  match scanDigits s with
  | ([], _) => Option.none
  | (ip, r1) =>
      let fp := scanFrac r1
      let ep := scanExp fp.2
      Option.some (ip ++ fp.1 ++ ep.1, ep.2)

/-- Does the (sign-stripped) text look like a float rather than an int
token?  True exactly when the number scanner consumes all of it and saw a
`.` or an exponent. -/
def isFloatBody (t : PyStr) : Bool :=
  match scanNumber t with
  | Option.some (txt, []) =>
      txt = t && (t.contains '.' || t.contains 'e' || t.contains 'E')
  | _ => false

/-- A finite-float literal: optional minus sign followed by a float body.
This is the shape of `repr(f)` for every finite double `f` (Python emits
e.g. `1.5`, `-0.001`, `1e+30`, `1e-05`) and is accepted both by `float()`
and by `ast.literal_eval`. -/
def isFiniteFloatLit (s : PyStr) : Bool :=
  match s with
  | '-' :: t => isFloatBody t
  | t => isFloatBody t

/-- The body of `float(text)` after the optional sign: a numeric token
(also pure-integer text such as `42`), or `inf`/`infinity`/`nan`
case-insensitively. -/
def pyFloatBody (b : PyStr) : Bool :=
  let low := b.map Char.toLower
  isFloatBody b || decide (low = ['i', 'n', 'f']) ||
    decide (low = ['i', 'n', 'f', 'i', 'n', 'i', 't', 'y']) ||
    decide (low = ['n', 'a', 'n']) ||
    (match scanNumber b with
     | Option.some (txt, []) => txt = b
     | _ => false)

/-- Underscore placement in a `float()` number body after its first
character: a `_` is legal only directly between two digits
(`float('1_0.5')` is accepted, `float('1_.5')` and `float('1__0')` are
not). -/
def undOKAux (prev : Char) : PyStr → Bool
  | [] => true
  | c :: rest =>
      if c = '_' then
        (match rest with
         | [] => false
         | d :: r2 => prev.isDigit && d.isDigit && undOKAux d r2)
      else undOKAux c rest

/-- Well-placed underscores over a whole number body (no leading `_`). -/
def undOK : PyStr → Bool
  | [] => true
  | c :: rest => if c = '_' then false else undOKAux c rest

/-- Acceptance by Python `float(text)`: whitespace-stripped, an optional
sign, then a `pyFloatBody` after removing well-placed underscore
separators.  The model float carries the stripped text itself. -/
def pyFloatOfText (s : PyStr) : Option PyStr :=
  match pyStrip s with
  | [] => Option.none
  | c :: b =>
      if c = '-' ∨ c = '+' then
        if undOK b && pyFloatBody (b.filter (fun x => !(x = '_'))) then
          Option.some (c :: b)
        else Option.none
      else if undOK (c :: b) && pyFloatBody ((c :: b).filter (fun x => !(x = '_'))) then
        Option.some (c :: b)
      else Option.none

/-- Truncation of a finite float literal toward zero: `int(float)`.
Returns `none` on `inf`/`nan` text (Python raises there). -/
def floatTruncCore (t : PyStr) : Option Nat :=
  match scanNumber t with
  | Option.some (txt, []) =>
      if txt = t then
        let ip := scanDigits t
        let fp := scanFrac ip.2
        let fdigits := fp.1.drop 1
        let e : Int :=
          match scanExp fp.2 with
          | (_ :: '-' :: ds, _) => -((digitsVal ds : Nat) : Int)
          | (_ :: '+' :: ds, _) => ((digitsVal ds : Nat) : Int)
          | (_ :: ds, _) => ((digitsVal ds : Nat) : Int)
          | ([], _) => 0
        let mantissa := digitsVal (ip.1 ++ fdigits)
        let shift : Int := e - (fdigits.length : Int)
        Option.some (if 0 ≤ shift then mantissa * 10 ^ shift.toNat
                     else mantissa / 10 ^ (-shift).toNat)
      else Option.none
  | _ => Option.none

/-- `int(float)` on the float's literal text. -/
def floatTextToInt (s : PyStr) : Option Int :=
  match s with
  | '-' :: t => (floatTruncCore t).map (fun v => -(v : Int))
  | t => (floatTruncCore t).map (fun v => (v : Int))

/-! ## Dict model: insertion-ordered association lists -/

/-- Python dict keyed by arbitrary (hashable) values. -/
abbrev PyDict := List (PyValue × PyValue)

/-- `k in d` / `d.get(k)`. -/
def dictGet (k : PyValue) (d : PyDict) : Option PyValue :=
  match d.find? (fun p => p.1 = k) with
  | Option.some p => Option.some p.2
  | Option.none => Option.none

/-- `d[k] = v`: replace in place when the key exists, else append. -/
def dictSet (k : PyValue) (v : PyValue) : PyDict → PyDict
  | [] => [(k, v)]
  | p :: ps => if p.1 = k then (k, v) :: ps else p :: dictSet k v ps

/-- `d.pop(k)` (ignoring the returned value). -/
def dictPop (k : PyValue) : PyDict → PyDict
  | [] => []
  | p :: ps => if p.1 = k then ps else p :: dictPop k ps

/-! ## UTF-8: `str.encode('utf8')` and `bytes.decode('utf8')` -/

/-- UTF-8 encoding of one unicode scalar value. -/
def utf8EncodeChar (c : Char) : List Nat :=
  if c.toNat < 0x80 then [c.toNat]
  else if c.toNat < 0x800 then [0xC0 + c.toNat / 64, 0x80 + c.toNat % 64]
  else if c.toNat < 0x10000 then
    [0xE0 + c.toNat / 4096, 0x80 + c.toNat / 64 % 64, 0x80 + c.toNat % 64]
  else
    [0xF0 + c.toNat / 262144, 0x80 + c.toNat / 4096 % 64, 0x80 + c.toNat / 64 % 64,
      0x80 + c.toNat % 64]

/-- `s.encode('utf8')`. -/
def utf8Encode (s : PyStr) : PyBytes :=
  (s.map utf8EncodeChar).flatten

/-- Is `b` a UTF-8 continuation byte, and its payload. -/
def contByte (b : Nat) : Bool := 0x80 ≤ b && b < 0xC0

/-- The continuation byte of a 2-byte UTF-8 sequence. -/
def utf8Cont1 (hi : Nat) : PyBytes → Option (Nat × PyBytes)
  | c1 :: rest => if contByte c1 then Option.some (hi * 64 + (c1 - 0x80), rest) else Option.none
  | _ => Option.none

/-- The continuation bytes of a 3-byte UTF-8 sequence (rejecting overlong
forms after `0xE0` and UTF-16 surrogates after `0xED`). -/
def utf8Cont2 (b : Nat) : PyBytes → Option (Nat × PyBytes)
  | c1 :: c2 :: rest =>
      if contByte c1 && contByte c2 &&
          (decide (0xE0 < b) || decide (0xA0 ≤ c1)) &&
          (decide (b ≠ 0xED) || decide (c1 < 0xA0)) then
        Option.some ((b - 0xE0) * 4096 + (c1 - 0x80) * 64 + (c2 - 0x80), rest)
      else Option.none
  | _ => Option.none

/-- The continuation bytes of a 4-byte UTF-8 sequence (rejecting overlong
forms after `0xF0` and out-of-range values after `0xF4`). -/
def utf8Cont3 (b : Nat) : PyBytes → Option (Nat × PyBytes)
  | c1 :: c2 :: c3 :: rest =>
      if contByte c1 && contByte c2 && contByte c3 &&
          (decide (0xF0 < b) || decide (0x90 ≤ c1)) &&
          (decide (b ≠ 0xF4) || decide (c1 < 0x90)) then
        Option.some ((b - 0xF0) * 262144 + (c1 - 0x80) * 4096 +
          (c2 - 0x80) * 64 + (c3 - 0x80), rest)
      else Option.none
  | _ => Option.none

/-- Decode one UTF-8-encoded scalar value from the front of the byte
sequence: its code point and the remaining bytes.  Rejects truncated
sequences, continuation-byte errors, overlong forms and surrogates
(Python raises `UnicodeDecodeError` on each; the model returns `none`). -/
def utf8DecodeOne : PyBytes → Option (Nat × PyBytes)
  | [] => Option.none
  | b :: rest =>
      if b < 0x80 then Option.some (b, rest)
      else if b < 0xC2 then Option.none
      else if b < 0xE0 then utf8Cont1 (b - 0xC0) rest
      else if b < 0xF0 then utf8Cont2 b rest
      else if b < 0xF5 then utf8Cont3 b rest
      else Option.none

/-- The scalar-value loop of `bytes.decode('utf8')`.  Each step consumes
at least one byte, so fuel equal to the byte count never runs out. -/
def utf8DecodeAux : Nat → PyBytes → Option PyStr
  | _, [] => Option.some []
  | 0, _ :: _ => Option.none
  | fuel + 1, b :: rest =>
      match utf8DecodeOne (b :: rest) with
      | Option.some (n, rest2) =>
          (utf8DecodeAux fuel rest2).map (fun s => Char.ofNat n :: s)
      | Option.none => Option.none

/-- `bs.decode('utf8')`. -/
def utf8Decode (bs : PyBytes) : Option PyStr :=
  utf8DecodeAux bs.length bs

/-! ## Base64: `base64.b64encode` / `base64.b64decode` -/

/-- The standard base64 alphabet, indexed by sextet value. -/
def b64Char (n : Nat) : Char :=
  if n < 26 then Char.ofNat (65 + n)
  else if n < 52 then Char.ofNat (97 + (n - 26))
  else if n < 62 then Char.ofNat (48 + (n - 52))
  else if n = 62 then '+'
  else '/'

/-- Index of a character in the base64 alphabet. -/
def b64Val (c : Char) : Option Nat :=
  if 'A' ≤ c ∧ c ≤ 'Z' then Option.some (c.toNat - 65)
  else if 'a' ≤ c ∧ c ≤ 'z' then Option.some (26 + (c.toNat - 97))
  else if '0' ≤ c ∧ c ≤ '9' then Option.some (52 + (c.toNat - 48))
  else if c = '+' then Option.some 62
  else if c = '/' then Option.some 63
  else Option.none

/-- `base64.b64encode` (on octets, producing ASCII text). -/
def b64encode : PyBytes → PyStr
  | [] => []
  | [a] => [b64Char (a / 4), b64Char (a % 4 * 16), '=', '=']
  | [a, b] => [b64Char (a / 4), b64Char (a % 4 * 16 + b / 16), b64Char (b % 16 * 4), '=']
  | a :: b :: c :: rest =>
      b64Char (a / 4) :: b64Char (a % 4 * 16 + b / 16) ::
        b64Char (b % 16 * 4 + c / 64) :: b64Char (c % 64) :: b64encode rest

/-- Decode a base64 quad sequence (padding only in the final quad). -/
def b64decodeQuads : PyStr → Option PyBytes
  | [] => Option.some []
  | w :: x :: y :: z :: rest =>
      (match b64Val w, b64Val x with
       | Option.some a, Option.some b =>
           if y = '=' then
             if z = '=' ∧ rest = [] then Option.some [a * 4 + b / 16] else Option.none
           else
             match b64Val y with
             | Option.some c =>
                 if z = '=' then
                   if rest = [] then Option.some [a * 4 + b / 16, b % 16 * 16 + c / 4]
                   else Option.none
                 else
                   match b64Val z with
                   | Option.some d =>
                       (b64decodeQuads rest).map
                         (fun bs => (a * 4 + b / 16) :: (b % 16 * 16 + c / 4) ::
                           (c % 4 * 64 + d) :: bs)
                   | Option.none => Option.none
             | Option.none => Option.none
       | _, _ => Option.none)
  | _ => Option.none

/-- `base64.b64decode` with the default `validate=False`: characters
outside the alphabet (and outside padding) are discarded, then the text
must consist of whole quads.  (Padding occurring before the final quad,
where CPython truncates the result, is modelled as an error.) -/
def b64decode (s : PyStr) : Option PyBytes :=
  let t := s.filter (fun c => (b64Val c).isSome || c = '=')
  if t.length % 4 = 0 then b64decodeQuads t else Option.none

/-! ## Base32: `base64.b32encode` / `base64.b32decode` -/

/-- The RFC 4648 base32 alphabet, indexed by quintet value. -/
def b32Char (n : Nat) : Char :=
  if n < 26 then Char.ofNat (65 + n) else Char.ofNat (50 + (n - 26))

/-- Index of a character in the base32 alphabet (case sensitive, as
`b32decode` is with the default `casefold=False`). -/
def b32Val (c : Char) : Option Nat :=
  if 'A' ≤ c ∧ c ≤ 'Z' then Option.some (c.toNat - 65)
  else if '2' ≤ c ∧ c ≤ '7' then Option.some (26 + (c.toNat - 50))
  else Option.none

/-- `base64.b32encode` (on octets, producing ASCII text). -/
def b32encode : PyBytes → PyStr
  | [] => []
  | [a] => [b32Char (a / 8), b32Char (a % 8 * 4), '=', '=', '=', '=', '=', '=']
  | [a, b] =>
      [b32Char (a / 8), b32Char (a % 8 * 4 + b / 64), b32Char (b / 2 % 32),
        b32Char (b % 2 * 16), '=', '=', '=', '=']
  | [a, b, c] =>
      [b32Char (a / 8), b32Char (a % 8 * 4 + b / 64), b32Char (b / 2 % 32),
        b32Char (b % 2 * 16 + c / 16), b32Char (c % 16 * 2), '=', '=', '=']
  | [a, b, c, d] =>
      [b32Char (a / 8), b32Char (a % 8 * 4 + b / 64), b32Char (b / 2 % 32),
        b32Char (b % 2 * 16 + c / 16), b32Char (c % 16 * 2 + d / 128),
        b32Char (d / 4 % 32), b32Char (d % 4 * 8), '=']
  | a :: b :: c :: d :: e :: rest =>
      b32Char (a / 8) :: b32Char (a % 8 * 4 + b / 64) :: b32Char (b / 2 % 32) ::
        b32Char (b % 2 * 16 + c / 16) :: b32Char (c % 16 * 2 + d / 128) ::
        b32Char (d / 4 % 32) :: b32Char (d % 4 * 8 + e / 32) :: b32Char (e % 32) ::
        b32encode rest

/-- Decode a base32 octet-group sequence (padding only in the final
group, with the legal padding lengths 6, 4, 3 and 1). -/
def b32decodeGroups : PyStr → Option PyBytes
  | [] => Option.some []
  | c0 :: c1 :: c2 :: c3 :: c4 :: c5 :: c6 :: c7 :: rest =>
      (match b32Val c0, b32Val c1 with
       | Option.some q0, Option.some q1 =>
           if c2 = '=' then
             if c3 = '=' ∧ c4 = '=' ∧ c5 = '=' ∧ c6 = '=' ∧ c7 = '=' ∧ rest = [] then
               Option.some [q0 * 8 + q1 / 4]
             else Option.none
           else
             match b32Val c2, b32Val c3 with
             | Option.some q2, Option.some q3 =>
                 if c4 = '=' then
                   if c5 = '=' ∧ c6 = '=' ∧ c7 = '=' ∧ rest = [] then
                     Option.some [q0 * 8 + q1 / 4, q1 % 4 * 64 + q2 * 2 + q3 / 16]
                   else Option.none
                 else
                   match b32Val c4 with
                   | Option.some q4 =>
                       if c5 = '=' then
                         if c6 = '=' ∧ c7 = '=' ∧ rest = [] then
                           Option.some [q0 * 8 + q1 / 4,
                             q1 % 4 * 64 + q2 * 2 + q3 / 16, q3 % 16 * 16 + q4 / 2]
                         else Option.none
                       else
                         match b32Val c5, b32Val c6 with
                         | Option.some q5, Option.some q6 =>
                             if c7 = '=' then
                               if rest = [] then
                                 Option.some [q0 * 8 + q1 / 4,
                                   q1 % 4 * 64 + q2 * 2 + q3 / 16,
                                   q3 % 16 * 16 + q4 / 2,
                                   q4 % 2 * 128 + q5 * 4 + q6 / 8]
                               else Option.none
                             else
                               match b32Val c7 with
                               | Option.some q7 =>
                                   (b32decodeGroups rest).map
                                     (fun bs => (q0 * 8 + q1 / 4) ::
                                       (q1 % 4 * 64 + q2 * 2 + q3 / 16) ::
                                       (q3 % 16 * 16 + q4 / 2) ::
                                       (q4 % 2 * 128 + q5 * 4 + q6 / 8) ::
                                       (q6 % 8 * 32 + q7) :: bs)
                               | Option.none => Option.none
                         | _, _ => Option.none
                   | Option.none => Option.none
             | _, _ => Option.none
       | _, _ => Option.none)
  | _ => Option.none

/-- `base64.b32decode` (default arguments): the input must be a whole
number of 8-character groups over the upper-case alphabet, with padding
allowed in the final group only. -/
def b32decode (s : PyStr) : Option PyBytes :=
  if s.length % 8 = 0 then b32decodeGroups s else Option.none

/-! ## `repr` -/

/-- Lower-case hexadecimal digit. -/
def hexDigitChar (n : Nat) : Char :=
  if n < 10 then Char.ofNat (48 + n) else Char.ofNat (87 + n)

/-- The quote character `repr` picks for a string: a single quote, unless
the text contains one and no double quote. -/
def reprQuote (hasSingle hasDouble : Bool) : Char :=
  if hasSingle && !hasDouble then '"' else '\''

/-- The escape of one character inside a `repr` string literal quoted by
`q`.  Control characters (and the C1 range) are written as `\xHH`; other
characters Python would escape on printability grounds are kept verbatim,
which round-trips identically. -/
def reprEscChar (q : Char) (c : Char) : PyStr :=
  if c = '\\' then ['\\', '\\']
  else if c = q then ['\\', q]
  else if c = '\n' then ['\\', 'n']
  else if c = '\x0d' then ['\\', 'r']
  else if c = '\t' then ['\\', 't']
  else if c.toNat < 32 || (127 ≤ c.toNat && c.toNat < 160) then
    ['\\', 'x', hexDigitChar (c.toNat / 16), hexDigitChar (c.toNat % 16)]
  else [c]

/-- `repr` of a string. -/
def reprStr (s : PyStr) : PyStr :=
  let q := reprQuote (s.contains '\'') (s.contains '"')
  q :: (s.map (reprEscChar q)).flatten ++ [q]

/-- The escape of one octet inside a `repr` bytes literal quoted by `q`
(an octet, 39 or 34). -/
def reprEscByte (q : Nat) (b : Nat) : PyStr :=
  if b = 92 then ['\\', '\\']
  else if b = q then ['\\', Char.ofNat q]
  else if b = 10 then ['\\', 'n']
  else if b = 13 then ['\\', 'r']
  else if b = 9 then ['\\', 't']
  else if b < 32 || 127 ≤ b then
    ['\\', 'x', hexDigitChar (b / 16), hexDigitChar (b % 16)]
  else [Char.ofNat b]

/-- `repr` of a bytes object: `b'...'`. -/
def reprBytes (bs : PyBytes) : PyStr :=
  let q := if bs.contains 39 && !bs.contains 34 then 34 else 39
  'b' :: Char.ofNat q :: (bs.map (reprEscByte q)).flatten ++ [Char.ofNat q]

mutual

/-- Python `repr` on the modelled values (`'{!r}'.format(v)`). -/
def reprValue : PyValue → PyStr
  | .str s => reprStr s
  | .bytes bs => reprBytes bs
  | .int n => intRepr n
  | .float s => s
  | .bool b => if b then ['T', 'r', 'u', 'e'] else ['F', 'a', 'l', 's', 'e']
  | .none => ['N', 'o', 'n', 'e']
  | .tup [] => ['(', ')']
  | .tup [x] => '(' :: reprValue x ++ [',', ')']
  | .tup (x :: y :: xs) => '(' :: reprValue x ++ reprItems (y :: xs) ++ [')']
  | .list [] => ['[', ']']
  | .list (x :: xs) => '[' :: reprValue x ++ reprItems xs ++ [']']
  | .set [] => ['s', 'e', 't', '(', ')']
  | .set (x :: xs) => '{' :: reprValue x ++ reprItems xs ++ ['}']
  | .dict [] => ['{', '}']
  | .dict ((k, v) :: ps) =>
      '{' :: reprValue k ++ [':', ' '] ++ reprValue v ++ reprPairs ps ++ ['}']

/-- `", x, y, z"`: the remaining items of a container `repr`. -/
def reprItems : List PyValue → PyStr
  | [] => []
  | x :: xs => ',' :: ' ' :: reprValue x ++ reprItems xs

/-- `", k: v, ..."`: the remaining items of a dict `repr`. -/
def reprPairs : List (PyValue × PyValue) → PyStr
  | [] => []
  | (k, v) :: ps => ',' :: ' ' :: reprValue k ++ [':', ' '] ++ reprValue v ++ reprPairs ps

end

mutual

/-- `_check_eval_safe`: may the value be written in `repr` form and read
back with `ast.literal_eval`?  Translated from the source; on the closed
`PyValue` type every case is covered, so this is constantly `true` (the
source falls through to `False` for other runtime types, which the model
does not contain). -/
def checkEvalSafe : PyValue → Bool
  | .none => true
  | .str _ => true
  | .bytes _ => true
  | .int _ => true
  | .float _ => true
  | .bool _ => true
  | .dict ps => checkEvalSafePairs ps
  | .tup xs => checkEvalSafeList xs
  | .list xs => checkEvalSafeList xs
  | .set xs => checkEvalSafeList xs

/-- `all(_check_eval_safe(v) for v in S)`. -/
def checkEvalSafeList : List PyValue → Bool
  | [] => true
  | x :: xs => checkEvalSafe x && checkEvalSafeList xs

/-- `all(_check_eval_safe(k) and _check_eval_safe(v) for k, v in S.items())`. -/
def checkEvalSafePairs : List (PyValue × PyValue) → Bool
  | [] => true
  | (k, v) :: ps => (checkEvalSafe k && checkEvalSafe v) && checkEvalSafePairs ps

end

/-! ## `ast.literal_eval` -/

/-- Skip spaces between tokens.  (`ast` also accepts other whitespace
between tokens; `repr` output, the only text this development feeds back
through the parser, uses single spaces.) -/
def skipSp (s : PyStr) : PyStr := s.dropWhile (fun c => c = ' ')

/-- Value of a hexadecimal digit character. -/
def hexVal (c : Char) : Option Nat :=
  if '0' ≤ c ∧ c ≤ '9' then Option.some (c.toNat - 48)
  else if 'a' ≤ c ∧ c ≤ 'f' then Option.some (c.toNat - 87)
  else if 'A' ≤ c ∧ c ≤ 'F' then Option.some (c.toNat - 55)
  else Option.none

/-- Expect a fixed token at the front of the input; return the rest. -/
def expectTok (lit s : PyStr) : Option PyStr :=
  if s.take lit.length = lit then Option.some (s.drop lit.length) else Option.none

/-- Parse the body of a quoted string literal up to the closing quote
`q`, undoing the escapes `repr` can produce.  Returns the decoded
contents and the rest of the input. -/
def parseStrBody (q : Char) : PyStr → Option (PyStr × PyStr)
  | [] => Option.none
  | c :: cs =>
      if c = q then Option.some ([], cs)
      else if c = '\\' then
        match cs with
        | [] => Option.none
        | e :: r =>
            if e = 'n' then (parseStrBody q r).map (fun p => ('\n' :: p.1, p.2))
            else if e = 'r' then (parseStrBody q r).map (fun p => ('\x0d' :: p.1, p.2))
            else if e = 't' then (parseStrBody q r).map (fun p => ('\t' :: p.1, p.2))
            else if e = '\\' then (parseStrBody q r).map (fun p => ('\\' :: p.1, p.2))
            else if e = '\'' then (parseStrBody q r).map (fun p => ('\'' :: p.1, p.2))
            else if e = '"' then (parseStrBody q r).map (fun p => ('"' :: p.1, p.2))
            else if e = 'x' then
              match r with
              | h1 :: h2 :: r2 =>
                  (match hexVal h1, hexVal h2 with
                   | Option.some a, Option.some b =>
                       (parseStrBody q r2).map
                         (fun p => (Char.ofNat (16 * a + b) :: p.1, p.2))
                   | _, _ => Option.none)
              | _ => Option.none
            else Option.none
      else if c = '\n' then Option.none
      else (parseStrBody q cs).map (fun p => (c :: p.1, p.2))

/-- Parse the body of a bytes literal `b'...'` up to the closing quote. -/
def parseBytesBody (q : Char) : PyStr → Option (PyBytes × PyStr)
  | [] => Option.none
  | c :: cs =>
      if c = q then Option.some ([], cs)
      else if c = '\\' then
        match cs with
        | [] => Option.none
        | e :: r =>
            if e = 'n' then (parseBytesBody q r).map (fun p => (10 :: p.1, p.2))
            else if e = 'r' then (parseBytesBody q r).map (fun p => (13 :: p.1, p.2))
            else if e = 't' then (parseBytesBody q r).map (fun p => (9 :: p.1, p.2))
            else if e = '\\' then (parseBytesBody q r).map (fun p => (92 :: p.1, p.2))
            else if e = '\'' then (parseBytesBody q r).map (fun p => (39 :: p.1, p.2))
            else if e = '"' then (parseBytesBody q r).map (fun p => (34 :: p.1, p.2))
            else if e = 'x' then
              match r with
              | h1 :: h2 :: r2 =>
                  (match hexVal h1, hexVal h2 with
                   | Option.some a, Option.some b =>
                       (parseBytesBody q r2).map
                         (fun p => ((16 * a + b) :: p.1, p.2))
                   | _, _ => Option.none)
              | _ => Option.none
            else Option.none
      else if c.toNat < 128 ∧ c ≠ '\n' then
        (parseBytesBody q cs).map (fun p => (c.toNat :: p.1, p.2))
      else Option.none

/-- Parse an unsigned number token and classify it: a token containing a
point or exponent is a float (carried as its text), otherwise an int.
A decimal integer token with a leading zero and some nonzero digit is a
`SyntaxError` in Python (`007` is refused; a run of zeros alone, or a
float such as `007.5`, is legal). -/
def parseNumber (s : PyStr) : Option (PyValue × PyStr) :=
  match scanNumber s with
  | Option.some (txt, rest) =>
      if txt.contains '.' || txt.contains 'e' || txt.contains 'E' then
        Option.some (.float txt, rest)
      else if txt.head? = Option.some '0' ∧ txt.all (fun x => x = '0') = false then
        Option.none
      else Option.some (.int (digitsVal txt : Nat), rest)
  | Option.none => Option.none

mutual

/-- One parsing step of the restricted literal grammar `ast.literal_eval`
accepts: strings, bytes, `True`/`False`/`None`, numbers with an optional
leading minus, parenthesised/bracketed containers, and the special-cased
empty-set call `set()`.  `fuel` is strictly consumed by every nested
call. -/
def parseVal : Nat → PyStr → Option (PyValue × PyStr)
  | 0, _ => Option.none
  | fuel + 1, s =>
      match skipSp s with
      | [] => Option.none
      | c :: r =>
          if c = '\'' then (parseStrBody '\'' r).map (fun p => (.str p.1, p.2))
          else if c = '"' then (parseStrBody '"' r).map (fun p => (.str p.1, p.2))
          else if c = 'b' then
            (match r with
             | q :: r2 =>
                 if q = '\'' ∨ q = '"' then
                   (parseBytesBody q r2).map (fun p => (.bytes p.1, p.2))
                 else Option.none
             | [] => Option.none)
          else if c = 'T' then
            (expectTok ['r', 'u', 'e'] r).map (fun rest => (.bool true, rest))
          else if c = 'F' then
            (expectTok ['a', 'l', 's', 'e'] r).map (fun rest => (.bool false, rest))
          else if c = 'N' then
            (expectTok ['o', 'n', 'e'] r).map (fun rest => (.none, rest))
          else if c = '-' then
            (parseNumber r).map (fun p =>
              (match p.1 with
               | .float t => .float ('-' :: t)
               | .int n => .int (-n)
               | v => v, p.2))
          else if c = '(' then
            (match skipSp r with
             | [] => Option.none
             | c' :: r' =>
                 if c' = ')' then Option.some (.tup [], r')
                 else
                   match parseVal fuel (c' :: r') with
                   | Option.some (v, r1) =>
                       (match skipSp r1 with
                        | [] => Option.none
                        | c2 :: r2 =>
                            if c2 = ')' then Option.some (v, r2)
                            else if c2 = ',' then
                              (match skipSp r2 with
                               | [] => Option.none
                               | c3 :: r3 =>
                                   if c3 = ')' then Option.some (.tup [v], r3)
                                   else
                                     match parseItems fuel (c3 :: r3) ')' with
                                     | Option.some (xs, rest) =>
                                         Option.some (.tup (v :: xs), rest)
                                     | Option.none => Option.none)
                            else Option.none)
                   | Option.none => Option.none)
          else if c = '[' then
            (match skipSp r with
             | [] => Option.none
             | c' :: r' =>
                 if c' = ']' then Option.some (.list [], r')
                 else
                   match parseItems fuel (c' :: r') ']' with
                   | Option.some (xs, rest) => Option.some (.list xs, rest)
                   | Option.none => Option.none)
          else if c = '{' then
            (match skipSp r with
             | [] => Option.none
             | c' :: r' =>
                 if c' = '}' then Option.some (.dict [], r')
                 else
                   match parseVal fuel (c' :: r') with
                   | Option.some (v, r1) =>
                       (match skipSp r1 with
                        | [] => Option.none
                        | c2 :: r2 =>
                            if c2 = ':' then
                              (match parseVal fuel (skipSp r2) with
                               | Option.some (w, r3) =>
                                   (match parsePairsRest fuel r3 with
                                    | Option.some (ps, rest) =>
                                        Option.some (.dict ((v, w) :: ps), rest)
                                    | Option.none => Option.none)
                               | Option.none => Option.none)
                            else if c2 = ',' then
                              (match skipSp r2 with
                               | [] => Option.none
                               | c3 :: r3 =>
                                   if c3 = '}' then Option.some (.set [v], r3)
                                   else
                                     match parseItems fuel (c3 :: r3) '}' with
                                     | Option.some (xs, rest) =>
                                         Option.some (.set (v :: xs), rest)
                                     | Option.none => Option.none)
                            else if c2 = '}' then Option.some (.set [v], r2)
                            else Option.none)
                   | Option.none => Option.none)
          else if c = 's' then
            -- `ast.literal_eval` special-cases the call `set()` (with no
            -- arguments) as the empty set, at any nesting depth
            (match expectTok ['e', 't'] r with
             | Option.some r2 =>
                 (match skipSp r2 with
                  | c2 :: r3 =>
                      if c2 = '(' then
                        (match skipSp r3 with
                         | c3 :: r4 =>
                             if c3 = ')' then Option.some (.set [], r4)
                             else Option.none
                         | [] => Option.none)
                      else Option.none
                  | [] => Option.none)
             | Option.none => Option.none)
          else if c.isDigit then parseNumber (c :: r)
          else Option.none

/-- Parse one or more comma-separated items terminated by `closer`
(tolerating a trailing comma, as `ast` does). -/
def parseItems : Nat → PyStr → Char → Option (List PyValue × PyStr)
  | 0, _, _ => Option.none
  | fuel + 1, s, closer =>
      match parseVal fuel s with
      | Option.some (v, r1) =>
          (match skipSp r1 with
           | [] => Option.none
           | c :: rest =>
               if c = ',' then
                 (match skipSp rest with
                  | [] => Option.none
                  | c2 :: rest2 =>
                      if c2 = closer then Option.some ([v], rest2)
                      else
                        match parseItems fuel (c2 :: rest2) closer with
                        | Option.some (xs, r3) => Option.some (v :: xs, r3)
                        | Option.none => Option.none)
               else if c = closer then Option.some ([v], rest)
               else Option.none)
      | Option.none => Option.none

/-- Parse the remaining `, k: v` pairs of a dict display, up to `}`. -/
def parsePairsRest : Nat → PyStr → Option (List (PyValue × PyValue) × PyStr)
  | 0, _ => Option.none
  | fuel + 1, s =>
      match skipSp s with
      | [] => Option.none
      | c :: r =>
          if c = '}' then Option.some ([], r)
          else if c = ',' then
            (match skipSp r with
             | [] => Option.none
             | c2 :: r2 =>
                 if c2 = '}' then Option.some ([], r2)
                 else
                   match parseVal fuel (c2 :: r2) with
                   | Option.some (k, r3) =>
                       (match skipSp r3 with
                        | [] => Option.none
                        | c3 :: r4 =>
                            if c3 = ':' then
                              (match parseVal fuel (skipSp r4) with
                               | Option.some (v, r5) =>
                                   (match parsePairsRest fuel r5 with
                                    | Option.some (ps, rest) =>
                                        Option.some ((k, v) :: ps, rest)
                                    | Option.none => Option.none)
                               | Option.none => Option.none)
                            else Option.none)
                   | Option.none => Option.none)
          else Option.none

end

/-- `ast.literal_eval` on text: parse one literal expression, allowing
surrounding spaces, requiring all input consumed. -/
def literalEval (s : PyStr) : Option PyValue :=
  match parseVal (s.length + 2) s with
  | Option.some (v, rest) => if skipSp rest = [] then Option.some v else Option.none
  | Option.none => Option.none

/-! ## Wellformedness for the repr/literal_eval roundtrip

`repr` output parses back to an equal value except in two corners, each
excluded by the predicate below:

* a `nan` float prints as `nan`, which `literal_eval` rejects inside
  containers, and which is unequal to itself under Python `==` at top
  level;
* an `inf` float prints as `inf`, rejected by `literal_eval` inside
  containers.

(An empty set prints as `set()`, which `literal_eval` special-cases and
accepts, so sets are unrestricted.)  Floats are therefore required to be
finite-decimal literals of the shape `repr` gives every finite double:
`-? digits (. digits+)? (e sign digits+)?` with a point or exponent
present.  Bytes elements must be octets. -/

/-- The `sign digits+` tail of an exponent. -/
def wfExpTail (r : PyStr) : Bool :=
  match r with
  | s :: ds => (s = '+' || s = '-') && decide (ds ≠ []) && ds.all Char.isDigit
  | [] => false

/-- The body of a finite float repr, after the optional minus sign. -/
def wfFloatBody (t : PyStr) : Bool :=
  decide ((scanDigits t).1 ≠ []) &&
  (match (scanDigits t).2 with
   | [] => false
   | c :: r2 =>
       if c = '.' then
         decide ((scanDigits r2).1 ≠ []) &&
         (match (scanDigits r2).2 with
          | [] => true
          | e :: r3 => decide (e = 'e') && wfExpTail r3)
       else if c = 'e' then wfExpTail r2
       else false)

/-- The shape of `repr(f)` for a finite double `f`. -/
def isWfFloat (s : PyStr) : Bool :=
  match s with
  | [] => false
  | c :: t => if c = '-' then wfFloatBody t else wfFloatBody (c :: t)

mutual

/-- Roundtrip wellformedness (see the section comment). -/
def wfV : PyValue → Bool
  | .str _ => true
  | .bytes bs => bs.all (· < 256)
  | .int _ => true
  | .float s => isWfFloat s
  | .bool _ => true
  | .none => true
  | .tup xs => wfList xs
  | .list xs => wfList xs
  | .set xs => wfList xs
  | .dict ps => wfPairs ps

/-- All elements wellformed. -/
def wfList : List PyValue → Bool
  | [] => true
  | x :: xs => wfV x && wfList xs

/-- All keys and values wellformed. -/
def wfPairs : List (PyValue × PyValue) → Bool
  | [] => true
  | (k, v) :: ps => (wfV k && wfV v) && wfPairs ps

end

mutual

/-- Fuel needed by `parseVal` on the `repr` of a value: the depth of the
nested-call tree, mirroring the recursion of the parser. -/
def needV : PyValue → Nat
  | .str _ => 1
  | .bytes _ => 1
  | .int _ => 1
  | .float _ => 1
  | .bool _ => 1
  | .none => 1
  | .tup [] => 1
  | .tup [x] => 1 + needV x
  | .tup (x :: y :: ys) => 1 + max (needV x) (needItems (y :: ys))
  | .list [] => 1
  | .list (x :: xs) => 1 + needItems (x :: xs)
  | .set [] => 1
  | .set (x :: xs) => 1 + max (needV x) (needItems xs)
  | .dict [] => 1
  | .dict ((k, v) :: ps) => 1 + max (max (needV k) (needV v)) (needPairs ps)

/-- Fuel needed by `parseItems`. -/
def needItems : List PyValue → Nat
  | [] => 0
  | [x] => 1 + needV x
  | x :: y :: ys => 1 + max (needV x) (needItems (y :: ys))

/-- Fuel needed by `parsePairsRest`. -/
def needPairs : List (PyValue × PyValue) → Nat
  | [] => 1
  | (k, v) :: ps => 1 + max (max (needV k) (needV v)) (needPairs ps)

end

/-- The characters that may legitimately follow a literal inside a
container display (or end the input). -/
def isDelim (c : Char) : Bool :=
  c = ',' || c = ')' || c = ']' || c = '}' || c = ':' || c = ' '

/-- The rest of the input starts with a delimiter (or is empty). -/
def delimOK : PyStr → Bool
  | [] => true
  | c :: _ => isDelim c

/-! ## The modifier chain of `_read_config`

The `while m:` loop of `_read_config`, applied to the running `value`.
The embedding fixes `safe=True` (the default, and the mode every claim is
about): a `p` modifier is refused (`logger.error`, `m = False`) without
ever reaching `pickle.loads`.  `none` covers both ways a line dies in the
source: `m = False; break` (unknown modifier, refused `p`) and an
exception caught by the per-line `except` (bad int/float text, bad
base32/base64/utf8 data, `literal_eval` failure, `TypeError` from the
base decoders or `int()`/`float()` on container values). -/

/-- Apply a modifier string left-to-right to the running value. -/
def applyMods : List Char → PyValue → Option PyValue
  | [], v => Option.some v
  | 'p' :: _, _ => Option.none
  | 's' :: rest, v =>
      -- bool before int mirrors Python, where `isinstance(True, int)`
      -- holds and `str(True) = 'True'`
      (match v with
       | .bytes bs =>
           match utf8Decode bs with
           | Option.some s => applyMods rest (.str s)
           | Option.none => Option.none
       | .bool b =>
           applyMods rest (.str (if b then ['T', 'r', 'u', 'e'] else ['F', 'a', 'l', 's', 'e']))
       | .int n => applyMods rest (.str (intRepr n))
       | v => applyMods rest v)  -- warn only; value left unchanged
  | 'b' :: rest, v =>
      (match v with
       | .str s => applyMods rest (.bytes (utf8Encode s))
       | v => applyMods rest v)  -- warn only; value left unchanged
  | 'i' :: rest, v =>
      (match v with
       | .str s =>
           match parseIntPy s with
           | Option.some n => applyMods rest (.int n)
           | Option.none => Option.none
       | .bytes bs =>
           if bs.all (· < 128) then
             match parseIntPy (bs.map Char.ofNat) with
             | Option.some n => applyMods rest (.int n)
             | Option.none => Option.none
           else Option.none
       | .bool b => applyMods rest (.int (if b then 1 else 0))
       | .int n => applyMods rest (.int n)
       | .float s =>
           match floatTextToInt s with
           | Option.some n => applyMods rest (.int n)
           | Option.none => Option.none
       | _ => Option.none)  -- TypeError
  | 'f' :: rest, v =>
      (match v with
       | .str s =>
           match pyFloatOfText s with
           | Option.some t => applyMods rest (.float t)
           | Option.none => Option.none
       | .bytes bs =>
           if bs.all (· < 128) then
             match pyFloatOfText (bs.map Char.ofNat) with
             | Option.some t => applyMods rest (.float t)
             | Option.none => Option.none
           else Option.none
       | .bool b => applyMods rest (.float (if b then ['1', '.', '0'] else ['0', '.', '0']))
       | .int n =>
           -- int-to-float conversion is exact below 2^53; larger ints
           -- (where the float would round) are outside the model
           if n.natAbs ≤ 2 ^ 53 then applyMods rest (.float (intRepr n ++ ['.', '0']))
           else Option.none
       | .float s => applyMods rest (.float s)
       | _ => Option.none)  -- TypeError
  | 'r' :: rest, v =>
      (match v with
       | .str s =>
           match literalEval s with
           | Option.some w => applyMods rest w
           | Option.none => Option.none
       | .bytes bs =>
           -- `compile` accepts bytes source, decoding it as UTF-8
           match utf8Decode bs with
           | Option.some s =>
               match literalEval s with
               | Option.some w => applyMods rest w
               | Option.none => Option.none
           | Option.none => Option.none
       | _ => Option.none)
  | '3' :: '2' :: rest, v =>
      (match v with
       | .str s =>
           match b32decode s with
           | Option.some bs => applyMods rest (.bytes bs)
           | Option.none => Option.none
       | .bytes bs =>
           if bs.all (· < 128) then
             match b32decode (bs.map Char.ofNat) with
             | Option.some out => applyMods rest (.bytes out)
             | Option.none => Option.none
           else Option.none
       | _ => Option.none)
  | '6' :: '4' :: rest, v =>
      (match v with
       | .str s =>
           match b64decode s with
           | Option.some bs => applyMods rest (.bytes bs)
           | Option.none => Option.none
       | .bytes bs =>
           if bs.all (· < 128) then
             match b64decode (bs.map Char.ofNat) with
             | Option.some out => applyMods rest (.bytes out)
             | Option.none => Option.none
           else Option.none
       | _ => Option.none)
  | _ :: _, _ => Option.none  -- unknown modifier: logger.error, m = False

/-! ## `_read_config` -/

/-- One structure-database entry: `(key, m, line_)` with a string key,
`(None, None, line_)` for comments/blank lines, `(False, False, line_)`
for lines without `=`. -/
inductive SEntry where
  | kv (key : PyStr) (m : PyStr) (line : PyStr)
  | comment (line : PyStr)
  | invalid (line : PyStr)
deriving DecidableEq, Repr

/-- Is the line (after `rstrip('\n\r')`) blank or a `#` comment? -/
def isCommentLine (line_ : PyStr) : Bool :=
  let line := rstripNl line_
  pyStrip line = [] || (pyStrip line).head? = Option.some '#'

/-- Split a non-comment line into `(key, m, value)` at the first `=` and
(inside the key part) the first `/`; `none` when no `=` occurs. -/
def parseKV (line_ : PyStr) : Option (PyStr × PyStr × PyStr) :=
  let line := rstripNl line_
  match splitOnce '=' line with
  | Option.none => Option.none
  | Option.some (keyPart, value) =>
      match splitOnce '/' keyPart with
      | Option.some (key, m) => Option.some (key, m, value)
      | Option.none => Option.some (keyPart, [], value)

/-- The structure entry `_read_config` records for one input line. -/
def lineEntry (line_ : PyStr) : SEntry :=
  if isCommentLine line_ then .comment line_
  else
    match parseKV line_ with
    | Option.some (k, m, _) => .kv k m line_
    | Option.none => .invalid line_

/-- The effect of one input line on the mapping being built. -/
def lineStep (db : PyDict) (line_ : PyStr) : PyDict :=
  if isCommentLine line_ then db
  else
    match parseKV line_ with
    | Option.some (k, m, v) =>
        (match applyMods m (.str v) with
         | Option.some val => dictSet (.str k) val db
         | Option.none => db)
    | Option.none => db

/-- `_read_config` (at `safe=True`): one pass over the lines, producing
the best-effort mapping and one structure entry per line, in order. -/
def readConfig (lines : List PyStr) : PyDict × List SEntry :=
  (lines.foldl lineStep [], lines.map lineEntry)

/-! ## `write_k_v` and `write_config` -/

/-- The two ways the write path can raise: the `assert` on the key shape,
and the `RuntimeError` for a value that is not `_check_eval_safe` while
`safe` is on (in the model the value type is closed, so the latter — and
the pickle branch under `safe=False` — is unreachable). -/
inductive WriteErr where
  | invalidKey
  | unsafeValue
deriving DecidableEq, Repr

/-- `write_k_v(k, v, F)`: the single line written for one key/value pair,
or the error raised. -/
def writeKV (k v : PyValue) : Except WriteErr PyStr :=
  match k with
  | .str ks =>
      if ks.contains '=' || ks.contains '/' then .error .invalidKey
      else
        match v with
        | .str s =>
            if s.any (fun j => j.toNat < 32) then
              .ok (ks ++ ['/', '6', '4', 's', '='] ++ b64encode (utf8Encode s) ++ ['\n'])
            else .ok (ks ++ ['='] ++ s ++ ['\n'])
        | .bool b => .ok (ks ++ ['/', 'r', '='] ++ reprValue (.bool b) ++ ['\n'])
        | .none => .ok (ks ++ ['/', 'r', '='] ++ reprValue .none ++ ['\n'])
        | .int n => .ok (ks ++ ['/', 'i', '='] ++ intRepr n ++ ['\n'])
        | .float s => .ok (ks ++ ['/', 'f', '='] ++ s ++ ['\n'])
        | .bytes bs => .ok (ks ++ ['/', '3', '2', '='] ++ b32encode bs ++ ['\n'])
        | v =>
            if checkEvalSafe v then .ok (ks ++ ['/', 'r', '='] ++ reprValue v ++ ['\n'])
            else .error .unsafeValue
  | _ => .error .invalidKey  -- assert isinstance(k, str)

/-- The first loop of `write_config`: walk the prior structure, emitting
the current value for keys still present (and popping them from the
working copy), the original raw line for absent keys under `rewrite_old`
and for comments, and nothing for invalid lines or empty-string keys.
Returns the lines emitted (up to the first error), the final working
copy, and the error if one was raised. -/
def writeEntries (ro : Bool) (db : PyDict) :
    List SEntry → List PyStr × PyDict × Option WriteErr
  | [] => ([], db, Option.none)
  | .kv k _ l :: es =>
      if k ≠ [] then
        match dictGet (.str k) db with
        | Option.some v =>
            (match writeKV (.str k) v with
             | .ok line =>
                 let r := writeEntries ro (dictPop (.str k) db) es
                 (line :: r.1, r.2)
             | .error e => ([], db, Option.some e))
        | Option.none =>
            if ro then
              let r := writeEntries ro db es
              (l :: r.1, r.2)
            else writeEntries ro db es
      else writeEntries ro db es  -- `k` falsy and not None: silently skipped
  | .comment l :: es =>
      let r := writeEntries ro db es
      (l :: r.1, r.2)
  | .invalid _ :: es => writeEntries ro db es  -- invalid lines are not rewritten

/-- The second loop of `write_config`: emit every remaining key of the
working copy in order. -/
def writeNew : PyDict → List PyStr × Option WriteErr
  | [] => ([], Option.none)
  | (k, v) :: rest =>
      match writeKV k v with
      | .ok line =>
          let r := writeNew rest
          (line :: r.1, r.2)
      | .error e => ([], Option.some e)

/-- `write_config(F, db, sdb, safe, rewrite_old)` on an already-open
sink: the lines written (in order, up to the first error) and the error,
if any, that the call raised. -/
def writeConfig (db : PyDict) (sdb : List SEntry) (ro : Bool) :
    List PyStr × Option WriteErr :=
  let working := db  -- db = copy.copy(db): pops below act on the copy
  let r1 := writeEntries ro working sdb
  match r1.2.2 with
  | Option.some e => (r1.1, Option.some e)
  | Option.none =>
      let r2 := writeNew r1.2.1
      (r1.1 ++ r2.1, r2.2)

/-! ## The continuation line renderer (not present under `src/`)

Modelled from the spec: the repository sources under `src/` contain no
line-wrapping code; the spec describes a renderer
`render(key, modifier, payload, maxWidth, continuationCandidates)` and
the matching continuation reconstruction of the reader.  The definitions
below follow the spec text; lines are carried without their terminators
(the reader strips terminators before this step). -/

/-- Modelled from the spec: the "nice" break characters preferred when
cutting a long payload. -/
def niceChar (c : Char) : Bool :=
  c = ' ' || c = ']' || c = ')' || c = '}' || c = ',' || c = ';' ||
    c = '-' || c = '+' || c = '\n' || c = '\t'

/-- Modelled from the spec: scan backward from `i` toward `lo`
(exclusive) for a cut point right after a nice character. -/
def niceCutFrom (payload : PyStr) (lo : Nat) : Nat → Option Nat
  | 0 => Option.none
  | i + 1 =>
      if i + 1 ≤ lo then Option.none
      else
        match payload.get? i with
        | Option.some c =>
            if niceChar c then Option.some (i + 1) else niceCutFrom payload lo i
        | Option.none => niceCutFrom payload lo i

/-- Modelled from the spec: the cut point for one segment — the naive
budget, or a nicer break between `budget*3/4` and `budget`. -/
def cutPoint (budget : Nat) (payload : PyStr) : Nat :=
  match niceCutFrom payload (budget * 3 / 4) budget with
  | Option.some i => i
  | Option.none => budget

/-- Modelled from the spec: greedy wrapping of the payload, first
segment against the remaining budget of the prefixed line, later
segments against the full width.  (`max 1` guards the degenerate
zero-budget case the spec leaves unspecified; the roundtrip theorem is
stated away from it.) -/
def wrapSegs (maxW : Nat) (budget : Nat) (payload : PyStr) : List PyStr :=
  if payload.length ≤ budget then [payload]
  else
    payload.take (max 1 (cutPoint budget payload)) ::
      wrapSegs maxW maxW (payload.drop (max 1 (cutPoint budget payload)))
termination_by payload.length
decreasing_by
  simp only [List.length_drop]
  omega

/-- Modelled from the spec: append the continuation marker to every
segment but the last. -/
def markSegs (c : Char) : List PyStr → List PyStr
  | [] => []
  | [s] => [s]
  | s :: rest => (s ++ [c]) :: markSegs c rest

/-- Modelled from the spec: the first candidate character that does not
occur in the payload. -/
def pickCont (cands : List Char) (payload : PyStr) : Option Char :=
  match cands with
  | [] => Option.none
  | c :: cs => if payload.contains c then pickCont cs payload else Option.some c

/-- Modelled from the spec: `render` — a single unsplit line when
wrapping is off, not triggered, or no candidate is free; otherwise the
`C<char>`-prefixed modifier and the marked segments. -/
def render (key mod payload : PyStr) (maxW : Nat) (cands : List Char) : List PyStr :=
  if maxW = 0 || decide (key.length + mod.length + payload.length + 2 < maxW) then
    [key ++ (if mod = [] then [] else '/' :: mod) ++ '=' :: payload]
  else
    match pickCont cands payload with
    | Option.none => [key ++ (if mod = [] then [] else '/' :: mod) ++ '=' :: payload]
    | Option.some c =>
        match markSegs c
            (wrapSegs maxW (maxW - (key.length + (mod.length + 2) + 2)) payload) with
        | [] => []
        | s0 :: rest => (key ++ '/' :: 'C' :: c :: mod ++ '=' :: s0) :: rest

/-- Modelled from the spec: the reader's continuation loop — while the
accumulated value ends with the marker, pull one more (stripped) line,
drop the marker, append; `none` models `UnexpectedEndOfInput`. -/
def joinCont (c : Char) : PyStr → List PyStr → Option (PyStr × List PyStr)
  | acc, [] =>
      if acc.getLast? = Option.some c then Option.none else Option.some (acc, [])
  | acc, l :: ls =>
      if acc.getLast? = Option.some c then joinCont c (acc.dropLast ++ l) ls
      else Option.some (acc, l :: ls)

/-! ## Helper lemmas: characters and alphabets -/

theorem char_ofNat_toNat (c : Char) : Char.ofNat c.toNat = c := by
  unfold Char.ofNat
  split
  · rename_i hv
    apply Char.ext
    apply UInt32.ext
    simp [Char.ofNatAux, UInt32.ofNat', Char.toNat, UInt32.toNat, BitVec.toNat_ofNat]
  · rename_i hv
    exact absurd c.valid (by simpa [Char.toNat] using hv)

theorem char_toNat_ofNat {n : Nat} (h : n < 55296) : (Char.ofNat n).toNat = n := by
  unfold Char.ofNat
  split
  · rename_i hv
    simp [Char.ofNatAux, Char.toNat, UInt32.ofNat', UInt32.toNat, BitVec.toNat_ofNat]
  · rename_i hv
    exact absurd (Or.inl h) hv

theorem b64Val_b64Char : ∀ n < 64, b64Val (b64Char n) = Option.some n := by decide

theorem b32Val_b32Char : ∀ n < 32, b32Val (b32Char n) = Option.some n := by decide

theorem hexVal_hexDigitChar : ∀ n < 16, hexVal (hexDigitChar n) = Option.some n := by
  decide

theorem b64Char_ne_eq : ∀ n < 64, b64Char n ≠ '=' := by decide

theorem b32Char_ne_eq : ∀ n < 32, b32Char n ≠ '=' := by decide

/-! ## UTF-8 roundtrip -/

theorem utf8EncodeChar_lt (c : Char) : ∀ b ∈ utf8EncodeChar c, b < 256 := by
  have hv : c.toNat < 0xd800 ∨ (0xe000 ≤ c.toNat ∧ c.toNat < 0x110000) := c.valid
  intro b hb
  unfold utf8EncodeChar at hb
  split at hb
  · simp at hb; omega
  · split at hb
    · simp at hb
      rcases hb with h | h <;> omega
    · split at hb
      · simp at hb
        rcases hb with h | h | h <;> omega
      · simp at hb
        rcases hb with h | h | h | h <;> omega

theorem utf8Encode_lt (s : PyStr) : ∀ b ∈ utf8Encode s, b < 256 := by
  intro b hb
  simp only [utf8Encode, List.mem_flatten, List.mem_map] at hb
  obtain ⟨l, ⟨c, _, rfl⟩, hbl⟩ := hb
  exact utf8EncodeChar_lt c b hbl

theorem utf8EncodeChar_ne_nil (c : Char) : utf8EncodeChar c ≠ [] := by
  unfold utf8EncodeChar
  split
  · simp
  · split
    · simp
    · split <;> simp

theorem utf8DecodeOne_encodeChar (c : Char) (bs : PyBytes) :
    utf8DecodeOne (utf8EncodeChar c ++ bs) = Option.some (c.toNat, bs) := by
  have hv : c.toNat < 0xd800 ∨ (0xe000 ≤ c.toNat ∧ c.toNat < 0x110000) := c.valid
  by_cases h1 : c.toNat < 0x80
  · rw [show utf8EncodeChar c = [c.toNat] by unfold utf8EncodeChar; rw [if_pos h1]]
    show utf8DecodeOne (c.toNat :: bs) = Option.some (c.toNat, bs)
    rw [utf8DecodeOne, if_pos h1]
  · by_cases h2 : c.toNat < 0x800
    · rw [show utf8EncodeChar c = [0xC0 + c.toNat / 64, 0x80 + c.toNat % 64] by
        unfold utf8EncodeChar; rw [if_neg h1, if_pos h2]]
      rw [List.cons_append, List.cons_append, List.nil_append]
      rw [utf8DecodeOne]
      rw [if_neg (by omega), if_neg (by omega), if_pos (by omega)]
      rw [utf8Cont1]
      rw [if_pos (by simp only [contByte, Bool.and_eq_true, decide_eq_true_eq]; omega)]
      rw [show (0xC0 + c.toNat / 64 - 0xC0) * 64 + (0x80 + c.toNat % 64 - 0x80)
          = c.toNat by omega]
    · by_cases h3 : c.toNat < 0x10000
      · rw [show utf8EncodeChar c =
            [0xE0 + c.toNat / 4096, 0x80 + c.toNat / 64 % 64, 0x80 + c.toNat % 64] by
          unfold utf8EncodeChar; rw [if_neg h1, if_neg h2, if_pos h3]]
        rw [List.cons_append, List.cons_append, List.cons_append, List.nil_append]
        rw [utf8DecodeOne]
        rw [if_neg (by omega), if_neg (by omega), if_neg (by omega), if_pos (by omega)]
        rw [utf8Cont2]
        rw [if_pos (by
          simp only [contByte, Bool.and_eq_true, Bool.or_eq_true, decide_eq_true_eq,
            ne_eq]
          omega)]
        rw [show (0xE0 + c.toNat / 4096 - 0xE0) * 4096 +
            (0x80 + c.toNat / 64 % 64 - 0x80) * 64 + (0x80 + c.toNat % 64 - 0x80)
            = c.toNat by omega]
      · rw [show utf8EncodeChar c =
            [0xF0 + c.toNat / 262144, 0x80 + c.toNat / 4096 % 64,
              0x80 + c.toNat / 64 % 64, 0x80 + c.toNat % 64] by
          unfold utf8EncodeChar; rw [if_neg h1, if_neg h2, if_neg h3]]
        rw [List.cons_append, List.cons_append, List.cons_append, List.cons_append,
          List.nil_append]
        rw [utf8DecodeOne]
        rw [if_neg (by omega), if_neg (by omega), if_neg (by omega),
          if_neg (by omega), if_pos (by omega)]
        rw [utf8Cont3]
        rw [if_pos (by
          simp only [contByte, Bool.and_eq_true, Bool.or_eq_true, decide_eq_true_eq,
            ne_eq]
          omega)]
        rw [show (0xF0 + c.toNat / 262144 - 0xF0) * 262144 +
            (0x80 + c.toNat / 4096 % 64 - 0x80) * 4096 +
            (0x80 + c.toNat / 64 % 64 - 0x80) * 64 + (0x80 + c.toNat % 64 - 0x80)
            = c.toNat by omega]

theorem utf8DecodeAux_encode (s : PyStr) :
    ∀ fuel, s.length ≤ fuel → utf8DecodeAux fuel (utf8Encode s) = Option.some s := by
  induction s with
  | nil => intro fuel _; cases fuel <;> rfl
  | cons c rest ih =>
      intro fuel hf
      obtain ⟨f, rfl⟩ : ∃ f, fuel = f + 1 := by
        cases fuel with
        | zero => simp at hf
        | succ f => exact ⟨f, rfl⟩
      rw [show utf8Encode (c :: rest) = utf8EncodeChar c ++ utf8Encode rest by
        simp [utf8Encode]]
      obtain ⟨b, ebs, heb⟩ : ∃ b ebs, utf8EncodeChar c = b :: ebs := by
        cases h : utf8EncodeChar c with
        | nil => exact absurd h (utf8EncodeChar_ne_nil c)
        | cons b ebs => exact ⟨b, ebs, rfl⟩
      rw [heb, List.cons_append, utf8DecodeAux, ← List.cons_append, ← heb,
        utf8DecodeOne_encodeChar]
      dsimp only
      rw [ih f (by simpa using hf), char_ofNat_toNat]
      rfl

theorem utf8Encode_length (s : PyStr) : s.length ≤ (utf8Encode s).length := by
  induction s with
  | nil => simp [utf8Encode]
  | cons c rest ih =>
      rw [show utf8Encode (c :: rest) = utf8EncodeChar c ++ utf8Encode rest by
        simp [utf8Encode]]
      rw [List.length_append, List.length_cons]
      have : 1 ≤ (utf8EncodeChar c).length := by
        cases h : utf8EncodeChar c with
        | nil => exact absurd h (utf8EncodeChar_ne_nil c)
        | cons b ebs => simp
      omega

theorem utf8_roundtrip (s : PyStr) : utf8Decode (utf8Encode s) = Option.some s :=
  utf8DecodeAux_encode s (utf8Encode s).length (utf8Encode_length s)

/-! ## Base64 roundtrip -/

theorem b64encode_mem (bs : PyBytes) (h : ∀ b ∈ bs, b < 256) :
    ∀ c ∈ b64encode bs, (b64Val c).isSome = true ∨ c = '=' := by
  induction bs using b64encode.induct with
  | case1 => simp [b64encode]
  | case2 a =>
      have ha : a < 256 := h a (by simp)
      intro c hc
      simp only [b64encode, List.mem_cons, List.not_mem_nil, or_false] at hc
      rcases hc with rfl | rfl | rfl | rfl
      · exact Or.inl (by rw [b64Val_b64Char (a / 4) (by omega)]; rfl)
      · exact Or.inl (by rw [b64Val_b64Char (a % 4 * 16) (by omega)]; rfl)
      · exact Or.inr rfl
      · exact Or.inr rfl
  | case3 a b =>
      have ha : a < 256 := h a (by simp)
      have hb : b < 256 := h b (by simp)
      intro c hc
      simp only [b64encode, List.mem_cons, List.not_mem_nil, or_false] at hc
      rcases hc with rfl | rfl | rfl | rfl
      · exact Or.inl (by rw [b64Val_b64Char (a / 4) (by omega)]; rfl)
      · exact Or.inl (by rw [b64Val_b64Char (a % 4 * 16 + b / 16) (by omega)]; rfl)
      · exact Or.inl (by rw [b64Val_b64Char (b % 16 * 4) (by omega)]; rfl)
      · exact Or.inr rfl
  | case4 a b cc rest ih =>
      have ha : a < 256 := h a (by simp)
      have hb : b < 256 := h b (by simp)
      have hcc : cc < 256 := h cc (by simp)
      have ih2 := ih (fun x hx => h x (by simp [hx]))
      intro c hc
      simp only [b64encode, List.mem_cons] at hc
      rcases hc with rfl | rfl | rfl | rfl | hmem
      · exact Or.inl (by rw [b64Val_b64Char (a / 4) (by omega)]; rfl)
      · exact Or.inl (by rw [b64Val_b64Char (a % 4 * 16 + b / 16) (by omega)]; rfl)
      · exact Or.inl (by rw [b64Val_b64Char (b % 16 * 4 + cc / 64) (by omega)]; rfl)
      · exact Or.inl (by rw [b64Val_b64Char (cc % 64) (by omega)]; rfl)
      · exact ih2 c hmem

theorem b64encode_length (bs : PyBytes) : (b64encode bs).length % 4 = 0 := by
  induction bs using b64encode.induct with
  | case1 => rfl
  | case2 a => simp [b64encode]
  | case3 a b => simp [b64encode]
  | case4 a b cc rest ih => simp [b64encode, List.length_cons]; omega

theorem b64decodeQuads_encode (bs : PyBytes) (h : ∀ b ∈ bs, b < 256) :
    b64decodeQuads (b64encode bs) = Option.some bs := by
  induction bs using b64encode.induct with
  | case1 => rfl
  | case2 a =>
      have ha : a < 256 := h a (by simp)
      rw [b64encode, b64decodeQuads]
      rw [b64Val_b64Char (a / 4) (by omega), b64Val_b64Char (a % 4 * 16) (by omega)]
      dsimp only
      rw [if_pos rfl, if_pos ⟨rfl, rfl⟩]
      rw [show a / 4 * 4 + a % 4 * 16 / 16 = a by omega]
  | case3 a b =>
      have ha : a < 256 := h a (by simp)
      have hb : b < 256 := h b (by simp)
      rw [b64encode, b64decodeQuads]
      rw [b64Val_b64Char (a / 4) (by omega),
        b64Val_b64Char (a % 4 * 16 + b / 16) (by omega),
        b64Val_b64Char (b % 16 * 4) (by omega)]
      dsimp only
      rw [if_neg (b64Char_ne_eq (b % 16 * 4) (by omega)), if_pos rfl, if_pos rfl]
      rw [show a / 4 * 4 + (a % 4 * 16 + b / 16) / 16 = a by omega,
        show (a % 4 * 16 + b / 16) % 16 * 16 + b % 16 * 4 / 4 = b by omega]
  | case4 a b cc rest ih =>
      have ha : a < 256 := h a (by simp)
      have hb : b < 256 := h b (by simp)
      have hc : cc < 256 := h cc (by simp)
      rw [b64encode, b64decodeQuads]
      rw [b64Val_b64Char (a / 4) (by omega),
        b64Val_b64Char (a % 4 * 16 + b / 16) (by omega),
        b64Val_b64Char (b % 16 * 4 + cc / 64) (by omega),
        b64Val_b64Char (cc % 64) (by omega)]
      dsimp only
      rw [if_neg (b64Char_ne_eq (b % 16 * 4 + cc / 64) (by omega)),
        if_neg (b64Char_ne_eq (cc % 64) (by omega))]
      rw [ih (fun x hx => h x (by simp [hx]))]
      dsimp only [Option.map]
      rw [show a / 4 * 4 + (a % 4 * 16 + b / 16) / 16 = a by omega,
        show (a % 4 * 16 + b / 16) % 16 * 16 + (b % 16 * 4 + cc / 64) / 4 = b by omega,
        show (b % 16 * 4 + cc / 64) % 4 * 64 + cc % 64 = cc by omega]

theorem b64_roundtrip (bs : PyBytes) (h : ∀ b ∈ bs, b < 256) :
    b64decode (b64encode bs) = Option.some bs := by
  rw [b64decode]
  rw [List.filter_eq_self.mpr]
  · rw [if_pos (b64encode_length bs)]
    exact b64decodeQuads_encode bs h
  · intro c hc
    rcases b64encode_mem bs h c hc with hv | rfl
    · simp [hv]
    · simp

/-! ## Base32 roundtrip -/

theorem b32encode_length (bs : PyBytes) : (b32encode bs).length % 8 = 0 := by
  induction bs using b32encode.induct with
  | case1 => rfl
  | case2 a => simp [b32encode]
  | case3 a b => simp [b32encode]
  | case4 a b c => simp [b32encode]
  | case5 a b c d => simp [b32encode]
  | case6 a b c d e rest ih => simp [b32encode, List.length_cons]; omega

theorem b32decodeGroups_encode (bs : PyBytes) (h : ∀ b ∈ bs, b < 256) :
    b32decodeGroups (b32encode bs) = Option.some bs := by
  induction bs using b32encode.induct with
  | case1 => rfl
  | case2 a =>
      have ha : a < 256 := h a (by simp)
      rw [b32encode, b32decodeGroups]
      rw [b32Val_b32Char (a / 8) (by omega), b32Val_b32Char (a % 8 * 4) (by omega)]
      dsimp only
      rw [if_pos rfl, if_pos ⟨rfl, rfl, rfl, rfl, rfl, rfl⟩]
      rw [show a / 8 * 8 + a % 8 * 4 / 4 = a by omega]
  | case3 a b =>
      have ha : a < 256 := h a (by simp)
      have hb : b < 256 := h b (by simp)
      rw [b32encode, b32decodeGroups]
      rw [b32Val_b32Char (a / 8) (by omega),
        b32Val_b32Char (a % 8 * 4 + b / 64) (by omega),
        b32Val_b32Char (b / 2 % 32) (by omega),
        b32Val_b32Char (b % 2 * 16) (by omega)]
      dsimp only
      rw [if_neg (b32Char_ne_eq (b / 2 % 32) (by omega)), if_pos rfl,
        if_pos ⟨rfl, rfl, rfl, rfl⟩]
      rw [show a / 8 * 8 + (a % 8 * 4 + b / 64) / 4 = a by omega,
        show (a % 8 * 4 + b / 64) % 4 * 64 + b / 2 % 32 * 2 + b % 2 * 16 / 16 = b by
          omega]
  | case4 a b c =>
      have ha : a < 256 := h a (by simp)
      have hb : b < 256 := h b (by simp)
      have hc : c < 256 := h c (by simp)
      rw [b32encode, b32decodeGroups]
      rw [b32Val_b32Char (a / 8) (by omega),
        b32Val_b32Char (a % 8 * 4 + b / 64) (by omega),
        b32Val_b32Char (b / 2 % 32) (by omega),
        b32Val_b32Char (b % 2 * 16 + c / 16) (by omega),
        b32Val_b32Char (c % 16 * 2) (by omega)]
      dsimp only
      rw [if_neg (b32Char_ne_eq (b / 2 % 32) (by omega)),
        if_neg (b32Char_ne_eq (c % 16 * 2) (by omega)), if_pos rfl,
        if_pos ⟨rfl, rfl, rfl⟩]
      rw [show a / 8 * 8 + (a % 8 * 4 + b / 64) / 4 = a by omega,
        show (a % 8 * 4 + b / 64) % 4 * 64 + b / 2 % 32 * 2 +
          (b % 2 * 16 + c / 16) / 16 = b by omega,
        show (b % 2 * 16 + c / 16) % 16 * 16 + c % 16 * 2 / 2 = c by omega]
  | case5 a b c d =>
      have ha : a < 256 := h a (by simp)
      have hb : b < 256 := h b (by simp)
      have hc : c < 256 := h c (by simp)
      have hd : d < 256 := h d (by simp)
      rw [b32encode, b32decodeGroups]
      rw [b32Val_b32Char (a / 8) (by omega),
        b32Val_b32Char (a % 8 * 4 + b / 64) (by omega),
        b32Val_b32Char (b / 2 % 32) (by omega),
        b32Val_b32Char (b % 2 * 16 + c / 16) (by omega),
        b32Val_b32Char (c % 16 * 2 + d / 128) (by omega),
        b32Val_b32Char (d / 4 % 32) (by omega),
        b32Val_b32Char (d % 4 * 8) (by omega)]
      dsimp only
      rw [if_neg (b32Char_ne_eq (b / 2 % 32) (by omega)),
        if_neg (b32Char_ne_eq (c % 16 * 2 + d / 128) (by omega)),
        if_neg (b32Char_ne_eq (d / 4 % 32) (by omega)), if_pos rfl, if_pos rfl]
      rw [show a / 8 * 8 + (a % 8 * 4 + b / 64) / 4 = a by omega,
        show (a % 8 * 4 + b / 64) % 4 * 64 + b / 2 % 32 * 2 +
          (b % 2 * 16 + c / 16) / 16 = b by omega,
        show (b % 2 * 16 + c / 16) % 16 * 16 + (c % 16 * 2 + d / 128) / 2 = c by omega,
        show (c % 16 * 2 + d / 128) % 2 * 128 + d / 4 % 32 * 4 + d % 4 * 8 / 8 = d by
          omega]
  | case6 a b c d e rest ih =>
      have ha : a < 256 := h a (by simp)
      have hb : b < 256 := h b (by simp)
      have hc : c < 256 := h c (by simp)
      have hd : d < 256 := h d (by simp)
      have he : e < 256 := h e (by simp)
      rw [b32encode, b32decodeGroups]
      rw [b32Val_b32Char (a / 8) (by omega),
        b32Val_b32Char (a % 8 * 4 + b / 64) (by omega),
        b32Val_b32Char (b / 2 % 32) (by omega),
        b32Val_b32Char (b % 2 * 16 + c / 16) (by omega),
        b32Val_b32Char (c % 16 * 2 + d / 128) (by omega),
        b32Val_b32Char (d / 4 % 32) (by omega),
        b32Val_b32Char (d % 4 * 8 + e / 32) (by omega),
        b32Val_b32Char (e % 32) (by omega)]
      dsimp only
      rw [if_neg (b32Char_ne_eq (b / 2 % 32) (by omega)),
        if_neg (b32Char_ne_eq (c % 16 * 2 + d / 128) (by omega)),
        if_neg (b32Char_ne_eq (d / 4 % 32) (by omega)),
        if_neg (b32Char_ne_eq (e % 32) (by omega))]
      rw [ih (fun x hx => h x (by simp [hx]))]
      dsimp only [Option.map]
      rw [show a / 8 * 8 + (a % 8 * 4 + b / 64) / 4 = a by omega,
        show (a % 8 * 4 + b / 64) % 4 * 64 + b / 2 % 32 * 2 +
          (b % 2 * 16 + c / 16) / 16 = b by omega,
        show (b % 2 * 16 + c / 16) % 16 * 16 + (c % 16 * 2 + d / 128) / 2 = c by omega,
        show (c % 16 * 2 + d / 128) % 2 * 128 + d / 4 % 32 * 4 +
          (d % 4 * 8 + e / 32) / 8 = d by omega,
        show (d % 4 * 8 + e / 32) % 8 * 32 + e % 32 = e by omega]

theorem b32_roundtrip (bs : PyBytes) (h : ∀ b ∈ bs, b < 256) :
    b32decode (b32encode bs) = Option.some bs := by
  rw [b32decode, if_pos (b32encode_length bs)]
  exact b32decodeGroups_encode bs h

/-! ## Decimal integers: roundtrip -/

theorem dropWhile_of_all_false {p : Char → Bool} {s : PyStr}
    (h : ∀ c ∈ s, p c = false) : s.dropWhile p = s := by
  cases s with
  | nil => rfl
  | cons c cs => rw [List.dropWhile_cons_of_neg (by simp [h c (by simp)])]

theorem pyStrip_eq_self {s : PyStr} (h : ∀ c ∈ s, pyIsSpace c = false) :
    pyStrip s = s := by
  rw [pyStrip, dropWhile_of_all_false h,
    dropWhile_of_all_false (fun c hc => h c (by simpa using hc)), List.reverse_reverse]

theorem digit_char_facts : ∀ d < 10,
    (Char.ofNat (48 + d)).isDigit = true ∧ pyIsSpace (Char.ofNat (48 + d)) = false ∧
    Char.ofNat (48 + d) ≠ '-' ∧ Char.ofNat (48 + d) ≠ '+' ∧
    (Char.ofNat (48 + d)).toNat = 48 + d := by decide

theorem natDigits_ne_nil (n : Nat) : natDigits n ≠ [] := by
  rw [natDigits]
  split <;> simp

theorem natDigits_mem (n : Nat) :
    ∀ c ∈ natDigits n, ∃ d < 10, c = Char.ofNat (48 + d) := by
  induction n using natDigits.induct with
  | case1 n h =>
      intro c hc
      rw [natDigits, dif_pos h] at hc
      simp at hc
      exact ⟨n, h, hc⟩
  | case2 n h ih =>
      intro c hc
      rw [natDigits, dif_neg h] at hc
      rcases List.mem_append.mp hc with hm | hm
      · exact ih c hm
      · simp at hm
        exact ⟨n % 10, by omega, hm⟩

theorem digitsVal_append_single (ds : PyStr) (c : Char) :
    digitsVal (ds ++ [c]) = digitsVal ds * 10 + (c.toNat - 48) := by
  simp [digitsVal, List.foldl_append]

theorem digitsVal_natDigits (n : Nat) : digitsVal (natDigits n) = n := by
  induction n using natDigits.induct with
  | case1 n h =>
      rw [natDigits, dif_pos h]
      simp [digitsVal, (digit_char_facts n h).2.2.2.2]
  | case2 n h ih =>
      rw [natDigits, dif_neg h, digitsVal_append_single, ih,
        (digit_char_facts (n % 10) (by omega)).2.2.2.2]
      omega

theorem natDigits_isDigit (n : Nat) : ∀ c ∈ natDigits n, c.isDigit = true := by
  intro c hc
  obtain ⟨d, hd, rfl⟩ := natDigits_mem n c hc
  exact (digit_char_facts d hd).1

theorem natDigits_not_space (n : Nat) : ∀ c ∈ natDigits n, pyIsSpace c = false := by
  intro c hc
  obtain ⟨d, hd, rfl⟩ := natDigits_mem n c hc
  exact (digit_char_facts d hd).2.1

theorem undTail_digits {ds : PyStr} (h : ∀ c ∈ ds, c.isDigit = true) :
    undTail ds = true := by
  induction ds with
  | nil => rfl
  | cons c rest ih =>
      have hc : c.isDigit = true := h c (by simp)
      rw [undTail.eq_def]
      dsimp only
      rw [if_neg (by rintro rfl; exact absurd hc (by decide)), hc,
        ih (fun d hd => h d (by simp [hd]))]
      rfl

theorem filter_underscore_id {ds : PyStr} (h : ('_' : Char) ∉ ds) :
    ds.filter (fun x => !(x = '_')) = ds := by
  rw [List.filter_eq_self]
  intro a ha
  simp only [Bool.not_eq_true', decide_eq_false_iff_not]
  rintro rfl
  exact h ha

theorem digits_no_underscore {ds : PyStr} (h : ∀ c ∈ ds, c.isDigit = true) :
    ('_' : Char) ∉ ds := by
  intro hm
  exact absurd (h '_' hm) (by decide)

theorem parseIntCore_natDigits (n : Nat) :
    parseIntCore (natDigits n) = Option.some (n : Int) := by
  obtain ⟨c, cs, hcs⟩ : ∃ c cs, natDigits n = c :: cs := by
    cases h : natDigits n with
    | nil => exact absurd h (natDigits_ne_nil _)
    | cons c cs => exact ⟨c, cs, rfl⟩
  have hdig : ∀ d ∈ (c :: cs : PyStr), d.isDigit = true := by
    rw [← hcs]; exact natDigits_isDigit n
  rw [hcs, parseIntCore, if_pos (by
    rw [hdig c (by simp), undTail_digits (fun d hd => hdig d (by simp [hd]))]
    rfl)]
  rw [filter_underscore_id (digits_no_underscore hdig), ← hcs, digitsVal_natDigits]

theorem parseIntPy_intRepr (n : Int) : parseIntPy (intRepr n) = Option.some n := by
  by_cases hn : n < 0
  · rw [intRepr, if_pos hn, parseIntPy]
    have hstrip : pyStrip ('-' :: natDigits n.natAbs) = '-' :: natDigits n.natAbs := by
      apply pyStrip_eq_self
      intro c hc
      rcases List.mem_cons.mp hc with rfl | hm
      · decide
      · exact natDigits_not_space _ c hm
    rw [hstrip]
    dsimp only
    rw [if_pos rfl, parseIntCore_natDigits]
    rw [show Option.map Int.neg (Option.some (n.natAbs : Int))
        = Option.some (-(n.natAbs : Int)) from rfl]
    congr 1
    omega
  · rw [intRepr, if_neg hn, parseIntPy]
    have hstrip : pyStrip (natDigits n.toNat) = natDigits n.toNat :=
      pyStrip_eq_self (natDigits_not_space _)
    rw [hstrip]
    obtain ⟨c, cs, hcs⟩ : ∃ c cs, natDigits n.toNat = c :: cs := by
      cases h : natDigits n.toNat with
      | nil => exact absurd h (natDigits_ne_nil _)
      | cons c cs => exact ⟨c, cs, rfl⟩
    obtain ⟨d, hd, hcd⟩ := natDigits_mem n.toNat c (by rw [hcs]; simp)
    rw [hcs]
    dsimp only
    rw [if_neg (by rw [hcd]; exact (digit_char_facts d hd).2.2.1),
      if_neg (by rw [hcd]; exact (digit_char_facts d hd).2.2.2.1),
      ← hcs, parseIntCore_natDigits]
    congr 1
    omega

/-! ## Scanner and token lemmas -/

theorem char_ne_of_toNat {c d : Char} (h : c.toNat ≠ d.toNat) : c ≠ d := by
  intro hc
  exact h (by rw [hc])

theorem isDigit_toNat {c : Char} (h : c.isDigit = true) :
    48 ≤ c.toNat ∧ c.toNat ≤ 57 := by
  simp only [Char.isDigit, Bool.and_eq_true, decide_eq_true_eq, Char.le_def] at h
  obtain ⟨h1, h2⟩ := h
  exact ⟨BitVec.le_def.mp h1, BitVec.le_def.mp h2⟩

theorem skipSp_cons {c : Char} (h : c ≠ ' ') (s : PyStr) : skipSp (c :: s) = c :: s := by
  rw [skipSp, List.dropWhile_cons_of_neg (by simp [h])]

theorem isDelim_not_digit {c : Char} (h : isDelim c = true) : c.isDigit = false := by
  simp only [isDelim, Bool.or_eq_true, decide_eq_true_eq] at h
  rcases h with ((((rfl | rfl) | rfl) | rfl) | rfl) | rfl <;> decide

theorem isDelim_ne {c : Char} (h : isDelim c = true) :
    c ≠ '.' ∧ c ≠ 'e' ∧ c ≠ 'E' := by
  simp only [isDelim, Bool.or_eq_true, decide_eq_true_eq] at h
  rcases h with ((((rfl | rfl) | rfl) | rfl) | rfl) | rfl <;>
    exact ⟨by decide, by decide, by decide⟩

theorem expectTok_append (lit rest : PyStr) :
    expectTok lit (lit ++ rest) = Option.some rest := by
  rw [expectTok, if_pos (List.take_left lit rest), List.drop_left]

theorem scanDigits_of_all {ds rest : PyStr} (h1 : ∀ c ∈ ds, c.isDigit = true)
    (h2 : ∀ c, rest.head? = Option.some c → c.isDigit = false) :
    scanDigits (ds ++ rest) = (ds, rest) := by
  induction ds with
  | nil =>
      simp only [List.nil_append, scanDigits]
      cases rest with
      | nil => rfl
      | cons c r =>
          rw [List.takeWhile_cons_of_neg (by simp [h2 c rfl]),
            List.dropWhile_cons_of_neg (by simp [h2 c rfl])]
  | cons d ds ih =>
      have hd : d.isDigit = true := h1 d (by simp)
      have ih2 := ih (fun c hc => h1 c (by simp [hc]))
      simp only [scanDigits] at ih2 ⊢
      rw [List.cons_append, List.takeWhile_cons_of_pos (by simp [hd]),
        List.dropWhile_cons_of_pos (by simp [hd])]
      rw [Prod.mk.injEq] at ih2 ⊢
      exact ⟨by rw [ih2.1], ih2.2⟩

theorem scanFrac_delim {s : PyStr} (h : delimOK s = true) : scanFrac s = ([], s) := by
  cases s with
  | nil => rfl
  | cons c r =>
      rw [scanFrac, if_neg]
      exact (isDelim_ne (by simpa [delimOK] using h)).1

theorem scanExp_delim {s : PyStr} (h : delimOK s = true) : scanExp s = ([], s) := by
  cases s with
  | nil => rfl
  | cons c r =>
      rw [scanExp.eq_def]
      dsimp only
      rw [if_neg]
      intro hc
      rcases hc with rfl | rfl
      · exact absurd (isDelim_ne (by simpa [delimOK] using h)).2.1 (by simp)
      · exact absurd (isDelim_ne (by simpa [delimOK] using h)).2.2 (by simp)

theorem delim_head_not_digit {rest : PyStr} (h : delimOK rest = true) :
    ∀ c, rest.head? = Option.some c → c.isDigit = false := by
  intro c hc
  cases rest with
  | nil => simp at hc
  | cons d r =>
      simp at hc
      subst hc
      exact isDelim_not_digit (by simpa [delimOK] using h)

theorem scanNumber_digits {ds rest : PyStr} (hne : ds ≠ [])
    (h1 : ∀ c ∈ ds, c.isDigit = true) (h2 : delimOK rest = true) :
    scanNumber (ds ++ rest) = Option.some (ds, rest) := by
  rw [scanNumber]
  rw [scanDigits_of_all h1 (delim_head_not_digit h2)]
  cases ds with
  | nil => exact absurd rfl hne
  | cons d ds' =>
      dsimp only
      rw [scanFrac_delim h2]
      dsimp only
      rw [scanExp_delim h2]
      simp

theorem digits_no_dotE {ds : PyStr} (h : ∀ c ∈ ds, c.isDigit = true) :
    (ds.contains '.' || ds.contains 'e' || ds.contains 'E') = false := by
  have h1 : ('.' : Char) ∉ ds := fun hm => by simpa using h _ hm
  have h2 : ('e' : Char) ∉ ds := fun hm => by simpa using h _ hm
  have h3 : ('E' : Char) ∉ ds := fun hm => by simpa using h _ hm
  simp [h1, h2, h3]

/-- `str(n)` starts with `0` only for `n = 0`. -/
theorem natDigits_head_zero {n : Nat} (h : (natDigits n).head? = Option.some '0') :
    natDigits n = ['0'] := by
  induction n using natDigits.induct with
  | case1 n hn =>
      rw [natDigits, dif_pos hn] at h ⊢
      rw [List.head?_cons, Option.some.injEq] at h
      have h1 := (digit_char_facts n hn).2.2.2.2
      rw [h] at h1
      have hn0 : n = 0 := by
        have h2 : (48 : Nat) = 48 + n := by simpa using h1
        omega
      subst hn0
      decide
  | case2 n hn ih =>
      rw [natDigits, dif_neg hn] at h
      obtain ⟨c, cs, hcs⟩ : ∃ c cs, natDigits (n / 10) = c :: cs := by
        cases h' : natDigits (n / 10) with
        | nil => exact absurd h' (natDigits_ne_nil _)
        | cons c cs => exact ⟨c, cs, rfl⟩
      rw [hcs, List.cons_append, List.head?_cons, Option.some.injEq] at h
      have hh : (natDigits (n / 10)).head? = Option.some '0' := by
        rw [hcs, h]
        rfl
      have hone := ih hh
      have hv := digitsVal_natDigits (n / 10)
      rw [hone] at hv
      have h0 : digitsVal ['0'] = 0 := by decide
      rw [h0] at hv
      exact absurd hv (by omega)

theorem natDigits_lz (m : Nat) :
    (natDigits m).head? = Option.some '0' →
    (natDigits m).all (fun x => x = '0') = true := by
  intro h
  rw [natDigits_head_zero h]
  decide

theorem parseNumber_digits {ds rest : PyStr} (hne : ds ≠ [])
    (h1 : ∀ c ∈ ds, c.isDigit = true) (h2 : delimOK rest = true)
    (hlz : ds.head? = Option.some '0' → ds.all (fun x => x = '0') = true) :
    parseNumber (ds ++ rest) = Option.some (.int (digitsVal ds : Nat), rest) := by
  rw [parseNumber, scanNumber_digits hne h1 h2]
  dsimp only
  rw [if_neg (by rw [digits_no_dotE h1]; simp)]
  rw [if_neg (by rintro ⟨ha, hb⟩; rw [hlz ha] at hb; cases hb)]

/-! ## String and bytes literal body roundtrips -/

theorem parseStrBody_esc (q : Char) (hq : q = '\'' ∨ q = '"') (s rest : PyStr) :
    parseStrBody q ((s.map (reprEscChar q)).flatten ++ q :: rest) =
      Option.some (s, rest) := by
  have hqnb : q ≠ '\\' := by rcases hq with rfl | rfl <;> decide
  induction s with
  | nil =>
      simp only [List.map_nil, List.flatten_nil, List.nil_append]
      rw [parseStrBody.eq_def]; dsimp only; rw [if_pos rfl]
  | cons c cs ih =>
      simp only [List.map_cons, List.flatten_cons, List.append_assoc]
      rw [reprEscChar]
      by_cases h1 : c = '\\'
      · rw [if_pos h1, List.cons_append, List.cons_append, List.nil_append]
        rw [parseStrBody.eq_def]; dsimp only
        rw [if_neg (Ne.symm hqnb), if_pos rfl]
        rw [if_neg (by decide), if_neg (by decide), if_neg (by decide), if_pos rfl, ih]
        simp [h1]
      · rw [if_neg h1]
        by_cases h2 : c = q
        · rw [if_pos h2, List.cons_append, List.cons_append, List.nil_append]
          rw [parseStrBody.eq_def]; dsimp only
          rw [if_neg (Ne.symm hqnb), if_pos rfl]
          rcases hq with rfl | rfl
          · rw [if_neg (by decide), if_neg (by decide), if_neg (by decide),
              if_neg (by decide), if_pos rfl, ih]
            simp [h2]
          · rw [if_neg (by decide), if_neg (by decide), if_neg (by decide),
              if_neg (by decide), if_neg (by decide), if_pos rfl, ih]
            simp [h2]
        · rw [if_neg h2]
          by_cases h3 : c = '\n'
          · rw [if_pos h3, List.cons_append, List.cons_append, List.nil_append]
            rw [parseStrBody.eq_def]; dsimp only
            rw [if_neg (Ne.symm hqnb), if_pos rfl]
            rw [if_pos rfl, ih]
            simp [h3]
          · rw [if_neg h3]
            by_cases h4 : c = '\x0d'
            · rw [if_pos h4, List.cons_append, List.cons_append, List.nil_append]
              rw [parseStrBody.eq_def]; dsimp only
              rw [if_neg (Ne.symm hqnb), if_pos rfl]
              rw [if_neg (by decide), if_pos rfl, ih]
              simp [h4]
            · rw [if_neg h4]
              by_cases h5 : c = '\t'
              · rw [if_pos h5, List.cons_append, List.cons_append, List.nil_append]
                rw [parseStrBody.eq_def]; dsimp only
                rw [if_neg (Ne.symm hqnb), if_pos rfl]
                rw [if_neg (by decide), if_neg (by decide), if_pos rfl, ih]
                simp [h5]
              · rw [if_neg h5]
                by_cases h6 : c.toNat < 32 || (127 ≤ c.toNat && c.toNat < 160)
                · rw [if_pos h6]
                  rw [List.cons_append, List.cons_append, List.cons_append,
                    List.cons_append, List.nil_append]
                  rw [parseStrBody.eq_def]; dsimp only
                  rw [if_neg (Ne.symm hqnb), if_pos rfl]
                  rw [if_neg (by decide), if_neg (by decide), if_neg (by decide),
                    if_neg (by decide), if_neg (by decide), if_neg (by decide),
                    if_pos rfl]
                  simp only [Bool.or_eq_true, Bool.and_eq_true, decide_eq_true_eq] at h6
                  rw [hexVal_hexDigitChar (c.toNat / 16) (by omega),
                    hexVal_hexDigitChar (c.toNat % 16) (by omega)]
                  dsimp only
                  rw [ih, show 16 * (c.toNat / 16) + c.toNat % 16 = c.toNat by omega,
                    char_ofNat_toNat]
                  rfl
                · rw [if_neg h6, List.cons_append, List.nil_append]
                  rw [parseStrBody.eq_def]; dsimp only
                  rw [if_neg h2, if_neg h1, if_neg h3, ih]
                  rfl

theorem parseBytesBody_esc (q : Nat) (hq : q = 39 ∨ q = 34) (bs : PyBytes)
    (hbs : ∀ b ∈ bs, b < 256) (rest : PyStr) :
    parseBytesBody (Char.ofNat q) ((bs.map (reprEscByte q)).flatten ++
        Char.ofNat q :: rest) = Option.some (bs, rest) := by
  have hqs : Char.ofNat q ≠ '\\' := by rcases hq with rfl | rfl <;> decide
  induction bs with
  | nil =>
      simp only [List.map_nil, List.flatten_nil, List.nil_append]
      rw [parseBytesBody.eq_def]; dsimp only; rw [if_pos rfl]
  | cons b bs' ih =>
      have hb : b < 256 := hbs b (by simp)
      have ih2 := ih (fun x hx => hbs x (by simp [hx]))
      simp only [List.map_cons, List.flatten_cons, List.append_assoc]
      rw [reprEscByte]
      by_cases h1 : b = 92
      · rw [if_pos h1, List.cons_append, List.cons_append, List.nil_append]
        rw [parseBytesBody.eq_def]; dsimp only
        rw [if_neg (Ne.symm hqs), if_pos rfl]
        rw [if_neg (by decide), if_neg (by decide), if_neg (by decide), if_pos rfl, ih2]
        simp [h1]
      · rw [if_neg h1]
        by_cases h2 : b = q
        · rw [if_pos h2, List.cons_append, List.cons_append, List.nil_append]
          rw [parseBytesBody.eq_def]; dsimp only
          rw [if_neg (Ne.symm hqs), if_pos rfl]
          rcases hq with rfl | rfl
          · rw [if_neg (by decide), if_neg (by decide), if_neg (by decide),
              if_neg (by decide), if_pos (by decide), ih2]
            simp [h2]
          · rw [if_neg (by decide), if_neg (by decide), if_neg (by decide),
              if_neg (by decide), if_neg (by decide), if_pos (by decide), ih2]
            simp [h2]
        · rw [if_neg h2]
          by_cases h3 : b = 10
          · rw [if_pos h3, List.cons_append, List.cons_append, List.nil_append]
            rw [parseBytesBody.eq_def]; dsimp only
            rw [if_neg (Ne.symm hqs), if_pos rfl]
            rw [if_pos rfl, ih2]
            simp [h3]
          · rw [if_neg h3]
            by_cases h4 : b = 13
            · rw [if_pos h4, List.cons_append, List.cons_append, List.nil_append]
              rw [parseBytesBody.eq_def]; dsimp only
              rw [if_neg (Ne.symm hqs), if_pos rfl]
              rw [if_neg (by decide), if_pos rfl, ih2]
              simp [h4]
            · rw [if_neg h4]
              by_cases h5 : b = 9
              · rw [if_pos h5, List.cons_append, List.cons_append, List.nil_append]
                rw [parseBytesBody.eq_def]; dsimp only
                rw [if_neg (Ne.symm hqs), if_pos rfl]
                rw [if_neg (by decide), if_neg (by decide), if_pos rfl, ih2]
                simp [h5]
              · rw [if_neg h5]
                by_cases h6 : b < 32 || 127 ≤ b
                · rw [if_pos h6]
                  rw [List.cons_append, List.cons_append, List.cons_append,
                    List.cons_append, List.nil_append]
                  rw [parseBytesBody.eq_def]; dsimp only
                  rw [if_neg (Ne.symm hqs), if_pos rfl]
                  rw [if_neg (by decide), if_neg (by decide), if_neg (by decide),
                    if_neg (by decide), if_neg (by decide), if_neg (by decide),
                    if_pos rfl]
                  simp only [Bool.or_eq_true, decide_eq_true_eq] at h6
                  rw [hexVal_hexDigitChar (b / 16) (by omega),
                    hexVal_hexDigitChar (b % 16) (by omega)]
                  dsimp only
                  rw [ih2, show 16 * (b / 16) + b % 16 = b by omega]
                  rfl
                · rw [if_neg h6, List.cons_append, List.nil_append]
                  have hge : 32 ≤ b := by
                    rcases Nat.lt_or_ge b 32 with hh | hh
                    · exact absurd (by simp [hh]) h6
                    · exact hh
                  have h127 : b < 127 := by
                    rcases Nat.lt_or_ge b 127 with hh | hh
                    · exact hh
                    · exact absurd (by simp [hh]) h6
                  have hlt : b < 55296 := by omega
                  rw [parseBytesBody.eq_def]; dsimp only
                  rw [if_neg (char_ne_of_toNat (by
                    rw [char_toNat_ofNat hlt, char_toNat_ofNat (by
                      rcases hq with rfl | rfl <;> omega)]
                    exact h2))]
                  rw [if_neg (char_ne_of_toNat (by
                    rw [char_toNat_ofNat hlt]
                    intro he
                    exact h1 (by simpa using he)))]
                  rw [if_pos ⟨by rw [char_toNat_ofNat hlt]; omega,
                    char_ne_of_toNat (by
                      rw [char_toNat_ofNat hlt]
                      intro he
                      exact h3 (by simpa using he))⟩]
                  rw [ih2, char_toNat_ofNat hlt]
                  rfl

/-! ## Finite float literals parse back to themselves -/

theorem parseNumber_shape_frac (ip fds rest : PyStr)
    (hip : ip ≠ []) (hipd : ∀ c ∈ ip, c.isDigit = true)
    (hfds : fds ≠ []) (hfdsd : ∀ c ∈ fds, c.isDigit = true)
    (hr : delimOK rest = true) :
    parseNumber ((ip ++ '.' :: fds) ++ rest) =
      Option.some (.float (ip ++ '.' :: fds), rest) := by
  rw [parseNumber, scanNumber, List.append_assoc, List.cons_append,
    scanDigits_of_all hipd (by intro x hx; simp at hx; rw [← hx]; decide)]
  cases hie : ip with
  | nil => exact absurd hie hip
  | cons d ds =>
      dsimp only
      rw [scanFrac.eq_def]
      dsimp only
      rw [if_pos rfl]
      dsimp only
      rw [scanDigits_of_all hfdsd (delim_head_not_digit hr)]
      dsimp only
      rw [scanExp_delim hr]
      dsimp only
      rw [← hie]
      rw [if_pos (by simp)]
      rw [List.append_nil]

theorem parseNumber_shape_frac_exp (ip fds dds rest : PyStr) (sg : Char)
    (hip : ip ≠ []) (hipd : ∀ c ∈ ip, c.isDigit = true)
    (hfdsd : ∀ c ∈ fds, c.isDigit = true)
    (hsg : sg = '+' ∨ sg = '-') (hdds : dds ≠ [])
    (hddsd : ∀ c ∈ dds, c.isDigit = true)
    (hr : delimOK rest = true) :
    parseNumber ((ip ++ '.' :: (fds ++ 'e' :: sg :: dds)) ++ rest) =
      Option.some (.float (ip ++ '.' :: (fds ++ 'e' :: sg :: dds)), rest) := by
  have hside1 : ∀ c : Char,
      (('.' :: ((fds ++ 'e' :: sg :: dds) ++ rest) : PyStr)).head? = Option.some c →
        c.isDigit = false := by
    intro x hx
    simp at hx
    rw [← hx]
    decide
  have hside2 : ∀ c : Char,
      (('e' :: sg :: (dds ++ rest) : PyStr)).head? = Option.some c →
        c.isDigit = false := by
    intro x hx
    simp at hx
    rw [← hx]
    decide
  rw [parseNumber, scanNumber, List.append_assoc, List.cons_append]
  rw [scanDigits_of_all hipd hside1]
  cases hie : ip with
  | nil => exact absurd hie hip
  | cons d ds =>
      dsimp only
      rw [scanFrac.eq_def]
      dsimp only
      rw [if_pos rfl]
      rw [show ((fds ++ 'e' :: sg :: dds) ++ rest : PyStr)
          = fds ++ 'e' :: sg :: (dds ++ rest) by simp]
      rw [scanDigits_of_all hfdsd hside2]
      dsimp only
      rw [scanExp.eq_def]
      dsimp only
      rw [if_pos (Or.inl rfl)]
      rw [if_pos hsg]
      rw [scanDigits_of_all hddsd (delim_head_not_digit hr)]
      cases dds with
      | nil => exact absurd rfl hdds
      | cons d0 dds' =>
          dsimp only
          rw [← hie]
          simp

theorem parseNumber_shape_exp (ip dds rest : PyStr) (sg : Char)
    (hip : ip ≠ []) (hipd : ∀ c ∈ ip, c.isDigit = true)
    (hsg : sg = '+' ∨ sg = '-') (hdds : dds ≠ [])
    (hddsd : ∀ c ∈ dds, c.isDigit = true)
    (hr : delimOK rest = true) :
    parseNumber ((ip ++ 'e' :: sg :: dds) ++ rest) =
      Option.some (.float (ip ++ 'e' :: sg :: dds), rest) := by
  have hside1 : ∀ c : Char,
      (('e' :: sg :: (dds ++ rest) : PyStr)).head? = Option.some c →
        c.isDigit = false := by
    intro x hx
    simp at hx
    rw [← hx]
    decide
  rw [parseNumber, scanNumber, List.append_assoc, List.cons_append]
  rw [show (sg :: dds ++ rest : PyStr) = sg :: (dds ++ rest) from rfl]
  rw [scanDigits_of_all hipd hside1]
  cases hie : ip with
  | nil => exact absurd hie hip
  | cons d ds =>
      dsimp only
      rw [scanFrac.eq_def]
      dsimp only
      rw [if_neg (show ¬(('e' : Char) = '.') by decide)]
      rw [scanExp.eq_def]
      dsimp only
      rw [if_pos (Or.inl rfl)]
      rw [if_pos hsg]
      rw [scanDigits_of_all hddsd (delim_head_not_digit hr)]
      cases dds with
      | nil => exact absurd rfl hdds
      | cons d0 dds' =>
          dsimp only
          rw [← hie]
          simp

theorem wfFloatBody_parseNumber {t rest : PyStr} (h : wfFloatBody t = true)
    (hr : delimOK rest = true) :
    parseNumber (t ++ rest) = Option.some (.float t, rest) := by
  have hsplit : t.takeWhile Char.isDigit ++ t.dropWhile Char.isDigit = t :=
    List.takeWhile_append_dropWhile _ _
  rw [wfFloatBody] at h
  simp only [scanDigits] at h
  rw [Bool.and_eq_true] at h
  obtain ⟨hip, hm⟩ := h
  rw [decide_eq_true_eq] at hip
  have hipd : ∀ c ∈ t.takeWhile Char.isDigit, c.isDigit = true :=
    fun c hc => List.mem_takeWhile_imp hc
  cases htl : t.dropWhile Char.isDigit with
  | nil => rw [htl] at hm; exact absurd hm (by simp)
  | cons c r2 =>
      rw [htl] at hm
      dsimp only at hm
      rw [htl] at hsplit
      generalize hgip : t.takeWhile Char.isDigit = ip at hip hipd hsplit
      by_cases hc : c = '.'
      · rw [if_pos hc] at hm
        rw [Bool.and_eq_true] at hm
        obtain ⟨hfds, hm2⟩ := hm
        rw [decide_eq_true_eq] at hfds
        have hfdsd : ∀ x ∈ r2.takeWhile Char.isDigit, x.isDigit = true :=
          fun x hx => List.mem_takeWhile_imp hx
        have hr2 : r2.takeWhile Char.isDigit ++ r2.dropWhile Char.isDigit = r2 :=
          List.takeWhile_append_dropWhile _ _
        cases htl2 : r2.dropWhile Char.isDigit with
        | nil =>
            rw [htl2, List.append_nil] at hr2
            generalize hgfds : r2.takeWhile Char.isDigit = fds at hfds hfdsd hr2
            have hteq : t = ip ++ '.' :: fds := by rw [← hsplit, hc, hr2]
            rw [hteq]
            exact parseNumber_shape_frac ip fds rest hip hipd hfds hfdsd hr
        | cons e r3 =>
            rw [htl2] at hm2 hr2
            dsimp only at hm2
            rw [Bool.and_eq_true, decide_eq_true_eq] at hm2
            obtain ⟨he, hexp⟩ := hm2
            cases r3 with
            | nil => exact absurd hexp (by decide)
            | cons sg dds =>
                rw [wfExpTail.eq_def] at hexp
                dsimp only at hexp
                rw [Bool.and_eq_true, Bool.and_eq_true] at hexp
                obtain ⟨⟨hsg, hddsne⟩, hddsd⟩ := hexp
                rw [Bool.or_eq_true, decide_eq_true_eq, decide_eq_true_eq] at hsg
                rw [decide_eq_true_eq] at hddsne
                rw [List.all_eq_true] at hddsd
                have hfdsd : ∀ x ∈ r2.takeWhile Char.isDigit, x.isDigit = true :=
                  fun x hx => List.mem_takeWhile_imp hx
                generalize hgfds : r2.takeWhile Char.isDigit = fds at hfdsd hr2
                have hteq : t = ip ++ '.' :: (fds ++ 'e' :: sg :: dds) := by
                  rw [← hsplit, hc, ← hr2, he]
                rw [hteq]
                exact parseNumber_shape_frac_exp ip fds dds rest sg hip hipd hfdsd
                  hsg hddsne hddsd hr
      · rw [if_neg hc] at hm
        by_cases he : c = 'e'
        · rw [if_pos he] at hm
          cases r2 with
          | nil => exact absurd hm (by decide)
          | cons sg dds =>
              rw [wfExpTail.eq_def] at hm
              dsimp only at hm
              rw [Bool.and_eq_true, Bool.and_eq_true] at hm
              obtain ⟨⟨hsg, hddsne⟩, hddsd⟩ := hm
              rw [Bool.or_eq_true, decide_eq_true_eq, decide_eq_true_eq] at hsg
              rw [decide_eq_true_eq] at hddsne
              rw [List.all_eq_true] at hddsd
              have hteq : t = ip ++ 'e' :: sg :: dds := by rw [← hsplit, he]
              rw [hteq]
              exact parseNumber_shape_exp ip dds rest sg hip hipd hsg hddsne hddsd hr
        · rw [if_neg he] at hm
          exact absurd hm (by simp)

theorem isWfFloat_head {s : PyStr} (h : isWfFloat s = true) :
    ∃ c t, s = c :: t ∧ (c = '-' ∨ c.isDigit = true) := by
  cases s with
  | nil => exact absurd h (by simp [isWfFloat])
  | cons c t =>
      refine ⟨c, t, rfl, ?_⟩
      rw [isWfFloat] at h
      by_cases hc : c = '-'
      · exact Or.inl hc
      · rw [if_neg hc] at h
        rw [wfFloatBody] at h
        simp only [scanDigits] at h
        rw [Bool.and_eq_true, decide_eq_true_eq] at h
        cases hh : (c :: t).takeWhile Char.isDigit with
        | nil => exact absurd hh h.1
        | cons d ds =>
            by_cases hd : c.isDigit
            · exact Or.inr hd
            · rw [List.takeWhile_cons_of_neg (by simp [hd])] at hh
              exact absurd hh (by simp)

/-! ## Head and fuel facts for the repr/parse roundtrip -/

theorem digit_not_delim {c : Char} (h : c.isDigit = true) : isDelim c = false := by
  simp only [isDelim, Bool.or_eq_false_iff, decide_eq_false_iff_not]
  refine ⟨⟨⟨⟨⟨?_, ?_⟩, ?_⟩, ?_⟩, ?_⟩, ?_⟩ <;>
    (rintro rfl; exact absurd h (by decide))

theorem digit_head_ne {c : Char} (h : c.isDigit = true) :
    c ≠ '\'' ∧ c ≠ '"' ∧ c ≠ 'b' ∧ c ≠ 'T' ∧ c ≠ 'F' ∧ c ≠ 'N' ∧ c ≠ '-' ∧
    c ≠ '(' ∧ c ≠ '[' ∧ c ≠ '{' ∧ c ≠ 's' := by
  refine ⟨?_, ?_, ?_, ?_, ?_, ?_, ?_, ?_, ?_, ?_, ?_⟩ <;>
    (rintro rfl; exact absurd h (by decide))

theorem isDelim_false_ne {c : Char} (h : isDelim c = false) :
    c ≠ ',' ∧ c ≠ ')' ∧ c ≠ ']' ∧ c ≠ '}' ∧ c ≠ ':' ∧ c ≠ ' ' := by
  refine ⟨?_, ?_, ?_, ?_, ?_, ?_⟩ <;> (rintro rfl; simp [isDelim] at h)

theorem needV_pos (v : PyValue) : 1 ≤ needV v := by
  cases v with
  | tup xs => cases xs with
      | nil => simp [needV]
      | cons x ys => cases ys <;> simp [needV]
  | list xs => cases xs <;> simp [needV]
  | set xs => cases xs <;> simp [needV]
  | dict ps => cases ps with
      | nil => simp [needV]
      | cons p ps' => cases p; simp [needV]
  | _ => simp [needV]

theorem needItems_pos {xs : List PyValue} (h : xs ≠ []) : 1 ≤ needItems xs := by
  cases xs with
  | nil => exact absurd rfl h
  | cons x ys => cases ys <;> simp [needItems]

theorem needPairs_pos (ps : List (PyValue × PyValue)) : 1 ≤ needPairs ps := by
  cases ps with
  | nil => simp [needPairs]
  | cons p ps' => cases p; simp [needPairs]

/-- Under wellformedness, the first character of a `repr` is never a
delimiter (in particular never a space and never a closing bracket). -/
theorem reprValue_head (v : PyValue) (hv : wfV v = true) :
    ∃ c cs, reprValue v = c :: cs ∧ isDelim c = false := by
  cases v with
  | str s =>
      refine ⟨reprQuote (s.contains '\'') (s.contains '"'),
        (s.map (reprEscChar (reprQuote (s.contains '\'') (s.contains '"')))).flatten
          ++ [reprQuote (s.contains '\'') (s.contains '"')], rfl, ?_⟩
      rw [reprQuote]
      split <;> decide
  | bytes bs =>
      exact ⟨'b', _, rfl, by decide⟩
  | int n =>
      by_cases hn : n < 0
      · exact ⟨'-', _, by rw [reprValue, intRepr, if_pos hn], by decide⟩
      · obtain ⟨c, cs, hcs⟩ : ∃ c cs, natDigits n.toNat = c :: cs := by
          cases h : natDigits n.toNat with
          | nil => exact absurd h (natDigits_ne_nil _)
          | cons c cs => exact ⟨c, cs, rfl⟩
        refine ⟨c, cs, by rw [reprValue, intRepr, if_neg hn, hcs], ?_⟩
        exact digit_not_delim (natDigits_isDigit _ c (by rw [hcs]; simp))
  | float s =>
      obtain ⟨c, t, hst, hc⟩ := isWfFloat_head (by simpa [wfV] using hv)
      refine ⟨c, t, by rw [reprValue, hst], ?_⟩
      rcases hc with rfl | hd
      · decide
      · exact digit_not_delim hd
  | bool b => cases b with
      | true => exact ⟨'T', _, rfl, by decide⟩
      | false => exact ⟨'F', _, rfl, by decide⟩
  | none => exact ⟨'N', _, rfl, by decide⟩
  | tup xs =>
      cases xs with
      | nil => exact ⟨'(', _, rfl, by decide⟩
      | cons x ys => cases ys with
          | nil => exact ⟨'(', _, rfl, by decide⟩
          | cons y zs => exact ⟨'(', _, rfl, by decide⟩
  | list xs =>
      cases xs with
      | nil => exact ⟨'[', _, rfl, by decide⟩
      | cons x ys => exact ⟨'[', _, rfl, by decide⟩
  | set xs =>
      cases xs with
      | nil => exact ⟨'s', ['e', 't', '(', ')'], rfl, by decide⟩
      | cons x ys => exact ⟨'{', _, rfl, by decide⟩
  | dict ps =>
      cases ps with
      | nil => exact ⟨'{', _, rfl, by decide⟩
      | cons p ps' =>
          cases p
          exact ⟨'{', _, rfl, by decide⟩

mutual

/-- The parser fuel needed for a value is at most one more than the
length of its `repr`. -/
theorem needV_le_repr : ∀ v : PyValue, needV v ≤ (reprValue v).length + 1
  | .str s => by simp [needV]
  | .bytes bs => by simp [needV]
  | .int n => by simp [needV]
  | .float s => by simp [needV]
  | .bool b => by simp [needV]
  | .none => by simp [needV]
  | .tup [] => by simp [needV]
  | .tup [x] => by
      have h1 := needV_le_repr x
      simp only [needV, reprValue, List.length_cons, List.length_append]
      omega
  | .tup (x :: y :: ys) => by
      have h1 := needV_le_repr x
      have h2 := needItems_le_repr (y :: ys)
      have hm : max (needV x) (needItems (y :: ys)) ≤
          (reprValue x).length + 1 + (reprItems (y :: ys)).length := by
        apply max_le <;> omega
      have hlink : (reprItems (y :: ys)).length =
          (reprValue y).length + (reprItems ys).length + 2 := by
        simp [reprItems]
      simp only [needV, reprValue, List.length_cons, List.length_append]
      omega
  | .list [] => by simp [needV]
  | .list (x :: xs) => by
      have h1 := needV_le_repr x
      have h2 := needItems_le_repr xs
      cases xs with
      | nil =>
          simp only [needV, needItems, reprValue, reprItems, List.length_cons,
            List.length_append, List.length_nil]
          omega
      | cons y ys =>
          have h3 := needItems_le_repr (y :: ys)
          simp only [needV, needItems, reprValue, List.length_cons,
            List.length_append]
          omega
  | .set [] => by simp [needV]
  | .set (x :: xs) => by
      have h1 := needV_le_repr x
      have h2 := needItems_le_repr xs
      have hm : max (needV x) (needItems xs) ≤
          (reprValue x).length + 1 + (reprItems xs).length := by
        apply max_le <;> omega
      simp only [needV, reprValue, List.length_cons, List.length_append]
      omega
  | .dict [] => by simp [needV]
  | .dict ((k, v) :: ps) => by
      have h1 := needV_le_repr k
      have h2 := needV_le_repr v
      have h3 := needPairs_le_repr ps
      have hm : max (max (needV k) (needV v)) (needPairs ps) ≤
          (reprValue k).length + (reprValue v).length + (reprPairs ps).length + 2 := by
        apply max_le
        · apply max_le <;> omega
        · omega
      simp only [needV, reprValue, List.length_cons, List.length_append]
      omega

/-- The parser fuel needed for a non-empty item list is at most the
length of its `", x, y"` repr tail plus the first item. -/
theorem needItems_le_repr : ∀ xs : List PyValue, needItems xs ≤ (reprItems xs).length
  | [] => by simp [needItems]
  | [x] => by
      have h1 := needV_le_repr x
      simp only [needItems, reprItems, List.length_cons, List.length_append,
        List.length_nil]
      omega
  | x :: y :: ys => by
      have h1 := needV_le_repr x
      have h2 := needItems_le_repr (y :: ys)
      have hm : max (needV x) (needItems (y :: ys)) ≤
          (reprValue x).length + 1 + (reprItems (y :: ys)).length := by
        apply max_le <;> omega
      have hlink : (reprItems (y :: ys)).length =
          (reprValue y).length + (reprItems ys).length + 2 := by
        simp [reprItems]
      simp only [needItems, reprItems, List.length_cons, List.length_append]
      omega

/-- The parser fuel needed for the pair tail of a dict repr. -/
theorem needPairs_le_repr : ∀ ps : List (PyValue × PyValue),
    needPairs ps ≤ (reprPairs ps).length + 1
  | [] => by simp [needPairs, reprPairs]
  | (k, v) :: ps => by
      have h1 := needV_le_repr k
      have h2 := needV_le_repr v
      have h3 := needPairs_le_repr ps
      have hm : max (max (needV k) (needV v)) (needPairs ps) ≤
          (reprValue k).length + (reprValue v).length + (reprPairs ps).length + 2 := by
        apply max_le
        · apply max_le <;> omega
        · omega
      simp only [needPairs, reprPairs, List.length_cons, List.length_append]
      omega

end

/-! ## The master roundtrip: `parseVal` inverts `repr` -/

/-- The `repr` of a wellformed value, followed by anything, starts with a
non-delimiter character. -/
theorem repr_append_cons (v : PyValue) (hv : wfV v = true) (t : PyStr) :
    ∃ c cs, reprValue v ++ t = c :: cs ∧ isDelim c = false := by
  obtain ⟨c, cs, h, hd⟩ := reprValue_head v hv
  exact ⟨c, cs ++ t, by rw [h, List.cons_append], hd⟩

/-- `skipSp` does not eat into the repr of a value. -/
theorem skipSp_repr (v : PyValue) (hv : wfV v = true) (t : PyStr) :
    skipSp (reprValue v ++ t) = reprValue v ++ t := by
  obtain ⟨c, cs, he, hd⟩ := repr_append_cons v hv t
  rw [he]
  exact skipSp_cons (isDelim_false_ne hd).2.2.2.2.2 cs

/-- `skipSp` eats exactly the single space before an item repr. -/
theorem skipSp_space_repr (v : PyValue) (hv : wfV v = true) (t : PyStr) :
    skipSp (' ' :: (reprValue v ++ t)) = reprValue v ++ t := by
  rw [skipSp, List.dropWhile_cons_of_pos (by simp)]
  show skipSp (reprValue v ++ t) = reprValue v ++ t
  exact skipSp_repr v hv t

/-- Facts about a closing bracket character. -/
theorem closer_facts {c : Char} (h : c = ')' ∨ c = ']' ∨ c = '}') :
    isDelim c = true ∧ c ≠ ',' ∧ c ≠ ' ' ∧ c ≠ ':' := by
  rcases h with rfl | rfl | rfl <;> exact ⟨by decide, by decide, by decide, by decide⟩

/-- A non-delimiter head character differs from any delimiter. -/
theorem ne_closer_of_not_delim {c d : Char} (hc : isDelim c = false)
    (hd : isDelim d = true) : c ≠ d := by
  intro he
  rw [he, hd] at hc
  exact absurd hc (by decide)

theorem delimOK_comma (t : PyStr) : delimOK (',' :: t) = true := by
  simp [delimOK, isDelim]

theorem delimOK_colon (t : PyStr) : delimOK (':' :: t) = true := by
  simp [delimOK, isDelim]

theorem delimOK_closer {c : Char} (h : c = ')' ∨ c = ']' ∨ c = '}') (t : PyStr) :
    delimOK (c :: t) = true := by
  rcases h with rfl | rfl | rfl <;> simp [delimOK, isDelim]

/-- The continuation after an item inside a container starts with a
delimiter. -/
theorem delimOK_items (xs : List PyValue) {closer : Char}
    (hc : closer = ')' ∨ closer = ']' ∨ closer = '}') (rest : PyStr) :
    delimOK (reprItems xs ++ closer :: rest) = true := by
  cases xs with
  | nil =>
      rw [show reprItems [] = [] by simp [reprItems], List.nil_append]
      exact delimOK_closer hc rest
  | cons y ys =>
      rw [show reprItems (y :: ys) = ',' :: ' ' :: reprValue y ++ reprItems ys
          by simp [reprItems], List.cons_append]
      exact delimOK_comma _

/-- The continuation after a dict value starts with a delimiter. -/
theorem delimOK_pairs (ps : List (PyValue × PyValue)) (rest : PyStr) :
    delimOK (reprPairs ps ++ '}' :: rest) = true := by
  cases ps with
  | nil =>
      rw [show reprPairs [] = [] by simp [reprPairs], List.nil_append]
      exact delimOK_closer (Or.inr (Or.inr rfl)) rest
  | cons p qs =>
      obtain ⟨k, v⟩ := p
      rw [show reprPairs ((k, v) :: qs)
            = ',' :: ' ' :: reprValue k ++ [':', ' '] ++ reprValue v ++ reprPairs qs
          by simp [reprPairs], List.cons_append]
      exact delimOK_comma _

/-- The master roundtrip: with enough fuel, `parseVal` parses the `repr`
of any wellformed value back to that value, leaving a delimiter-headed
continuation untouched; likewise for item lists and dict pair tails. -/
theorem parse_repr_master : ∀ fuel : Nat,
    (∀ v rest, wfV v = true → needV v ≤ fuel → delimOK rest = true →
      parseVal fuel (reprValue v ++ rest) = Option.some (v, rest)) ∧
    (∀ x xs rest closer, wfV x = true → wfList xs = true →
      needItems (x :: xs) ≤ fuel →
      (closer = ')' ∨ closer = ']' ∨ closer = '}') → delimOK rest = true →
      parseItems fuel (reprValue x ++ (reprItems xs ++ closer :: rest)) closer =
        Option.some (x :: xs, rest)) ∧
    (∀ ps rest, wfPairs ps = true → needPairs ps ≤ fuel → delimOK rest = true →
      parsePairsRest fuel (reprPairs ps ++ '}' :: rest) = Option.some (ps, rest)) := by
  intro fuel
  induction fuel using Nat.strong_induction_on with
  | _ fuel ih =>
  cases fuel with
  | zero =>
      refine ⟨fun v rest hwf hneed hrest => absurd hneed (by
          have := needV_pos v; omega),
        fun x xs rest closer hwx hwxs hneed hc hrest => absurd hneed (by
          have := needItems_pos (List.cons_ne_nil x xs); omega),
        fun ps rest hwf hneed hrest => absurd hneed (by
          have := needPairs_pos ps; omega)⟩
  | succ f =>
      obtain ⟨ihVal, ihItems, ihPairs⟩ := ih f (Nat.lt_succ_self f)
      refine ⟨?_, ?_, ?_⟩
      · -- the parseVal clause
        intro v rest hwf hneed hrest
        cases v with
        | str s =>
            have hq0 : reprQuote (s.contains '\'') (s.contains '"') = '\'' ∨
                reprQuote (s.contains '\'') (s.contains '"') = '"' := by
              rw [reprQuote]
              split
              · exact Or.inr rfl
              · exact Or.inl rfl
            rw [show reprValue (.str s) = reprStr s by simp [reprValue]]
            simp only [reprStr]
            rcases hq0 with hq | hq
            · rw [hq]
              simp only [List.cons_append, List.append_assoc, List.nil_append]
              rw [parseVal, skipSp_cons (by decide)]
              dsimp only
              rw [if_pos rfl]
              rw [parseStrBody_esc '\'' (Or.inl rfl) s rest]
              rfl
            · rw [hq]
              simp only [List.cons_append, List.append_assoc, List.nil_append]
              rw [parseVal, skipSp_cons (by decide)]
              dsimp only
              rw [if_neg (by decide), if_pos rfl]
              rw [parseStrBody_esc '"' (Or.inr rfl) s rest]
              rfl
        | bytes bs =>
            have hblt : ∀ b ∈ bs, b < 256 := by
              simp only [wfV, List.all_eq_true] at hwf
              intro b hb
              simpa using hwf b hb
            simp only [reprValue, reprBytes]
            by_cases hq : bs.contains 39 && !bs.contains 34
            · rw [if_pos hq]
              simp only [List.cons_append, List.append_assoc, List.nil_append]
              rw [parseVal, skipSp_cons (by decide)]
              dsimp only
              rw [if_neg (by decide), if_neg (by decide), if_pos rfl]
              rw [if_pos (Or.inr (show Char.ofNat 34 = '"' by decide))]
              rw [parseBytesBody_esc 34 (Or.inr rfl) bs hblt rest]
              rfl
            · rw [if_neg hq]
              simp only [List.cons_append, List.append_assoc, List.nil_append]
              rw [parseVal, skipSp_cons (by decide)]
              dsimp only
              rw [if_neg (by decide), if_neg (by decide), if_pos rfl]
              rw [if_pos (Or.inl (show Char.ofNat 39 = '\'' by decide))]
              rw [parseBytesBody_esc 39 (Or.inl rfl) bs hblt rest]
              rfl
        | int n =>
            by_cases hn : n < 0
            · rw [show reprValue (.int n) = '-' :: natDigits n.natAbs by
                simp [reprValue, intRepr, hn]]
              rw [List.cons_append, parseVal, skipSp_cons (by decide)]
              dsimp only
              rw [if_neg (by decide), if_neg (by decide), if_neg (by decide),
                if_neg (by decide), if_neg (by decide), if_neg (by decide),
                if_pos rfl]
              rw [parseNumber_digits (natDigits_ne_nil _) (natDigits_isDigit _)
                hrest (natDigits_lz _)]
              dsimp only [Option.map]
              rw [digitsVal_natDigits]
              rw [show (-((n.natAbs : Nat) : Int)) = n by omega]
            · obtain ⟨d, ds, hds⟩ : ∃ d ds, natDigits n.toNat = d :: ds := by
                cases h : natDigits n.toNat with
                | nil => exact absurd h (natDigits_ne_nil _)
                | cons d ds => exact ⟨d, ds, rfl⟩
              have hd : d.isDigit = true := natDigits_isDigit _ d (by rw [hds]; simp)
              obtain ⟨h1, h2, h3, h4, h5, h6, h7, h8, h9, h10, h11⟩ := digit_head_ne hd
              rw [show reprValue (.int n) = natDigits n.toNat by
                simp [reprValue, intRepr, hn]]
              rw [hds, List.cons_append, parseVal,
                skipSp_cons (isDelim_false_ne (digit_not_delim hd)).2.2.2.2.2]
              dsimp only
              rw [if_neg h1, if_neg h2, if_neg h3, if_neg h4, if_neg h5, if_neg h6,
                if_neg h7, if_neg h8, if_neg h9, if_neg h10, if_neg h11, if_pos hd]
              rw [← List.cons_append, ← hds]
              rw [parseNumber_digits (natDigits_ne_nil _) (natDigits_isDigit _)
                hrest (natDigits_lz _)]
              rw [digitsVal_natDigits]
              rw [show ((n.toNat : Nat) : Int) = n by omega]
        | float s =>
            have hwfs : isWfFloat s = true := by simpa [wfV] using hwf
            rw [show reprValue (.float s) = s by simp [reprValue]]
            cases s with
            | nil => exact absurd hwfs (by simp [isWfFloat])
            | cons c t =>
                rw [isWfFloat] at hwfs
                by_cases hc : c = '-'
                · rw [if_pos hc] at hwfs
                  subst hc
                  rw [List.cons_append, parseVal, skipSp_cons (by decide)]
                  dsimp only
                  rw [if_neg (by decide), if_neg (by decide), if_neg (by decide),
                    if_neg (by decide), if_neg (by decide), if_neg (by decide),
                    if_pos rfl]
                  rw [wfFloatBody_parseNumber hwfs hrest]
                  rfl
                · rw [if_neg hc] at hwfs
                  have hcd : c.isDigit = true := by
                    have hW : isWfFloat (c :: t) = true := by
                      rw [isWfFloat, if_neg hc]; exact hwfs
                    obtain ⟨c', t', he, hor⟩ := isWfFloat_head hW
                    cases he
                    rcases hor with rfl | hd
                    · exact absurd rfl hc
                    · exact hd
                  obtain ⟨h1, h2, h3, h4, h5, h6, h7, h8, h9, h10, h11⟩ :=
                    digit_head_ne hcd
                  rw [List.cons_append, parseVal,
                    skipSp_cons (isDelim_false_ne (digit_not_delim hcd)).2.2.2.2.2]
                  dsimp only
                  rw [if_neg h1, if_neg h2, if_neg h3, if_neg h4, if_neg h5,
                    if_neg h6, if_neg h7, if_neg h8, if_neg h9, if_neg h10,
                    if_neg h11, if_pos hcd]
                  rw [← List.cons_append]
                  rw [wfFloatBody_parseNumber hwfs hrest]
        | bool b =>
            cases b with
            | true =>
                rw [show reprValue (.bool true) = 'T' :: ['r', 'u', 'e'] by
                  simp [reprValue]]
                rw [List.cons_append, parseVal, skipSp_cons (by decide)]
                dsimp only
                rw [if_neg (by decide), if_neg (by decide), if_neg (by decide),
                  if_pos rfl]
                rw [expectTok_append]
                rfl
            | false =>
                rw [show reprValue (.bool false) = 'F' :: ['a', 'l', 's', 'e'] by
                  simp [reprValue]]
                rw [List.cons_append, parseVal, skipSp_cons (by decide)]
                dsimp only
                rw [if_neg (by decide), if_neg (by decide), if_neg (by decide),
                  if_neg (by decide), if_pos rfl]
                rw [expectTok_append]
                rfl
        | none =>
            rw [show reprValue .none = 'N' :: ['o', 'n', 'e'] by simp [reprValue]]
            rw [List.cons_append, parseVal, skipSp_cons (by decide)]
            dsimp only
            rw [if_neg (by decide), if_neg (by decide), if_neg (by decide),
              if_neg (by decide), if_neg (by decide), if_pos rfl]
            rw [expectTok_append]
            rfl
        | tup xs =>
            cases xs with
            | nil =>
                simp only [reprValue, List.cons_append, List.nil_append]
                rw [parseVal, skipSp_cons (by decide)]
                dsimp only
                rw [if_neg (by decide), if_neg (by decide), if_neg (by decide),
                  if_neg (by decide), if_neg (by decide), if_neg (by decide),
                  if_neg (by decide), if_pos rfl]
                rw [skipSp_cons (by decide)]
                dsimp only
                rw [if_pos rfl]
            | cons x ys =>
                cases ys with
                | nil =>
                    simp only [wfV, wfList, Bool.and_eq_true, Bool.and_true] at hwf
                    simp only [needV] at hneed
                    have hnx : needV x ≤ f := by omega
                    simp only [reprValue, reprItems, List.cons_append,
                      List.append_assoc, List.nil_append]
                    rw [parseVal, skipSp_cons (by decide)]
                    dsimp only
                    rw [if_neg (by decide), if_neg (by decide), if_neg (by decide),
                      if_neg (by decide), if_neg (by decide), if_neg (by decide),
                      if_neg (by decide), if_pos rfl]
                    obtain ⟨c0, cs0, he0, hd0⟩ :=
                      repr_append_cons x hwf (',' :: ')' :: rest)
                    rw [he0, skipSp_cons (isDelim_false_ne hd0).2.2.2.2.2]
                    dsimp only
                    rw [if_neg (isDelim_false_ne hd0).2.1]
                    rw [← he0]
                    rw [ihVal x _ hwf hnx (delimOK_comma _)]
                    dsimp only
                    rw [skipSp_cons (by decide)]
                    dsimp only
                    rw [if_neg (by decide), if_pos rfl]
                    rw [skipSp_cons (by decide)]
                    dsimp only
                    rw [if_pos rfl]
                | cons y zs =>
                    simp only [wfV, wfList, Bool.and_eq_true] at hwf
                    obtain ⟨hwx, hwy, hwzs⟩ := hwf
                    simp only [needV] at hneed
                    have hnx : needV x ≤ f := by
                      have := Nat.le_max_left (needV x) (needItems (y :: zs))
                      omega
                    have hny : needItems (y :: zs) ≤ f := by
                      have := Nat.le_max_right (needV x) (needItems (y :: zs))
                      omega
                    simp only [reprValue, reprItems, List.cons_append,
                      List.append_assoc, List.nil_append]
                    rw [parseVal, skipSp_cons (by decide)]
                    dsimp only
                    rw [if_neg (by decide), if_neg (by decide), if_neg (by decide),
                      if_neg (by decide), if_neg (by decide), if_neg (by decide),
                      if_neg (by decide), if_pos rfl]
                    obtain ⟨c0, cs0, he0, hd0⟩ := repr_append_cons x hwx
                      (',' :: ' ' :: (reprValue y ++ (reprItems zs ++ ')' :: rest)))
                    rw [he0, skipSp_cons (isDelim_false_ne hd0).2.2.2.2.2]
                    dsimp only
                    rw [if_neg (isDelim_false_ne hd0).2.1]
                    rw [← he0]
                    rw [ihVal x _ hwx hnx (delimOK_comma _)]
                    dsimp only
                    rw [skipSp_cons (by decide)]
                    dsimp only
                    rw [if_neg (by decide), if_pos rfl]
                    rw [skipSp_space_repr y hwy (reprItems zs ++ ')' :: rest)]
                    obtain ⟨cy, csy, hey, hdy⟩ :=
                      repr_append_cons y hwy (reprItems zs ++ ')' :: rest)
                    rw [hey]
                    dsimp only
                    rw [if_neg (isDelim_false_ne hdy).2.1]
                    rw [← hey]
                    rw [ihItems y zs rest ')' hwy hwzs hny (Or.inl rfl) hrest]
        | list xs =>
            cases xs with
            | nil =>
                simp only [reprValue, List.cons_append, List.nil_append]
                rw [parseVal, skipSp_cons (by decide)]
                dsimp only
                rw [if_neg (by decide), if_neg (by decide), if_neg (by decide),
                  if_neg (by decide), if_neg (by decide), if_neg (by decide),
                  if_neg (by decide), if_neg (by decide), if_pos rfl]
                rw [skipSp_cons (by decide)]
                dsimp only
                rw [if_pos rfl]
            | cons x ys =>
                simp only [wfV, wfList, Bool.and_eq_true] at hwf
                obtain ⟨hwx, hwys⟩ := hwf
                simp only [needV] at hneed
                have hnxs : needItems (x :: ys) ≤ f := by omega
                simp only [reprValue, List.cons_append, List.append_assoc,
                  List.nil_append]
                rw [parseVal, skipSp_cons (by decide)]
                dsimp only
                rw [if_neg (by decide), if_neg (by decide), if_neg (by decide),
                  if_neg (by decide), if_neg (by decide), if_neg (by decide),
                  if_neg (by decide), if_neg (by decide), if_pos rfl]
                obtain ⟨c0, cs0, he0, hd0⟩ :=
                  repr_append_cons x hwx (reprItems ys ++ ']' :: rest)
                rw [he0, skipSp_cons (isDelim_false_ne hd0).2.2.2.2.2]
                dsimp only
                rw [if_neg (isDelim_false_ne hd0).2.2.1]
                rw [← he0]
                rw [ihItems x ys rest ']' hwx hwys hnxs (Or.inr (Or.inl rfl)) hrest]
        | set xs =>
            cases xs with
            | nil =>
                rw [show reprValue (.set []) ++ rest
                    = 's' :: (['e', 't'] ++ ('(' :: ')' :: rest)) by rfl]
                rw [parseVal, skipSp_cons (by decide)]
                dsimp only
                rw [if_neg (by decide), if_neg (by decide), if_neg (by decide),
                  if_neg (by decide), if_neg (by decide), if_neg (by decide),
                  if_neg (by decide), if_neg (by decide), if_neg (by decide),
                  if_neg (by decide), if_pos rfl]
                rw [expectTok_append]
                dsimp only
                rw [skipSp_cons (by decide)]
                dsimp only
                rw [if_pos rfl]
                rw [skipSp_cons (by decide)]
                dsimp only
                rw [if_pos rfl]
            | cons x ys =>
                simp only [wfV, wfList, Bool.and_eq_true] at hwf
                obtain ⟨hwx, hwys⟩ := hwf
                simp only [needV] at hneed
                have hnx : needV x ≤ f := by
                  have := Nat.le_max_left (needV x) (needItems ys)
                  omega
                cases ys with
                | nil =>
                    simp only [reprValue, reprItems, List.cons_append,
                      List.append_assoc, List.nil_append]
                    rw [parseVal, skipSp_cons (by decide)]
                    dsimp only
                    rw [if_neg (by decide), if_neg (by decide), if_neg (by decide),
                      if_neg (by decide), if_neg (by decide), if_neg (by decide),
                      if_neg (by decide), if_neg (by decide), if_neg (by decide),
                      if_pos rfl]
                    obtain ⟨c0, cs0, he0, hd0⟩ :=
                      repr_append_cons x hwx ('}' :: rest)
                    rw [he0, skipSp_cons (isDelim_false_ne hd0).2.2.2.2.2]
                    dsimp only
                    rw [if_neg (isDelim_false_ne hd0).2.2.2.1]
                    rw [← he0]
                    rw [ihVal x _ hwx hnx (delimOK_closer (Or.inr (Or.inr rfl)) _)]
                    dsimp only
                    rw [skipSp_cons (by decide)]
                    dsimp only
                    rw [if_neg (by decide), if_neg (by decide), if_pos rfl]
                | cons y zs =>
                    simp only [wfList, Bool.and_eq_true] at hwys
                    obtain ⟨hwy, hwzs⟩ := hwys
                    have hny : needItems (y :: zs) ≤ f := by
                      have := Nat.le_max_right (needV x) (needItems (y :: zs))
                      omega
                    simp only [reprValue, reprItems, List.cons_append,
                      List.append_assoc, List.nil_append]
                    rw [parseVal, skipSp_cons (by decide)]
                    dsimp only
                    rw [if_neg (by decide), if_neg (by decide), if_neg (by decide),
                      if_neg (by decide), if_neg (by decide), if_neg (by decide),
                      if_neg (by decide), if_neg (by decide), if_neg (by decide),
                      if_pos rfl]
                    obtain ⟨c0, cs0, he0, hd0⟩ := repr_append_cons x hwx
                      (',' :: ' ' :: (reprValue y ++ (reprItems zs ++ '}' :: rest)))
                    rw [he0, skipSp_cons (isDelim_false_ne hd0).2.2.2.2.2]
                    dsimp only
                    rw [if_neg (isDelim_false_ne hd0).2.2.2.1]
                    rw [← he0]
                    rw [ihVal x _ hwx hnx (delimOK_comma _)]
                    dsimp only
                    rw [skipSp_cons (by decide)]
                    dsimp only
                    rw [if_neg (by decide), if_pos rfl]
                    rw [skipSp_space_repr y hwy (reprItems zs ++ '}' :: rest)]
                    obtain ⟨cy, csy, hey, hdy⟩ :=
                      repr_append_cons y hwy (reprItems zs ++ '}' :: rest)
                    rw [hey]
                    dsimp only
                    rw [if_neg (isDelim_false_ne hdy).2.2.2.1]
                    rw [← hey]
                    rw [ihItems y zs rest '}' hwy hwzs hny (Or.inr (Or.inr rfl)) hrest]
        | dict ps =>
            cases ps with
            | nil =>
                simp only [reprValue, List.cons_append, List.nil_append]
                rw [parseVal, skipSp_cons (by decide)]
                dsimp only
                rw [if_neg (by decide), if_neg (by decide), if_neg (by decide),
                  if_neg (by decide), if_neg (by decide), if_neg (by decide),
                  if_neg (by decide), if_neg (by decide), if_neg (by decide),
                  if_pos rfl]
                rw [skipSp_cons (by decide)]
                dsimp only
                rw [if_pos rfl]
            | cons p qs =>
                obtain ⟨k, w⟩ := p
                simp only [wfV, wfPairs, Bool.and_eq_true] at hwf
                obtain ⟨⟨hwk, hww⟩, hwqs⟩ := hwf
                simp only [needV] at hneed
                have hnk : needV k ≤ f := by
                  have h1 := Nat.le_max_left (needV k) (needV w)
                  have h2 := Nat.le_max_left (max (needV k) (needV w)) (needPairs qs)
                  omega
                have hnw : needV w ≤ f := by
                  have h1 := Nat.le_max_right (needV k) (needV w)
                  have h2 := Nat.le_max_left (max (needV k) (needV w)) (needPairs qs)
                  omega
                have hnq : needPairs qs ≤ f := by
                  have := Nat.le_max_right (max (needV k) (needV w)) (needPairs qs)
                  omega
                simp only [reprValue, List.cons_append, List.append_assoc,
                  List.nil_append]
                rw [parseVal, skipSp_cons (by decide)]
                dsimp only
                rw [if_neg (by decide), if_neg (by decide), if_neg (by decide),
                  if_neg (by decide), if_neg (by decide), if_neg (by decide),
                  if_neg (by decide), if_neg (by decide), if_neg (by decide),
                  if_pos rfl]
                obtain ⟨c0, cs0, he0, hd0⟩ := repr_append_cons k hwk
                  (':' :: ' ' :: (reprValue w ++ (reprPairs qs ++ '}' :: rest)))
                rw [he0, skipSp_cons (isDelim_false_ne hd0).2.2.2.2.2]
                dsimp only
                rw [if_neg (isDelim_false_ne hd0).2.2.2.1]
                rw [← he0]
                rw [ihVal k _ hwk hnk (delimOK_colon _)]
                dsimp only
                rw [skipSp_cons (by decide)]
                dsimp only
                rw [if_pos rfl]
                rw [skipSp_space_repr w hww (reprPairs qs ++ '}' :: rest)]
                rw [ihVal w _ hww hnw (delimOK_pairs qs rest)]
                dsimp only
                rw [ihPairs qs rest hwqs hnq hrest]
      · -- the parseItems clause
        intro x xs rest closer hwx hwxs hneed hc hrest
        cases xs with
        | nil =>
            simp only [needItems] at hneed
            have hnx : needV x ≤ f := by omega
            simp only [reprItems, List.nil_append]
            rw [parseItems]
            rw [ihVal x _ hwx hnx (delimOK_closer hc _)]
            dsimp only
            rw [skipSp_cons (closer_facts hc).2.2.1]
            dsimp only
            rw [if_neg (closer_facts hc).2.1, if_pos rfl]
        | cons y ys =>
            simp only [wfList, Bool.and_eq_true] at hwxs
            obtain ⟨hwy, hwys⟩ := hwxs
            simp only [needItems] at hneed
            have hnx : needV x ≤ f := by
              have := Nat.le_max_left (needV x) (needItems (y :: ys))
              omega
            have hny : needItems (y :: ys) ≤ f := by
              have := Nat.le_max_right (needV x) (needItems (y :: ys))
              omega
            simp only [reprItems, List.cons_append, List.append_assoc,
              List.nil_append]
            rw [parseItems]
            rw [ihVal x _ hwx hnx (delimOK_comma _)]
            dsimp only
            rw [skipSp_cons (by decide)]
            dsimp only
            rw [if_pos rfl]
            rw [skipSp_space_repr y hwy (reprItems ys ++ closer :: rest)]
            obtain ⟨cy, csy, hey, hdy⟩ :=
              repr_append_cons y hwy (reprItems ys ++ closer :: rest)
            rw [hey]
            dsimp only
            rw [if_neg (ne_closer_of_not_delim hdy (closer_facts hc).1)]
            rw [← hey]
            rw [ihItems y ys rest closer hwy hwys hny hc hrest]
      · -- the parsePairsRest clause
        intro ps rest hwf hneed hrest
        cases ps with
        | nil =>
            simp only [reprPairs, List.nil_append]
            rw [parsePairsRest, skipSp_cons (by decide)]
            dsimp only
            rw [if_pos rfl]
        | cons p qs =>
            obtain ⟨k, w⟩ := p
            simp only [wfPairs, Bool.and_eq_true] at hwf
            obtain ⟨⟨hwk, hww⟩, hwqs⟩ := hwf
            simp only [needPairs] at hneed
            have hnk : needV k ≤ f := by
              have h1 := Nat.le_max_left (needV k) (needV w)
              have h2 := Nat.le_max_left (max (needV k) (needV w)) (needPairs qs)
              omega
            have hnw : needV w ≤ f := by
              have h1 := Nat.le_max_right (needV k) (needV w)
              have h2 := Nat.le_max_left (max (needV k) (needV w)) (needPairs qs)
              omega
            have hnq : needPairs qs ≤ f := by
              have := Nat.le_max_right (max (needV k) (needV w)) (needPairs qs)
              omega
            simp only [reprPairs, List.cons_append, List.append_assoc,
              List.nil_append]
            rw [parsePairsRest, skipSp_cons (by decide)]
            dsimp only
            rw [if_neg (by decide), if_pos rfl]
            rw [skipSp_space_repr k hwk
              (':' :: ' ' :: (reprValue w ++ (reprPairs qs ++ '}' :: rest)))]
            obtain ⟨c0, cs0, he0, hd0⟩ := repr_append_cons k hwk
              (':' :: ' ' :: (reprValue w ++ (reprPairs qs ++ '}' :: rest)))
            rw [he0]
            dsimp only
            rw [if_neg (isDelim_false_ne hd0).2.2.2.1]
            rw [← he0]
            rw [ihVal k _ hwk hnk (delimOK_colon _)]
            dsimp only
            rw [skipSp_cons (by decide)]
            dsimp only
            rw [if_pos rfl]
            rw [skipSp_space_repr w hww (reprPairs qs ++ '}' :: rest)]
            rw [ihVal w _ hww hnw (delimOK_pairs qs rest)]
            dsimp only
            rw [ihPairs qs rest hwqs hnq hrest]

/-- `ast.literal_eval` inverts `repr` on every wellformed value. -/
theorem literalEval_repr (v : PyValue) (hv : wfV v = true) :
    literalEval (reprValue v) = Option.some v := by
  have hfuel : needV v ≤ (reprValue v).length + 2 := by
    have := needV_le_repr v
    omega
  have h := (parse_repr_master ((reprValue v).length + 2)).1 v [] hv hfuel (by decide)
  rw [List.append_nil] at h
  rw [literalEval, h]
  rfl


/-! ## Line-level lemmas: reading back a written line -/

mutual

/-- On the closed value type every value is `_check_eval_safe`. -/
theorem checkEvalSafe_true : ∀ v : PyValue, checkEvalSafe v = true
  | .none => rfl
  | .str _ => rfl
  | .bytes _ => rfl
  | .int _ => rfl
  | .float _ => rfl
  | .bool _ => rfl
  | .dict ps => checkEvalSafePairs_true ps
  | .tup xs => checkEvalSafeList_true xs
  | .list xs => checkEvalSafeList_true xs
  | .set xs => checkEvalSafeList_true xs

theorem checkEvalSafeList_true : ∀ xs : List PyValue, checkEvalSafeList xs = true
  | [] => rfl
  | x :: xs => by
      rw [checkEvalSafeList, checkEvalSafe_true x, checkEvalSafeList_true xs]
      rfl

theorem checkEvalSafePairs_true :
    ∀ ps : List (PyValue × PyValue), checkEvalSafePairs ps = true
  | [] => rfl
  | (k, v) :: ps => by
      rw [checkEvalSafePairs, checkEvalSafe_true k, checkEvalSafe_true v,
        checkEvalSafePairs_true ps]
      rfl

end

theorem contains_false_of_not_mem {a : PyStr} {c : Char} (h : c ∉ a) :
    a.contains c = false := by simpa using h

theorem not_mem_of_contains_false {a : PyStr} {c : Char} (h : a.contains c = false) :
    c ∉ a := by simpa using h

/-- `s.split(sep, 1)` splits at the first separator. -/
theorem splitOnce_append (sep : Char) (a b : PyStr) (h : sep ∉ a) :
    splitOnce sep (a ++ sep :: b) = Option.some (a, b) := by
  induction a with
  | nil => rw [List.nil_append, splitOnce, if_pos rfl]
  | cons c cs ih =>
      rw [List.cons_append, splitOnce,
        if_neg (fun he : c = sep => h (he ▸ List.mem_cons_self c cs)),
        ih (fun hm => h (List.mem_cons_of_mem c hm))]
      rfl

/-- Without the separator, `split` finds nothing. -/
theorem splitOnce_none (sep : Char) (a : PyStr) (h : sep ∉ a) :
    splitOnce sep a = Option.none := by
  induction a with
  | nil => rfl
  | cons c cs ih =>
      rw [splitOnce, if_neg (fun he : c = sep => h (he ▸ List.mem_cons_self c cs)),
        ih (fun hm => h (List.mem_cons_of_mem c hm))]
      rfl

/-- `rstrip('\n\r')` of a written line takes off exactly the final
newline when the body does not end in a newline character. -/
theorem rstripNl_line (l : PyStr)
    (h : ∀ c, l.getLast? = Option.some c → (c = '\n' || c = '\x0d') = false) :
    rstripNl (l ++ ['\n']) = l := by
  rw [rstripNl, List.reverse_append]
  rw [show (['\n'] : PyStr).reverse = ['\n'] from rfl, List.singleton_append]
  rw [List.dropWhile_cons_of_pos (by simp)]
  cases hrev : l.reverse with
  | nil =>
      rw [List.reverse_eq_nil_iff] at hrev
      subst hrev
      rfl
  | cons c u =>
      have hc := h c (by rw [← List.head?_reverse, hrev]; rfl)
      rw [List.dropWhile_cons_of_neg (by simp [hc]), ← hrev,
        List.reverse_reverse]

/-- `rstrip` keeps the head of a line not starting with a newline
character. -/
theorem rstripNl_head {c : Char} (hc : (c = '\n' || c = '\x0d') = false)
    (t : PyStr) : ∃ t', rstripNl (c :: t) = c :: t' := by
  rw [rstripNl, List.reverse_cons, List.dropWhile_append]
  split
  · refine ⟨[], ?_⟩
    rw [List.dropWhile_cons_of_neg (by simp [hc])]
    rfl
  · refine ⟨(t.reverse.dropWhile (fun x => x = '\n' || x = '\x0d')).reverse, ?_⟩
    simp [List.reverse_append]

/-- `strip` keeps the head of a line starting with non-whitespace. -/
theorem pyStrip_head_cons {c : Char} (hc : pyIsSpace c = false) (t : PyStr) :
    ∃ t', pyStrip (c :: t) = c :: t' := by
  rw [pyStrip, List.dropWhile_cons_of_neg (by simp [hc])]
  rw [List.reverse_cons, List.dropWhile_append]
  split
  · refine ⟨[], ?_⟩
    rw [List.dropWhile_cons_of_neg (by simp [hc])]
    rfl
  · refine ⟨(t.reverse.dropWhile pyIsSpace).reverse, ?_⟩
    simp [List.reverse_append]

/-- A line starting with a non-whitespace, non-`#` character is not a
comment line. -/
theorem isCommentLine_cons {c : Char} (hws : pyIsSpace c = false) (hh : c ≠ '#')
    (t : PyStr) : isCommentLine (c :: t) = false := by
  have hcnl : (c = '\n' || c = '\x0d') = false := by
    simp only [Bool.or_eq_false_iff, decide_eq_false_iff_not]
    constructor <;> (rintro rfl; exact absurd hws (by decide))
  obtain ⟨t1, h1⟩ := rstripNl_head hcnl t
  obtain ⟨t2, h2⟩ := pyStrip_head_cons hws t1
  simp only [isCommentLine, h1, h2]
  simp [hh]


/-! ## Character classes of written payloads -/

/-- Every character of a wellformed float body is a digit, a point, an
exponent marker or a sign. -/
theorem wfFloatBody_mem {t : PyStr} (h : wfFloatBody t = true) :
    ∀ c ∈ t, (c.isDigit = true ∨ c = '.' ∨ c = 'e' ∨ c = '+' ∨ c = '-') := by
  have hsplit : t.takeWhile Char.isDigit ++ t.dropWhile Char.isDigit = t :=
    List.takeWhile_append_dropWhile _ _
  rw [wfFloatBody] at h
  simp only [scanDigits] at h
  rw [Bool.and_eq_true] at h
  obtain ⟨hip, hm⟩ := h
  intro c hc
  rw [← hsplit] at hc
  rcases List.mem_append.mp hc with hc1 | hc2
  · exact Or.inl (List.mem_takeWhile_imp hc1)
  · cases htl : t.dropWhile Char.isDigit with
    | nil => rw [htl] at hc2; simp at hc2
    | cons c0 r2 =>
        rw [htl] at hm hc2
        dsimp only at hm
        rcases List.mem_cons.mp hc2 with rfl | hc3
        · by_cases hdot : c = '.'
          · exact Or.inr (Or.inl hdot)
          · rw [if_neg hdot] at hm
            by_cases he : c = 'e'
            · exact Or.inr (Or.inr (Or.inl he))
            · rw [if_neg he] at hm
              exact absurd hm (by simp)
        · by_cases hdot : c0 = '.'
          · rw [if_pos hdot] at hm
            rw [Bool.and_eq_true] at hm
            obtain ⟨hfds, hm2⟩ := hm
            have hr2 : r2.takeWhile Char.isDigit ++ r2.dropWhile Char.isDigit = r2 :=
              List.takeWhile_append_dropWhile _ _
            rw [← hr2] at hc3
            rcases List.mem_append.mp hc3 with hc4 | hc5
            · exact Or.inl (List.mem_takeWhile_imp hc4)
            · cases htl2 : r2.dropWhile Char.isDigit with
              | nil => rw [htl2] at hc5; simp at hc5
              | cons e r3 =>
                  rw [htl2] at hm2 hc5
                  dsimp only at hm2
                  rw [Bool.and_eq_true, decide_eq_true_eq] at hm2
                  obtain ⟨he, hexp⟩ := hm2
                  rcases List.mem_cons.mp hc5 with rfl | hc6
                  · exact Or.inr (Or.inr (Or.inl he))
                  · cases r3 with
                    | nil => simp at hc6
                    | cons sg dds =>
                        rw [wfExpTail.eq_def] at hexp
                        dsimp only at hexp
                        rw [Bool.and_eq_true, Bool.and_eq_true] at hexp
                        obtain ⟨⟨hsg, _⟩, hddsd⟩ := hexp
                        rw [Bool.or_eq_true, decide_eq_true_eq,
                          decide_eq_true_eq] at hsg
                        rw [List.all_eq_true] at hddsd
                        rcases List.mem_cons.mp hc6 with rfl | hc7
                        · rcases hsg with rfl | rfl
                          · exact Or.inr (Or.inr (Or.inr (Or.inl rfl)))
                          · exact Or.inr (Or.inr (Or.inr (Or.inr rfl)))
                        · exact Or.inl (by simpa using hddsd c hc7)
          · rw [if_neg hdot] at hm
            by_cases he : c0 = 'e'
            · rw [if_pos he] at hm
              cases r2 with
              | nil => simp at hc3
              | cons sg dds =>
                  rw [wfExpTail.eq_def] at hm
                  dsimp only at hm
                  rw [Bool.and_eq_true, Bool.and_eq_true] at hm
                  obtain ⟨⟨hsg, _⟩, hddsd⟩ := hm
                  rw [Bool.or_eq_true, decide_eq_true_eq, decide_eq_true_eq] at hsg
                  rw [List.all_eq_true] at hddsd
                  rcases List.mem_cons.mp hc3 with rfl | hc7
                  · rcases hsg with rfl | rfl
                    · exact Or.inr (Or.inr (Or.inr (Or.inl rfl)))
                    · exact Or.inr (Or.inr (Or.inr (Or.inr rfl)))
                  · exact Or.inl (by simpa using hddsd c hc7)
            · rw [if_neg he] at hm
              exact absurd hm (by simp)

/-- Every character of a finite float literal is a digit, point, `e` or
sign. -/
theorem isWfFloat_mem {s : PyStr} (h : isWfFloat s = true) :
    ∀ c ∈ s, (c.isDigit = true ∨ c = '.' ∨ c = 'e' ∨ c = '+' ∨ c = '-') := by
  cases s with
  | nil => intro c hc; simp at hc
  | cons c0 t =>
      rw [isWfFloat] at h
      by_cases hc0 : c0 = '-'
      · rw [if_pos hc0] at h
        intro c hc
        rcases List.mem_cons.mp hc with rfl | hct
        · exact Or.inr (Or.inr (Or.inr (Or.inr hc0)))
        · exact wfFloatBody_mem h c hct
      · rw [if_neg hc0] at h
        exact wfFloatBody_mem h

theorem float_char_not_space {c : Char}
    (h : c.isDigit = true ∨ c = '.' ∨ c = 'e' ∨ c = '+' ∨ c = '-') :
    pyIsSpace c = false := by
  rcases h with hd | rfl | rfl | rfl | rfl
  · have hb := isDigit_toNat hd
    simp only [pyIsSpace, decide_eq_false_iff_not]
    omega
  all_goals decide

theorem float_char_ge32 {c : Char}
    (h : c.isDigit = true ∨ c = '.' ∨ c = 'e' ∨ c = '+' ∨ c = '-') :
    32 ≤ c.toNat := by
  rcases h with hd | rfl | rfl | rfl | rfl
  · have := isDigit_toNat hd
    omega
  all_goals decide

/-- A wellformed float body is accepted as a float token by the number
scanner. -/
theorem isFloatBody_of_wf {t : PyStr} (h : wfFloatBody t = true) :
    isFloatBody t = true := by
  have hp : parseNumber (t ++ []) = Option.some (.float t, []) :=
    wfFloatBody_parseNumber h (by decide)
  rw [List.append_nil] at hp
  rw [parseNumber] at hp
  cases hsn : scanNumber t with
  | none => rw [hsn] at hp; exact absurd hp (by simp)
  | some p =>
      obtain ⟨txt, r⟩ := p
      rw [hsn] at hp
      dsimp only at hp
      by_cases hdot : (txt.contains '.' || txt.contains 'e' || txt.contains 'E') = true
      · rw [if_pos hdot] at hp
        rw [Option.some.injEq, Prod.mk.injEq] at hp
        obtain ⟨hv, hr⟩ := hp
        have htxt : txt = t := by injection hv
        subst htxt
        subst hr
        rw [isFloatBody.eq_def, hsn]
        dsimp only
        simpa using hdot
      · rw [if_neg hdot] at hp
        split at hp
        · exact absurd hp (by simp)
        · rw [Option.some.injEq, Prod.mk.injEq] at hp
          exact absurd hp.1 (by simp)

/-- A wellformed float body is accepted by `float()`. -/
theorem pyFloatBody_of_wf {t : PyStr} (h : wfFloatBody t = true) :
    pyFloatBody t = true := by
  simp only [pyFloatBody]
  rw [isFloatBody_of_wf h]
  simp

theorem undOKAux_no_underscore {s : PyStr} (h : ('_' : Char) ∉ s) :
    ∀ prev : Char, undOKAux prev s = true := by
  induction s with
  | nil => intro prev; rfl
  | cons c rest ih =>
      intro prev
      rw [undOKAux.eq_def]
      dsimp only
      rw [if_neg (fun he : c = '_' => h (he ▸ List.mem_cons_self c rest))]
      exact ih (fun hm => h (List.mem_cons_of_mem c hm)) c

theorem undOK_no_underscore {s : PyStr} (h : ('_' : Char) ∉ s) :
    undOK s = true := by
  cases s with
  | nil => rfl
  | cons c rest =>
      rw [undOK, if_neg (fun he : c = '_' => h (he ▸ List.mem_cons_self c rest))]
      exact undOKAux_no_underscore (fun hm => h (List.mem_cons_of_mem c hm)) c

/-- No character of a wellformed float literal is an underscore. -/
theorem isWfFloat_no_underscore {s : PyStr} (h : isWfFloat s = true) :
    ('_' : Char) ∉ s := by
  intro hm
  rcases isWfFloat_mem h '_' hm with hd | h' | h' | h' | h' <;>
    first
    | exact absurd hd (by decide)
    | exact absurd h' (by decide)

/-- `float(text)` accepts the repr of every finite float and carries the
text through. -/
theorem pyFloatOfText_wf {s : PyStr} (h : isWfFloat s = true) :
    pyFloatOfText s = Option.some s := by
  have hmem := isWfFloat_mem h
  have hnws : ∀ c ∈ s, pyIsSpace c = false := fun c hc =>
    float_char_not_space (hmem c hc)
  have hnund := isWfFloat_no_underscore h
  rw [pyFloatOfText, pyStrip_eq_self hnws]
  cases s with
  | nil => exact absurd h (by simp [isWfFloat])
  | cons c t =>
      have htnund : ('_' : Char) ∉ t := fun hm => hnund (List.mem_cons_of_mem c hm)
      dsimp only
      rw [isWfFloat] at h
      by_cases hc : c = '-'
      · rw [if_pos hc] at h
        rw [if_pos (Or.inl hc), undOK_no_underscore htnund,
          filter_underscore_id htnund, pyFloatBody_of_wf h]
        rfl
      · rw [if_neg hc] at h
        have hcdig : c.isDigit = true := by
          have hW : isWfFloat (c :: t) = true := by
            rw [isWfFloat, if_neg hc]
            exact h
          obtain ⟨c', t', he, hor⟩ := isWfFloat_head hW
          cases he
          rcases hor with rfl | hd
          · exact absurd rfl hc
          · exact hd
        rw [if_neg (by
          rintro (rfl | rfl) <;> exact absurd hcdig (by decide))]
        rw [undOK_no_underscore hnund, filter_underscore_id hnund,
          pyFloatBody_of_wf h]
        rfl


theorem hexDigitChar_ge32 : ∀ n < 16, 32 ≤ (hexDigitChar n).toNat := by decide

theorem b64Val_ge32 {c : Char} (h : (b64Val c).isSome = true) : 32 ≤ c.toNat := by
  rw [b64Val] at h
  split at h
  · rename_i hc
    have h1 := hc.1
    rw [Char.le_def] at h1
    have h2 : 65 ≤ c.toNat := BitVec.le_def.mp h1
    omega
  · split at h
    · rename_i hc
      have h1 := hc.1
      rw [Char.le_def] at h1
      have h2 : 97 ≤ c.toNat := BitVec.le_def.mp h1
      omega
    · split at h
      · rename_i hc
        have h1 := hc.1
        rw [Char.le_def] at h1
        have h2 : 48 ≤ c.toNat := BitVec.le_def.mp h1
        omega
      · split at h
        · rename_i hc
          subst hc
          decide
        · split at h
          · rename_i hc
            subst hc
            decide
          · simp at h

theorem b64encode_mem32 (bs : PyBytes) (h : ∀ b ∈ bs, b < 256) :
    ∀ c ∈ b64encode bs, 32 ≤ c.toNat := by
  intro c hc
  rcases b64encode_mem bs h c hc with hs | rfl
  · exact b64Val_ge32 hs
  · decide

theorem b32Char_ge32 {n : Nat} (h : n < 32) : 32 ≤ (b32Char n).toNat := by
  rw [b32Char]
  split
  · rw [char_toNat_ofNat (by omega)]
    omega
  · rw [char_toNat_ofNat (by omega)]
    omega

theorem b32encode_mem32 (bs : PyBytes) (h : ∀ b ∈ bs, b < 256) :
    ∀ c ∈ b32encode bs, 32 ≤ c.toNat := by
  induction bs using b32encode.induct with
  | case1 => simp [b32encode]
  | case2 a =>
      have ha : a < 256 := h a (by simp)
      intro c hc
      simp only [b32encode, List.mem_cons, List.not_mem_nil, or_false] at hc
      rcases hc with rfl | rfl | rfl | rfl | rfl | rfl | rfl | rfl
      · exact b32Char_ge32 (by omega)
      · exact b32Char_ge32 (by omega)
      all_goals decide
  | case3 a b =>
      have ha : a < 256 := h a (by simp)
      have hb : b < 256 := h b (by simp)
      intro c hc
      simp only [b32encode, List.mem_cons, List.not_mem_nil, or_false] at hc
      rcases hc with rfl | rfl | rfl | rfl | rfl | rfl | rfl | rfl
      · exact b32Char_ge32 (by omega)
      · exact b32Char_ge32 (by omega)
      · exact b32Char_ge32 (by omega)
      · exact b32Char_ge32 (by omega)
      all_goals decide
  | case4 a b c' =>
      have ha : a < 256 := h a (by simp)
      have hb : b < 256 := h b (by simp)
      have hc' : c' < 256 := h c' (by simp)
      intro c hc
      simp only [b32encode, List.mem_cons, List.not_mem_nil, or_false] at hc
      rcases hc with rfl | rfl | rfl | rfl | rfl | rfl | rfl | rfl
      · exact b32Char_ge32 (by omega)
      · exact b32Char_ge32 (by omega)
      · exact b32Char_ge32 (by omega)
      · exact b32Char_ge32 (by omega)
      · exact b32Char_ge32 (by omega)
      all_goals decide
  | case5 a b c' d =>
      have ha : a < 256 := h a (by simp)
      have hb : b < 256 := h b (by simp)
      have hc' : c' < 256 := h c' (by simp)
      have hd : d < 256 := h d (by simp)
      intro c hc
      simp only [b32encode, List.mem_cons, List.not_mem_nil, or_false] at hc
      rcases hc with rfl | rfl | rfl | rfl | rfl | rfl | rfl | rfl
      · exact b32Char_ge32 (by omega)
      · exact b32Char_ge32 (by omega)
      · exact b32Char_ge32 (by omega)
      · exact b32Char_ge32 (by omega)
      · exact b32Char_ge32 (by omega)
      · exact b32Char_ge32 (by omega)
      · exact b32Char_ge32 (by omega)
      · decide
  | case6 a b c' d e rest ih =>
      have ha : a < 256 := h a (by simp)
      have hb : b < 256 := h b (by simp)
      have hc' : c' < 256 := h c' (by simp)
      have hd : d < 256 := h d (by simp)
      have he : e < 256 := h e (by simp)
      have hrest : ∀ x ∈ rest, x < 256 := fun x hx => h x (by simp [hx])
      intro c hc
      simp only [b32encode, List.mem_cons] at hc
      rcases hc with rfl | rfl | rfl | rfl | rfl | rfl | rfl | rfl | hm
      · exact b32Char_ge32 (by omega)
      · exact b32Char_ge32 (by omega)
      · exact b32Char_ge32 (by omega)
      · exact b32Char_ge32 (by omega)
      · exact b32Char_ge32 (by omega)
      · exact b32Char_ge32 (by omega)
      · exact b32Char_ge32 (by omega)
      · exact b32Char_ge32 (by omega)
      · exact ih hrest c hm

theorem intRepr_mem32 (n : Int) : ∀ c ∈ intRepr n, 32 ≤ c.toNat := by
  intro c hc
  rw [intRepr] at hc
  split at hc
  · rcases List.mem_cons.mp hc with rfl | hm
    · decide
    · obtain ⟨d, hd, rfl⟩ := natDigits_mem _ c hm
      rw [char_toNat_ofNat (by omega)]
      omega
  · obtain ⟨d, hd, rfl⟩ := natDigits_mem _ c hc
    rw [char_toNat_ofNat (by omega)]
    omega

theorem reprEscChar_mem32 (q : Char) (hq : 32 ≤ q.toNat) (x : Char) :
    ∀ c ∈ reprEscChar q x, 32 ≤ c.toNat := by
  intro c hc
  rw [reprEscChar] at hc
  split at hc
  · simp at hc
    rcases hc with rfl | rfl <;> decide
  · split at hc
    · simp at hc
      rcases hc with rfl | rfl
      · decide
      · exact hq
    · split at hc
      · simp at hc
        rcases hc with rfl | rfl <;> decide
      · split at hc
        · simp at hc
          rcases hc with rfl | rfl <;> decide
        · split at hc
          · simp at hc
            rcases hc with rfl | rfl <;> decide
          · split at hc
            · rename_i hcase
              simp only [Bool.or_eq_true, Bool.and_eq_true, decide_eq_true_eq] at hcase
              simp at hc
              rcases hc with rfl | rfl | rfl | rfl
              · decide
              · decide
              · refine hexDigitChar_ge32 _ (by omega)
              · refine hexDigitChar_ge32 _ (by omega)
            · rename_i hcase
              simp only [Bool.or_eq_true, not_or, decide_eq_true_eq] at hcase
              simp at hc
              subst hc
              omega

theorem reprStr_mem32 (s : PyStr) : ∀ c ∈ reprStr s, 32 ≤ c.toNat := by
  intro c hc
  have hq : ∀ a b : Bool, 32 ≤ (reprQuote a b).toNat := by
    intro a b
    rw [reprQuote]
    split <;> decide
  simp only [reprStr] at hc
  rcases List.mem_cons.mp hc with rfl | hc2
  · exact hq _ _
  · rcases List.mem_append.mp hc2 with hc3 | hc4
    · rw [List.mem_flatten] at hc3
      obtain ⟨l, hl, hcl⟩ := hc3
      rw [List.mem_map] at hl
      obtain ⟨x, hx, rfl⟩ := hl
      exact reprEscChar_mem32 _ (hq _ _) x c hcl
    · simp at hc4
      subst hc4
      exact hq _ _

theorem reprEscByte_mem32 (q : Nat) (hq : q = 39 ∨ q = 34) (b : Nat) (hb : b < 256) :
    ∀ c ∈ reprEscByte q b, 32 ≤ c.toNat := by
  intro c hc
  rw [reprEscByte] at hc
  split at hc
  · simp at hc
    rcases hc with rfl | rfl <;> decide
  · split at hc
    · simp at hc
      rcases hc with rfl | rfl
      · decide
      · rcases hq with rfl | rfl <;> decide
    · split at hc
      · simp at hc
        rcases hc with rfl | rfl <;> decide
      · split at hc
        · simp at hc
          rcases hc with rfl | rfl <;> decide
        · split at hc
          · simp at hc
            rcases hc with rfl | rfl <;> decide
          · split at hc
            · rename_i hcase
              simp only [Bool.or_eq_true, Bool.and_eq_true, decide_eq_true_eq] at hcase
              simp at hc
              rcases hc with rfl | rfl | rfl | rfl
              · decide
              · decide
              · refine hexDigitChar_ge32 _ (by omega)
              · refine hexDigitChar_ge32 _ (by omega)
            · rename_i hcase
              simp only [Bool.or_eq_true, not_or, decide_eq_true_eq] at hcase
              simp at hc
              subst hc
              rw [char_toNat_ofNat (by omega)]
              omega

theorem reprBytes_mem32 (bs : PyBytes) (hbs : ∀ b ∈ bs, b < 256) :
    ∀ c ∈ reprBytes bs, 32 ≤ c.toNat := by
  intro c hc
  have hq : (if bs.contains 39 && !bs.contains 34 then 34 else 39) = 39 ∨
      (if bs.contains 39 && !bs.contains 34 then 34 else 39) = 34 := by
    split
    · exact Or.inr rfl
    · exact Or.inl rfl
  simp only [reprBytes] at hc
  rcases List.mem_cons.mp hc with rfl | hc1
  · decide
  · rcases List.mem_cons.mp hc1 with rfl | hc2
    · rcases hq with hq' | hq' <;> rw [hq'] <;> decide
    · rcases List.mem_append.mp hc2 with hc3 | hc4
      · rw [List.mem_flatten] at hc3
        obtain ⟨l, hl, hcl⟩ := hc3
        rw [List.mem_map] at hl
        obtain ⟨x, hx, rfl⟩ := hl
        exact reprEscByte_mem32 _ hq x (hbs x hx) c hcl
      · have hc5 := List.mem_singleton.mp hc4
        subst hc5
        rcases hq with hq' | hq' <;> rw [hq'] <;> decide

mutual

/-- Every character of the `repr` of a wellformed value is printable
(no control characters, in particular no newline). -/
theorem reprValue_mem32 : ∀ (v : PyValue), wfV v = true →
    ∀ c ∈ reprValue v, 32 ≤ c.toNat
  | .str s, _ => by
      simp only [reprValue]
      exact reprStr_mem32 s
  | .bytes bs, h => by
      simp only [reprValue]
      refine reprBytes_mem32 bs ?_
      simp only [wfV, List.all_eq_true] at h
      intro b hb
      simpa using h b hb
  | .int n, _ => by
      simp only [reprValue]
      exact intRepr_mem32 n
  | .float s, h => by
      simp only [reprValue]
      intro c hc
      exact float_char_ge32 (isWfFloat_mem (by simpa [wfV] using h) c hc)
  | .bool b, _ => by cases b <;> decide
  | .none, _ => by decide
  | .tup [], _ => by decide
  | .tup [x], h => by
      have hx : wfV x = true := by
        simp only [wfV, wfList, Bool.and_eq_true, Bool.and_true] at h
        exact h
      simp only [reprValue]
      intro c hc
      rcases List.mem_cons.mp hc with rfl | hc2
      · decide
      · rcases List.mem_append.mp hc2 with hc3 | hc4
        · exact reprValue_mem32 x hx c hc3
        · simp at hc4
          rcases hc4 with rfl | rfl <;> decide
  | .tup (x :: y :: ys), h => by
      have h' : wfV x = true ∧ wfList (y :: ys) = true := by
        simp only [wfV] at h
        rw [wfList, Bool.and_eq_true] at h
        exact h
      simp only [reprValue]
      intro c hc
      rcases List.mem_append.mp hc with hc1 | hc4
      · rcases List.mem_append.mp hc1 with hc2 | hc3
        · rcases List.mem_cons.mp hc2 with rfl | hc5
          · decide
          · exact reprValue_mem32 x h'.1 c hc5
        · exact reprItems_mem32 (y :: ys) h'.2 c hc3
      · simp at hc4
        subst hc4
        decide
  | .list [], _ => by decide
  | .list (x :: xs), h => by
      have h' : wfV x = true ∧ wfList xs = true := by
        simp only [wfV] at h
        rw [wfList, Bool.and_eq_true] at h
        exact h
      simp only [reprValue]
      intro c hc
      rcases List.mem_append.mp hc with hc1 | hc4
      · rcases List.mem_append.mp hc1 with hc2 | hc3
        · rcases List.mem_cons.mp hc2 with rfl | hc5
          · decide
          · exact reprValue_mem32 x h'.1 c hc5
        · exact reprItems_mem32 xs h'.2 c hc3
      · simp at hc4
        subst hc4
        decide
  | .set [], _ => by decide
  | .set (x :: xs), h => by
      have h' : wfV x = true ∧ wfList xs = true := by
        simp only [wfV] at h
        rw [wfList, Bool.and_eq_true] at h
        exact h
      simp only [reprValue]
      intro c hc
      rcases List.mem_append.mp hc with hc1 | hc4
      · rcases List.mem_append.mp hc1 with hc2 | hc3
        · rcases List.mem_cons.mp hc2 with rfl | hc5
          · decide
          · exact reprValue_mem32 x h'.1 c hc5
        · exact reprItems_mem32 xs h'.2 c hc3
      · simp at hc4
        subst hc4
        decide
  | .dict [], _ => by decide
  | .dict ((k, v) :: ps), h => by
      have h' : (wfV k = true ∧ wfV v = true) ∧ wfPairs ps = true := by
        simp only [wfV] at h
        rw [wfPairs, Bool.and_eq_true, Bool.and_eq_true] at h
        exact h
      simp only [reprValue]
      intro c hc
      rcases List.mem_append.mp hc with hc1 | hc6
      · rcases List.mem_append.mp hc1 with hc2 | hc5
        · rcases List.mem_append.mp hc2 with hc3 | hc7
          · rcases List.mem_append.mp hc3 with hc4 | hc8
            · rcases List.mem_cons.mp hc4 with rfl | hc9
              · decide
              · exact reprValue_mem32 k h'.1.1 c hc9
            · simp at hc8
              rcases hc8 with rfl | rfl <;> decide
          · exact reprValue_mem32 v h'.1.2 c hc7
        · exact reprPairs_mem32 ps h'.2 c hc5
      · simp at hc6
        subst hc6
        decide

/-- Item tails of a container `repr` are printable. -/
theorem reprItems_mem32 : ∀ (xs : List PyValue), wfList xs = true →
    ∀ c ∈ reprItems xs, 32 ≤ c.toNat
  | [], _ => by
      intro c hc
      simp [reprItems] at hc
  | x :: xs, h => by
      rw [wfList, Bool.and_eq_true] at h
      simp only [reprItems]
      intro c hc
      rcases List.mem_append.mp hc with hc1 | hc2
      · rcases List.mem_cons.mp hc1 with rfl | hc3
        · decide
        · rcases List.mem_cons.mp hc3 with rfl | hc4
          · decide
          · exact reprValue_mem32 x h.1 c hc4
      · exact reprItems_mem32 xs h.2 c hc2

/-- Pair tails of a dict `repr` are printable. -/
theorem reprPairs_mem32 : ∀ (ps : List (PyValue × PyValue)), wfPairs ps = true →
    ∀ c ∈ reprPairs ps, 32 ≤ c.toNat
  | [], _ => by
      intro c hc
      simp [reprPairs] at hc
  | (k, v) :: ps, h => by
      rw [wfPairs, Bool.and_eq_true, Bool.and_eq_true] at h
      simp only [reprPairs]
      intro c hc
      rcases List.mem_append.mp hc with hc1 | hc5
      · rcases List.mem_append.mp hc1 with hc2 | hc4
        · rcases List.mem_append.mp hc2 with hc3 | hc6
          · rcases List.mem_cons.mp hc3 with rfl | hc7
            · decide
            · rcases List.mem_cons.mp hc7 with rfl | hc8
              · decide
              · exact reprValue_mem32 k h.1.1 c hc8
          · simp at hc6
            rcases hc6 with rfl | rfl <;> decide
        · exact reprValue_mem32 v h.1.2 c hc4
      · exact reprPairs_mem32 ps h.2 c hc5

end

theorem mem_of_getLast {l : PyStr} {c : Char} (h : l.getLast? = Option.some c) :
    c ∈ l := by
  rw [← List.head?_reverse] at h
  cases hrev : l.reverse with
  | nil => rw [hrev] at h; simp at h
  | cons d u =>
      rw [hrev] at h
      rw [List.head?_cons, Option.some.injEq] at h
      subst h
      have hm : d ∈ l.reverse := by
        rw [hrev]
        exact List.mem_cons_self d u
      exact List.mem_reverse.mp hm

/-- The body of a written line (everything before the final newline) does
not end in a newline character when the payload is printable. -/
theorem line_body_no_nl (A : PyStr) (payload : PyStr)
    (hp : ∀ c ∈ payload, 32 ≤ c.toNat) :
    ∀ c, (A ++ '=' :: payload).getLast? = Option.some c →
      (c = '\n' || c = '\x0d') = false := by
  intro c hc
  rw [List.getLast?_append_of_ne_nil _ (List.cons_ne_nil '=' payload)] at hc
  cases payload with
  | nil =>
      simp at hc
      subst hc
      decide
  | cons p ps =>
      rw [show ('=' :: p :: ps : PyStr) = ['='] ++ p :: ps from rfl,
        List.getLast?_append_of_ne_nil _ (List.cons_ne_nil p ps)] at hc
      have hge := hp c (mem_of_getLast hc)
      simp only [Bool.or_eq_false_iff, decide_eq_false_iff_not]
      constructor <;> (rintro rfl; exact absurd hge (by decide))


/-! ## The modifier chains produced by `write_k_v` decode back -/

theorem applyMods_r {v : PyValue} (h : wfV v = true) :
    applyMods ['r'] (.str (reprValue v)) = Option.some v := by
  rw [applyMods]
  rw [literalEval_repr v h]
  rfl

theorem applyMods_i (n : Int) :
    applyMods ['i'] (.str (intRepr n)) = Option.some (.int n) := by
  rw [applyMods]
  rw [parseIntPy_intRepr]
  rfl

theorem applyMods_f' {s : PyStr} (h : pyFloatOfText s = Option.some s) :
    applyMods ['f'] (.str s) = Option.some (.float s) := by
  rw [applyMods]
  rw [h]
  rfl

theorem applyMods_f {s : PyStr} (h : isWfFloat s = true) :
    applyMods ['f'] (.str s) = Option.some (.float s) :=
  applyMods_f' (pyFloatOfText_wf h)

/-- A modifier string whose first character is none of the recognized
modifier heads dies in the final `else` branch of the `while m:` loop
(`logger.error`, `m = False`), whatever the running value is. -/
theorem applyMods_unknown (c : Char) (rest : List Char) (v : PyValue)
    (h : c ≠ 'p' ∧ c ≠ 's' ∧ c ≠ 'b' ∧ c ≠ 'i' ∧ c ≠ 'f' ∧ c ≠ 'r' ∧
      c ≠ '3' ∧ c ≠ '6') :
    applyMods (c :: rest) v = Option.none := by
  obtain ⟨h1, h2, h3, h4, h5, h6, h7, h8⟩ := h
  rw [applyMods.eq_def]
  split <;> simp_all

theorem applyMods_64s (s : PyStr) :
    applyMods ['6', '4', 's'] (.str (b64encode (utf8Encode s))) =
      Option.some (.str s) := by
  rw [applyMods]
  rw [b64_roundtrip _ (utf8Encode_lt s)]
  dsimp only
  rw [applyMods]
  rw [utf8_roundtrip]
  rfl

theorem applyMods_32 {bs : PyBytes} (h : ∀ b ∈ bs, b < 256) :
    applyMods ['3', '2'] (.str (b32encode bs)) = Option.some (.bytes bs) := by
  rw [applyMods]
  rw [b32_roundtrip bs h]
  rfl

/-! ## Parsing a written line -/

theorem parseKV_mod_line (ks m payload : PyStr)
    (hkeq : ('=' : Char) ∉ ks) (hksl : ('/' : Char) ∉ ks) (hmeq : ('=' : Char) ∉ m)
    (hp : ∀ c ∈ payload, 32 ≤ c.toNat) :
    parseKV (ks ++ '/' :: m ++ '=' :: payload ++ ['\n']) =
      Option.some (ks, m, payload) := by
  have hne : ('=' : Char) ∉ ks ++ '/' :: m := by
    intro hm'
    rcases List.mem_append.mp hm' with h | h
    · exact hkeq h
    · rcases List.mem_cons.mp h with h' | h'
      · exact absurd h' (by decide)
      · exact hmeq h'
  simp only [parseKV]
  rw [rstripNl_line _ (line_body_no_nl (ks ++ '/' :: m) payload hp)]
  rw [splitOnce_append '=' (ks ++ '/' :: m) payload hne]
  dsimp only
  rw [splitOnce_append '/' ks m hksl]

theorem parseKV_plain_line (ks s : PyStr)
    (hkeq : ('=' : Char) ∉ ks) (hksl : ('/' : Char) ∉ ks)
    (hp : ∀ c ∈ s, 32 ≤ c.toNat) :
    parseKV (ks ++ '=' :: s ++ ['\n']) = Option.some (ks, [], s) := by
  simp only [parseKV]
  rw [rstripNl_line _ (line_body_no_nl ks s hp)]
  rw [splitOnce_append '=' ks s hkeq]
  dsimp only
  rw [splitOnce_none '/' ks hksl]

/-- The head of a `dropWhile` result fails the predicate. -/
theorem dropWhile_head_not {p : Char → Bool} {l : PyStr} {c : Char} {t : PyStr}
    (h : l.dropWhile p = c :: t) : p c = false := by
  induction l with
  | nil => simp at h
  | cons a l ih =>
      rw [List.dropWhile_cons] at h
      split at h
      · exact ih h
      · rename_i hpa
        injection h with h1 _
        subst h1
        simpa using hpa

/-- Right-stripping keeps a leading non-whitespace character. -/
theorem rdropWhile_keep_head {c : Char} (hc : pyIsSpace c = false) (t : PyStr) :
    ∃ t', ((c :: t).reverse.dropWhile pyIsSpace).reverse = c :: t' := by
  rw [List.reverse_cons, List.dropWhile_append]
  split
  · refine ⟨[], ?_⟩
    rw [List.dropWhile_cons_of_neg (by simp [hc])]
    rfl
  · refine ⟨(t.reverse.dropWhile pyIsSpace).reverse, ?_⟩
    simp [List.reverse_append]

/-- `strip` starts with the first character surviving the left
whitespace scan. -/
theorem pyStrip_dropWhile_head {l : PyStr} {c : Char} {t : PyStr}
    (h : l.dropWhile pyIsSpace = c :: t) :
    ∃ t', pyStrip l = c :: t' := by
  have hc : pyIsSpace c = false := dropWhile_head_not h
  rw [pyStrip, h]
  exact rdropWhile_keep_head hc t

/-- A written line `key ++ sep-head ++ rest` (plus final newline) is not
taken for a comment when the key's first non-whitespace character is not
`#` and the separator head is itself non-whitespace and not `#` (it
carries the line when the key is all whitespace or empty). -/
theorem isCommentLine_sep (ks : PyStr) (d : Char) (tail2 : PyStr)
    (hd : pyIsSpace d = false) (hdh : d ≠ '#')
    (hkc : (ks.dropWhile pyIsSpace).head? ≠ Option.some '#')
    (hlast : ∀ c, (ks ++ d :: tail2).getLast? = Option.some c →
      (c = '\n' || c = '\x0d') = false) :
    isCommentLine (ks ++ d :: tail2 ++ ['\n']) = false := by
  have hdw : ∃ c0 u, (ks ++ d :: tail2).dropWhile pyIsSpace = c0 :: u ∧
      c0 ≠ '#' := by
    rw [List.dropWhile_append]
    split
    · exact ⟨d, tail2, by rw [List.dropWhile_cons_of_neg (by simp [hd])], hdh⟩
    · rename_i hne
      cases hks : ks.dropWhile pyIsSpace with
      | nil => rw [hks] at hne; simp at hne
      | cons k0 kr =>
          refine ⟨k0, kr ++ d :: tail2, by simp, ?_⟩
          intro hh
          subst hh
          exact hkc (by rw [hks]; rfl)
  obtain ⟨c0, u, hdw', hc0h⟩ := hdw
  obtain ⟨u', hps'⟩ := pyStrip_dropWhile_head hdw'
  simp only [isCommentLine]
  rw [rstripNl_line _ hlast, hps']
  simp [hc0h]

theorem isCommentLine_mod_line (ks m payload : PyStr)
    (hkc : (ks.dropWhile pyIsSpace).head? ≠ Option.some '#')
    (hp : ∀ c ∈ payload, 32 ≤ c.toNat) :
    isCommentLine (ks ++ '/' :: m ++ '=' :: payload ++ ['\n']) = false := by
  rw [show ks ++ '/' :: m ++ '=' :: payload ++ ['\n']
      = ks ++ '/' :: (m ++ '=' :: payload) ++ ['\n'] by simp]
  refine isCommentLine_sep ks '/' (m ++ '=' :: payload) (by decide) (by decide)
    hkc ?_
  intro c hc
  refine line_body_no_nl (ks ++ '/' :: m) payload hp c ?_
  rw [show (ks ++ '/' :: m) ++ '=' :: payload
      = ks ++ '/' :: (m ++ '=' :: payload) by simp]
  exact hc

theorem isCommentLine_plain_line (ks s : PyStr)
    (hkc : (ks.dropWhile pyIsSpace).head? ≠ Option.some '#')
    (hp : ∀ c ∈ s, 32 ≤ c.toNat) :
    isCommentLine (ks ++ '=' :: s ++ ['\n']) = false :=
  isCommentLine_sep ks '=' s (by decide) (by decide) hkc
    (line_body_no_nl ks s hp)

theorem lineStep_mod (db : PyDict) (ks m payload : PyStr) (v : PyValue)
    (hkeq : ('=' : Char) ∉ ks) (hksl : ('/' : Char) ∉ ks)
    (hkc : (ks.dropWhile pyIsSpace).head? ≠ Option.some '#')
    (hmeq : ('=' : Char) ∉ m)
    (hp : ∀ c ∈ payload, 32 ≤ c.toNat)
    (ham : applyMods m (.str payload) = Option.some v) :
    lineStep db (ks ++ '/' :: m ++ '=' :: payload ++ ['\n']) =
      dictSet (.str ks) v db := by
  rw [lineStep, isCommentLine_mod_line ks m payload hkc hp, if_neg (by simp)]
  rw [parseKV_mod_line ks m payload hkeq hksl hmeq hp]
  dsimp only
  rw [ham]

theorem lineStep_plain (db : PyDict) (ks s : PyStr)
    (hkeq : ('=' : Char) ∉ ks) (hksl : ('/' : Char) ∉ ks)
    (hkc : (ks.dropWhile pyIsSpace).head? ≠ Option.some '#')
    (hp : ∀ c ∈ s, 32 ≤ c.toNat) :
    lineStep db (ks ++ '=' :: s ++ ['\n']) = dictSet (.str ks) (.str s) db := by
  rw [lineStep, isCommentLine_plain_line ks s hkc hp, if_neg (by simp)]
  rw [parseKV_plain_line ks s hkeq hksl hp]
  dsimp only
  rfl

theorem lineEntry_mod (ks m payload : PyStr)
    (hkeq : ('=' : Char) ∉ ks) (hksl : ('/' : Char) ∉ ks)
    (hkc : (ks.dropWhile pyIsSpace).head? ≠ Option.some '#')
    (hmeq : ('=' : Char) ∉ m)
    (hp : ∀ c ∈ payload, 32 ≤ c.toNat) :
    lineEntry (ks ++ '/' :: m ++ '=' :: payload ++ ['\n']) =
      .kv ks m (ks ++ '/' :: m ++ '=' :: payload ++ ['\n']) := by
  rw [lineEntry, isCommentLine_mod_line ks m payload hkc hp, if_neg (by simp)]
  rw [parseKV_mod_line ks m payload hkeq hksl hmeq hp]

theorem lineEntry_plain (ks s : PyStr)
    (hkeq : ('=' : Char) ∉ ks) (hksl : ('/' : Char) ∉ ks)
    (hkc : (ks.dropWhile pyIsSpace).head? ≠ Option.some '#')
    (hp : ∀ c ∈ s, 32 ≤ c.toNat) :
    lineEntry (ks ++ '=' :: s ++ ['\n']) = .kv ks [] (ks ++ '=' :: s ++ ['\n']) := by
  rw [lineEntry, isCommentLine_plain_line ks s hkc hp, if_neg (by simp)]
  rw [parseKV_plain_line ks s hkeq hksl hp]

theorem dictGet_dictSet (k v : PyValue) (d : PyDict) :
    dictGet k (dictSet k v d) = Option.some v := by
  induction d with
  | nil => simp [dictGet, dictSet, List.find?]
  | cons p ps ih =>
      rw [dictSet]
      split
      · simp [dictGet, List.find?]
      · rename_i hp
        rw [dictGet, List.find?_cons_of_neg _ (by simpa using hp)]
        show dictGet k (dictSet k v ps) = Option.some v
        exact ih

/-! ## `write_k_v` output always reads back -/

theorem writeKV_ok (ks : PyStr) (v : PyValue)
    (hkeq : ('=' : Char) ∉ ks) (hksl : ('/' : Char) ∉ ks) :
    ∃ line, writeKV (.str ks) v = Except.ok line := by
  have hcond : ¬((ks.contains '=' || ks.contains '/') = true) := by
    rw [contains_false_of_not_mem hkeq, contains_false_of_not_mem hksl]
    simp
  cases v with
  | str s =>
      by_cases hctl : s.any (fun j => j.toNat < 32) = true
      · have h1 : writeKV (.str ks) (.str s) =
            .ok (ks ++ ['/', '6', '4', 's', '='] ++ b64encode (utf8Encode s) ++ ['\n']) := by
          rw [writeKV, if_neg hcond]
          rw [if_pos hctl]
        exact ⟨_, h1⟩
      · have h1 : writeKV (.str ks) (.str s) =
            .ok (ks ++ ['='] ++ s ++ ['\n']) := by
          rw [writeKV, if_neg hcond]
          rw [if_neg hctl]
        exact ⟨_, h1⟩
  | bool b =>
      have h1 : writeKV (.str ks) (.bool b) =
          .ok (ks ++ ['/', 'r', '='] ++ reprValue (.bool b) ++ ['\n']) := by
        rw [writeKV, if_neg hcond]
      exact ⟨_, h1⟩
  | none =>
      have h1 : writeKV (.str ks) .none =
          .ok (ks ++ ['/', 'r', '='] ++ reprValue .none ++ ['\n']) := by
        rw [writeKV, if_neg hcond]
      exact ⟨_, h1⟩
  | int n =>
      have h1 : writeKV (.str ks) (.int n) =
          .ok (ks ++ ['/', 'i', '='] ++ intRepr n ++ ['\n']) := by
        rw [writeKV, if_neg hcond]
      exact ⟨_, h1⟩
  | float s =>
      have h1 : writeKV (.str ks) (.float s) =
          .ok (ks ++ ['/', 'f', '='] ++ s ++ ['\n']) := by
        rw [writeKV, if_neg hcond]
      exact ⟨_, h1⟩
  | bytes bs =>
      have h1 : writeKV (.str ks) (.bytes bs) =
          .ok (ks ++ ['/', '3', '2', '='] ++ b32encode bs ++ ['\n']) := by
        rw [writeKV, if_neg hcond]
      exact ⟨_, h1⟩
  | tup xs =>
      have h1 : writeKV (.str ks) (.tup xs) =
          .ok (ks ++ ['/', 'r', '='] ++ reprValue (.tup xs) ++ ['\n']) := by
        rw [writeKV, if_neg hcond]
        rw [if_pos (checkEvalSafe_true _)]
        all_goals simp
      exact ⟨_, h1⟩
  | list xs =>
      have h1 : writeKV (.str ks) (.list xs) =
          .ok (ks ++ ['/', 'r', '='] ++ reprValue (.list xs) ++ ['\n']) := by
        rw [writeKV, if_neg hcond]
        rw [if_pos (checkEvalSafe_true _)]
        all_goals simp
      exact ⟨_, h1⟩
  | set xs =>
      have h1 : writeKV (.str ks) (.set xs) =
          .ok (ks ++ ['/', 'r', '='] ++ reprValue (.set xs) ++ ['\n']) := by
        rw [writeKV, if_neg hcond]
        rw [if_pos (checkEvalSafe_true _)]
        all_goals simp
      exact ⟨_, h1⟩
  | dict ps =>
      have h1 : writeKV (.str ks) (.dict ps) =
          .ok (ks ++ ['/', 'r', '='] ++ reprValue (.dict ps) ++ ['\n']) := by
        rw [writeKV, if_neg hcond]
        rw [if_pos (checkEvalSafe_true _)]
        all_goals simp
      exact ⟨_, h1⟩

/-- Reading back the single line `write_k_v` emits for a wellformed value
— or a float value whose text `float()` accepts and carries through, such
as `inf` — stores exactly that value under the key. -/
theorem lineStep_writeKV (db : PyDict) (ks : PyStr) (v : PyValue) (line : PyStr)
    (hwf : wfV v = true ∨
      ∃ s, v = PyValue.float s ∧ pyFloatOfText s = Option.some s ∧
        ∀ c ∈ s, 32 ≤ c.toNat)
    (hkeq : ('=' : Char) ∉ ks) (hksl : ('/' : Char) ∉ ks)
    (hkc : (ks.dropWhile pyIsSpace).head? ≠ Option.some '#')
    (hw : writeKV (.str ks) v = Except.ok line) :
    lineStep db line = dictSet (.str ks) v db := by
  have hcond : ¬((ks.contains '=' || ks.contains '/') = true) := by
    rw [contains_false_of_not_mem hkeq, contains_false_of_not_mem hksl]
    simp
  cases v with
  | str s =>
      rw [writeKV, if_neg hcond] at hw
      by_cases hctl : s.any (fun j => j.toNat < 32) = true
      · rw [if_pos hctl] at hw
        injection hw with hline
        subst hline
        rw [show ks ++ ['/', '6', '4', 's', '='] ++ b64encode (utf8Encode s) ++ ['\n']
            = ks ++ '/' :: ['6', '4', 's'] ++ '=' :: b64encode (utf8Encode s) ++ ['\n']
            by simp]
        exact lineStep_mod db ks ['6', '4', 's'] _ (.str s) hkeq hksl hkc
          (by decide) (b64encode_mem32 _ (utf8Encode_lt s)) (applyMods_64s s)
      · rw [if_neg hctl] at hw
        injection hw with hline
        subst hline
        rw [show ks ++ ['='] ++ s ++ ['\n'] = ks ++ '=' :: s ++ ['\n'] by simp]
        refine lineStep_plain db ks s hkeq hksl hkc ?_
        intro c hc
        have : ¬ c.toNat < 32 := by
          intro hlt
          exact hctl (List.any_eq_true.mpr ⟨c, hc, by simpa using hlt⟩)
        omega
  | bool b =>
      have hwf : wfV (.bool b) = true := by
        rcases hwf with hwf | ⟨s', heq, _, _⟩
        · exact hwf
        · simp at heq
      rw [writeKV, if_neg hcond] at hw
      injection hw with hline
      subst hline
      rw [show ks ++ ['/', 'r', '='] ++ reprValue (.bool b) ++ ['\n']
          = ks ++ '/' :: ['r'] ++ '=' :: reprValue (.bool b) ++ ['\n'] by simp]
      exact lineStep_mod db ks ['r'] _ (.bool b) hkeq hksl hkc
        (by decide) (reprValue_mem32 _ hwf) (applyMods_r hwf)
  | none =>
      have hwf : wfV PyValue.none = true := by
        rcases hwf with hwf | ⟨s', heq, _, _⟩
        · exact hwf
        · simp at heq
      rw [writeKV, if_neg hcond] at hw
      injection hw with hline
      subst hline
      rw [show ks ++ ['/', 'r', '='] ++ reprValue .none ++ ['\n']
          = ks ++ '/' :: ['r'] ++ '=' :: reprValue .none ++ ['\n'] by simp]
      exact lineStep_mod db ks ['r'] _ .none hkeq hksl hkc
        (by decide) (reprValue_mem32 _ hwf) (applyMods_r hwf)
  | int n =>
      rw [writeKV, if_neg hcond] at hw
      injection hw with hline
      subst hline
      rw [show ks ++ ['/', 'i', '='] ++ intRepr n ++ ['\n']
          = ks ++ '/' :: ['i'] ++ '=' :: intRepr n ++ ['\n'] by simp]
      exact lineStep_mod db ks ['i'] _ (.int n) hkeq hksl hkc
        (by decide) (intRepr_mem32 n) (applyMods_i n)
  | float s =>
      have hfl : pyFloatOfText s = Option.some s ∧ ∀ c ∈ s, 32 ≤ c.toNat := by
        rcases hwf with hwf | ⟨s', heq, hpf, hpr⟩
        · have hwfs : isWfFloat s = true := by simpa [wfV] using hwf
          exact ⟨pyFloatOfText_wf hwfs,
            fun c hc => float_char_ge32 (isWfFloat_mem hwfs c hc)⟩
        · injection heq with hse
          subst hse
          exact ⟨hpf, hpr⟩
      rw [writeKV, if_neg hcond] at hw
      injection hw with hline
      subst hline
      rw [show ks ++ ['/', 'f', '='] ++ s ++ ['\n']
          = ks ++ '/' :: ['f'] ++ '=' :: s ++ ['\n'] by simp]
      exact lineStep_mod db ks ['f'] _ (.float s) hkeq hksl hkc
        (by decide) hfl.2 (applyMods_f' hfl.1)
  | bytes bs =>
      have hwf : wfV (.bytes bs) = true := by
        rcases hwf with hwf | ⟨s', heq, _, _⟩
        · exact hwf
        · simp at heq
      have hoct : ∀ b ∈ bs, b < 256 := by
        simp only [wfV, List.all_eq_true] at hwf
        intro b hb
        simpa using hwf b hb
      rw [writeKV, if_neg hcond] at hw
      injection hw with hline
      subst hline
      rw [show ks ++ ['/', '3', '2', '='] ++ b32encode bs ++ ['\n']
          = ks ++ '/' :: ['3', '2'] ++ '=' :: b32encode bs ++ ['\n'] by simp]
      exact lineStep_mod db ks ['3', '2'] _ (.bytes bs) hkeq hksl hkc
        (by decide) (b32encode_mem32 bs hoct) (applyMods_32 hoct)
  | tup xs =>
      have hwf : wfV (.tup xs) = true := by
        rcases hwf with hwf | ⟨s', heq, _, _⟩
        · exact hwf
        · simp at heq
      rw [writeKV, if_neg hcond] at hw
      rw [if_pos (checkEvalSafe_true _)] at hw
      injection hw with hline
      subst hline
      rw [show ks ++ ['/', 'r', '='] ++ reprValue (.tup xs) ++ ['\n']
          = ks ++ '/' :: ['r'] ++ '=' :: reprValue (.tup xs) ++ ['\n'] by simp]
      exact lineStep_mod db ks ['r'] _ (.tup xs) hkeq hksl hkc
        (by decide) (reprValue_mem32 _ hwf) (applyMods_r hwf)
      all_goals simp
  | list xs =>
      have hwf : wfV (.list xs) = true := by
        rcases hwf with hwf | ⟨s', heq, _, _⟩
        · exact hwf
        · simp at heq
      rw [writeKV, if_neg hcond] at hw
      rw [if_pos (checkEvalSafe_true _)] at hw
      injection hw with hline
      subst hline
      rw [show ks ++ ['/', 'r', '='] ++ reprValue (.list xs) ++ ['\n']
          = ks ++ '/' :: ['r'] ++ '=' :: reprValue (.list xs) ++ ['\n'] by simp]
      exact lineStep_mod db ks ['r'] _ (.list xs) hkeq hksl hkc
        (by decide) (reprValue_mem32 _ hwf) (applyMods_r hwf)
      all_goals simp
  | set xs =>
      have hwf : wfV (.set xs) = true := by
        rcases hwf with hwf | ⟨s', heq, _, _⟩
        · exact hwf
        · simp at heq
      rw [writeKV, if_neg hcond] at hw
      rw [if_pos (checkEvalSafe_true _)] at hw
      injection hw with hline
      subst hline
      rw [show ks ++ ['/', 'r', '='] ++ reprValue (.set xs) ++ ['\n']
          = ks ++ '/' :: ['r'] ++ '=' :: reprValue (.set xs) ++ ['\n'] by simp]
      exact lineStep_mod db ks ['r'] _ (.set xs) hkeq hksl hkc
        (by decide) (reprValue_mem32 _ hwf) (applyMods_r hwf)
      all_goals simp
  | dict ps =>
      have hwf : wfV (.dict ps) = true := by
        rcases hwf with hwf | ⟨s', heq, _, _⟩
        · exact hwf
        · simp at heq
      rw [writeKV, if_neg hcond] at hw
      rw [if_pos (checkEvalSafe_true _)] at hw
      injection hw with hline
      subst hline
      rw [show ks ++ ['/', 'r', '='] ++ reprValue (.dict ps) ++ ['\n']
          = ks ++ '/' :: ['r'] ++ '=' :: reprValue (.dict ps) ++ ['\n'] by simp]
      exact lineStep_mod db ks ['r'] _ (.dict ps) hkeq hksl hkc
        (by decide) (reprValue_mem32 _ hwf) (applyMods_r hwf)
      all_goals simp


/-! ## The continuation renderer round-trips -/

theorem niceCutFrom_bounds (payload : PyStr) (lo : Nat) :
    ∀ i k, niceCutFrom payload lo i = Option.some k → 1 ≤ k ∧ k ≤ i := by
  intro i
  induction i with
  | zero => intro k hk; simp [niceCutFrom] at hk
  | succ i ih =>
      intro k hk
      rw [niceCutFrom] at hk
      split at hk
      · simp at hk
      · split at hk
        · split at hk
          · simp at hk
            omega
          · have := ih k hk
            omega
        · have := ih k hk
          omega

theorem cutPoint_bounds (budget : Nat) (payload : PyStr) (hb : 1 ≤ budget) :
    1 ≤ cutPoint budget payload ∧ cutPoint budget payload ≤ budget := by
  rw [cutPoint]
  cases h : niceCutFrom payload (budget * 3 / 4) budget with
  | none => exact ⟨hb, le_refl _⟩
  | some k => exact niceCutFrom_bounds payload _ budget k h

theorem wrapSegs_flatten_aux (maxW : Nat) :
    ∀ (n b : Nat) (payload : PyStr), payload.length ≤ n →
      (wrapSegs maxW b payload).flatten = payload := by
  intro n
  induction n with
  | zero =>
      intro b payload hlen
      have hp : payload = [] := by
        cases payload with
        | nil => rfl
        | cons a l => simp at hlen
      subst hp
      rw [wrapSegs, if_pos (by simp)]
      simp
  | succ n ih =>
      intro b payload hlen
      rw [wrapSegs]
      split
      · simp
      · rename_i hgt
        simp only [List.flatten_cons]
        rw [ih maxW (payload.drop (max 1 (cutPoint b payload)))
          (by simp only [List.length_drop]; omega)]
        exact List.take_append_drop _ _

theorem wrapSegs_flatten (maxW b : Nat) (payload : PyStr) :
    (wrapSegs maxW b payload).flatten = payload :=
  wrapSegs_flatten_aux maxW payload.length b payload (le_refl _)

theorem wrapSegs_ne_nil (maxW b : Nat) (payload : PyStr) :
    wrapSegs maxW b payload ≠ [] := by
  rw [wrapSegs]
  split
  · simp
  · simp

theorem wrapSegs_mem_aux (maxW : Nat) :
    ∀ (n b : Nat) (payload : PyStr), payload.length ≤ n →
      ∀ seg ∈ wrapSegs maxW b payload, ∀ ch ∈ seg, ch ∈ payload := by
  intro n
  induction n with
  | zero =>
      intro b payload hlen
      have hp : payload = [] := by
        cases payload with
        | nil => rfl
        | cons a l => simp at hlen
      subst hp
      rw [wrapSegs, if_pos (by simp)]
      intro seg hseg ch hch
      simp at hseg
      subst hseg
      exact hch
  | succ n ih =>
      intro b payload hlen
      rw [wrapSegs]
      split
      · intro seg hseg ch hch
        simp at hseg
        subst hseg
        exact hch
      · rename_i hgt
        intro seg hseg ch hch
        rcases List.mem_cons.mp hseg with rfl | hseg2
        · exact List.mem_of_mem_take hch
        · have := ih maxW (payload.drop (max 1 (cutPoint b payload)))
            (by simp only [List.length_drop]; omega) seg hseg2 ch hch
          exact List.mem_of_mem_drop this

theorem wrapSegs_two (maxW b : Nat) (payload : PyStr) (hgt : b < payload.length) :
    2 ≤ (wrapSegs maxW b payload).length := by
  rw [wrapSegs, if_neg (by omega)]
  have hne := wrapSegs_ne_nil maxW maxW (payload.drop (max 1 (cutPoint b payload)))
  rw [List.length_cons]
  cases h : wrapSegs maxW maxW (payload.drop (max 1 (cutPoint b payload))) with
  | nil => exact absurd h hne
  | cons a l =>
      simp only [List.length_cons]
      omega

theorem markSegs_ne_nil (c : Char) (segs : List PyStr) (h : segs ≠ []) :
    markSegs c segs ≠ [] := by
  cases segs with
  | nil => exact absurd rfl h
  | cons s rest =>
      cases rest with
      | nil => simp [markSegs]
      | cons s2 r2 =>
          rw [show markSegs c (s :: s2 :: r2) = (s ++ [c]) :: markSegs c (s2 :: r2)
            from rfl]
          simp

theorem markSegs_length (c : Char) :
    ∀ segs : List PyStr, (markSegs c segs).length = segs.length := by
  intro segs
  induction segs with
  | nil => rfl
  | cons s rest ih =>
      cases rest with
      | nil => rfl
      | cons s2 r2 =>
          rw [show markSegs c (s :: s2 :: r2) = (s ++ [c]) :: markSegs c (s2 :: r2)
            from rfl]
          simp only [List.length_cons]
          simp [ih]

theorem pickCont_spec (payload : PyStr) :
    ∀ (cands : List Char) (c : Char), pickCont cands payload = Option.some c →
      c ∈ cands ∧ c ∉ payload := by
  intro cands
  induction cands with
  | nil => intro c hc; simp [pickCont] at hc
  | cons d ds ih =>
      intro c hc
      rw [pickCont] at hc
      split at hc
      · have := ih c hc
        exact ⟨List.mem_cons_of_mem d this.1, this.2⟩
      · rename_i hdc
        rw [Option.some.injEq] at hc
        subst hc
        refine ⟨List.mem_cons_self d ds, ?_⟩
        intro hm
        exact hdc (by simpa using hm)

/-- The reader's continuation loop undoes the renderer's marking. -/
theorem joinCont_markSegs (c : Char) :
    ∀ (segs : List PyStr) (pre : PyStr),
      (pre ++ segs.flatten).getLast? ≠ Option.some c →
      (match markSegs c segs with
       | [] => True
       | s0 :: rest =>
           joinCont c (pre ++ s0) rest = Option.some (pre ++ segs.flatten, []))
  | [], _, _ => trivial
  | [s], pre, hlast => by
      simp only [markSegs]
      simp only [List.flatten_cons, List.flatten_nil, List.append_nil] at hlast ⊢
      rw [joinCont, if_neg hlast]
  | s :: s2 :: rest, pre, hlast => by
      simp only [markSegs]
      have hlast' : ((pre ++ s) ++ (s2 :: rest).flatten).getLast? ≠ Option.some c := by
        simp only [List.flatten_cons, List.append_assoc] at hlast ⊢
        exact hlast
      have ih := joinCont_markSegs c (s2 :: rest) (pre ++ s) hlast'
      cases hms : markSegs c (s2 :: rest) with
      | nil => exact absurd hms (markSegs_ne_nil c _ (by simp))
      | cons m0 mrest =>
          rw [hms] at ih
          dsimp only at ih ⊢
          have hgl : (pre ++ (s ++ [c])).getLast? = Option.some c := by
            rw [← List.append_assoc]
            exact List.getLast?_concat _
          have hdl : (pre ++ (s ++ [c])).dropLast = pre ++ s := by
            rw [← List.append_assoc]
            exact List.dropLast_concat
          rw [joinCont, if_pos hgl, hdl, ih]
          simp [List.flatten_cons, List.append_assoc]


theorem rstripNl_id (l : PyStr)
    (h : ∀ c, l.getLast? = Option.some c → (c = '\n' || c = '\x0d') = false) :
    rstripNl l = l := by
  rw [rstripNl]
  cases hrev : l.reverse with
  | nil =>
      rw [List.reverse_eq_nil_iff] at hrev
      subst hrev
      rfl
  | cons c u =>
      have hc := h c (by rw [← List.head?_reverse, hrev]; rfl)
      rw [List.dropWhile_cons_of_neg (by simp [hc]), ← hrev,
        List.reverse_reverse]

/-- `parseKV` on a line carried without its terminator. -/
theorem parseKV_mod_nonl (ks m payload : PyStr)
    (hkeq : ('=' : Char) ∉ ks) (hksl : ('/' : Char) ∉ ks) (hmeq : ('=' : Char) ∉ m)
    (hp : ∀ c ∈ payload, 32 ≤ c.toNat) :
    parseKV (ks ++ '/' :: m ++ '=' :: payload) = Option.some (ks, m, payload) := by
  have hne : ('=' : Char) ∉ ks ++ '/' :: m := by
    intro hm'
    rcases List.mem_append.mp hm' with h | h
    · exact hkeq h
    · rcases List.mem_cons.mp h with h' | h'
      · exact absurd h' (by decide)
      · exact hmeq h'
  simp only [parseKV]
  rw [rstripNl_id _ (line_body_no_nl (ks ++ '/' :: m) payload hp)]
  rw [splitOnce_append '=' (ks ++ '/' :: m) payload hne]
  dsimp only
  rw [splitOnce_append '/' ks m hksl]

theorem markSegs_mem (c : Char) :
    ∀ (segs : List PyStr), ∀ l ∈ markSegs c segs, ∀ ch ∈ l,
      ch ∈ segs.flatten ∨ ch = c := by
  intro segs
  induction segs with
  | nil => intro l hl; simp [markSegs] at hl
  | cons s rest ih =>
      cases rest with
      | nil =>
          intro l hl ch hch
          simp only [markSegs, List.mem_singleton] at hl
          subst hl
          exact Or.inl (by simp [hch])
      | cons s2 r2 =>
          intro l hl ch hch
          rw [show markSegs c (s :: s2 :: r2) = (s ++ [c]) :: markSegs c (s2 :: r2)
            from rfl] at hl
          rcases List.mem_cons.mp hl with rfl | hl2
          · rcases List.mem_append.mp hch with hch1 | hch2
            · exact Or.inl (by simp [hch1])
            · simp at hch2
              exact Or.inr hch2
          · rcases ih l hl2 ch hch with hin | hc
            · exact Or.inl (by simp at hin ⊢; tauto)
            · exact Or.inr hc


/-- A line whose modifier chain fails to decode leaves the mapping
untouched. -/
theorem lineStep_bad (db : PyDict) (ks m payload : PyStr)
    (hkeq : ('=' : Char) ∉ ks) (hksl : ('/' : Char) ∉ ks)
    (hkc : (ks.dropWhile pyIsSpace).head? ≠ Option.some '#')
    (hmeq : ('=' : Char) ∉ m)
    (hp : ∀ c ∈ payload, 32 ≤ c.toNat)
    (hbad : applyMods m (.str payload) = Option.none) :
    lineStep db (ks ++ '/' :: m ++ '=' :: payload ++ ['\n']) = db := by
  rw [lineStep, isCommentLine_mod_line ks m payload hkc hp, if_neg (by simp)]
  rw [parseKV_mod_line ks m payload hkeq hksl hmeq hp]
  dsimp only
  rw [hbad]

/-! ## The claims -/

/-- C1 (corrected): for every wellformed supported value — a string,
bytes of octets, an integer, a finite float or (at top level) an
`inf`/`-inf` float, a boolean, `None`, or a literal container of these —
and every string key that contains none of `=`, `/`, `\n`, `\r` and
whose first non-whitespace character is not `#`, writing the one-entry
mapping with `write_config` and reading the produced lines back with
`read_config` yields the value unchanged under the key.  (The original
claim, quantified over all strings as keys and all floats, fails: a key
whose first non-whitespace character is `#` reads back as a comment
line; a key containing a newline is torn apart by the file's
line-by-line reading, which is why the newline exclusion appears here
even though this per-line model cannot exhibit it; `nan` is unequal to
itself; and floats inside containers must be finite because
`literal_eval` rejects `inf` and `nan`.) -/
theorem claim_C1 (ks : PyStr) (v : PyValue) (ro : Bool)
    (hwf : wfV v = true ∨ v = PyValue.float ['i', 'n', 'f'] ∨
      v = PyValue.float ['-', 'i', 'n', 'f'])
    (hkeq : ('=' : Char) ∉ ks) (hksl : ('/' : Char) ∉ ks)
    (hknl : ('\n' : Char) ∉ ks ∧ ('\x0d' : Char) ∉ ks)
    (hkc : (ks.dropWhile pyIsSpace).head? ≠ Option.some '#') :
    (writeConfig [(.str ks, v)] [] ro).2 = Option.none ∧
    dictGet (.str ks) (readConfig (writeConfig [(.str ks, v)] [] ro).1).1 =
      Option.some v := by
  have hwr : wfV v = true ∨
      ∃ s, v = PyValue.float s ∧ pyFloatOfText s = Option.some s ∧
        ∀ c ∈ s, 32 ≤ c.toNat := by
    rcases hwf with hwf | rfl | rfl
    · exact Or.inl hwf
    · exact Or.inr ⟨['i', 'n', 'f'], rfl, by decide, by decide⟩
    · exact Or.inr ⟨['-', 'i', 'n', 'f'], rfl, by decide, by decide⟩
  obtain ⟨line, hline⟩ := writeKV_ok ks v hkeq hksl
  have hwn : writeNew [(.str ks, v)] = ([line], Option.none) := by
    rw [writeNew, hline]
    rfl
  have hwc : writeConfig [(.str ks, v)] [] ro = ([line], Option.none) := by
    simp only [writeConfig]
    rw [show writeEntries ro [(.str ks, v)] []
        = ([], [(.str ks, v)], Option.none) from rfl]
    dsimp only
    rw [hwn]
    rfl
  rw [hwc]
  refine ⟨rfl, ?_⟩
  show dictGet (.str ks) (readConfig [line]).1 = Option.some v
  rw [show (readConfig [line]).1 = lineStep [] line from rfl]
  rw [lineStep_writeKV [] ks v line hwr hkeq hksl hkc hline]
  exact dictGet_dictSet _ _ _

/-- Witness for C1 at a concrete key and value. -/
theorem claim_C1_witness :
    (writeConfig [(.str ['k'], .int 5)] [] false).2 = Option.none ∧
    dictGet (.str ['k'])
      (readConfig (writeConfig [(.str ['k'], .int 5)] [] false).1).1 =
      Option.some (.int 5) :=
  claim_C1 ['k'] (.int 5) false (Or.inl (by decide)) (by decide) (by decide)
    ⟨by decide, by decide⟩ (by decide)

/-- Counterexample to the original C1: a key beginning with `#` — legal
by the claim, which only excludes `=` and `/` — writes successfully, but
the written line reads back as a comment, so the key is absent from the
reread mapping. -/
theorem claim_C1_counterexample :
    (writeConfig [(.str ['#', 'k'], .none)] [] false).2 = Option.none ∧
    dictGet (.str ['#', 'k'])
      (readConfig (writeConfig [(.str ['#', 'k'], .none)] [] false).1).1 =
      Option.none := by decide

/-- C3 (corrected): a prior-structure entry for a key `A` absent from
the mapping is dropped from the output when `rewrite_old` is off —
the written lines are exactly those written without the entry, and in
the one-entry case reading the output back contains no entry for `A` —
and is re-emitted verbatim, at its position, when `rewrite_old` is on,
provided `A` is nonempty.  (The original claim, for every successfully
parsed key, fails: the empty-string key parses successfully but its
entry is silently skipped even under `rewrite_old=True`, because the
writer tests the key for truthiness.) -/
theorem claim_C3 (A m l : PyStr) (db : PyDict) (es : List SEntry)
    (hA : dictGet (.str A) db = Option.none) (hAne : A ≠ []) :
    writeEntries false db (.kv A m l :: es) = writeEntries false db es ∧
    (writeEntries true db (.kv A m l :: es)).1 =
      l :: (writeEntries true db es).1 ∧
    dictGet (.str A)
      (readConfig (writeConfig [] [.kv A m l] false).1).1 = Option.none := by
  refine ⟨?_, ?_, ?_⟩
  · rw [writeEntries, if_pos hAne, hA]
    rfl
  · rw [writeEntries, if_pos hAne, hA]
    rfl
  · have hwe : writeEntries false [] [.kv A m l] = ([], [], Option.none) := by
      rw [writeEntries, if_pos hAne]
      rfl
    have hwc : writeConfig [] [.kv A m l] false = ([], Option.none) := by
      simp only [writeConfig]
      rw [hwe]
      rfl
    rw [hwc]
    rfl

/-- Witness for C3 at a concrete prior entry. -/
theorem claim_C3_witness :
    writeEntries false [] (.kv ['a'] [] ['a', '=', '1', '\n'] :: []) =
      writeEntries false [] [] ∧
    (writeEntries true [] (.kv ['a'] [] ['a', '=', '1', '\n'] :: [])).1 =
      ['a', '=', '1', '\n'] :: (writeEntries true [] []).1 ∧
    dictGet (.str ['a'])
      (readConfig (writeConfig [] [.kv ['a'] [] ['a', '=', '1', '\n']] false).1).1 =
      Option.none :=
  claim_C3 ['a'] [] ['a', '=', '1', '\n'] [] [] (by decide) (by decide)

/-- Counterexample to the original C3: the line `=v` parses successfully
to the empty-string key, yet with `rewrite_old=True` and the key absent
from the mapping its raw line is not re-emitted. -/
theorem claim_C3_counterexample :
    lineEntry ['=', 'v', '\n'] = .kv [] [] ['=', 'v', '\n'] ∧
    (writeConfig [] [.kv [] [] ['=', 'v', '\n']] true).1 = [] := by decide

/-- C4 (corrected): a line whose modifier begins with an unrecognized
character — one of the ways the modifier-chain decode fails — is
recorded in the structure sequence as a key/value entry carrying its key
and modifier text — not as an invalid entry, which the source reserves
for lines without `=` — its key is not populated in the mapping, and,
contrary to the original claim, the writer re-emits its raw line under
`rewrite_old=True` whenever its key is nonempty and absent from the
mapping being written.  (Key and modifier avoid `\n`/`\r`, which the
file's line splitting would tear apart outside this per-line model.) -/
theorem claim_C4 (ks payload : PyStr) (c : Char) (mrest : List Char)
    (db : PyDict) (es : List SEntry)
    (hk : ks ≠ []) (hkeq : ('=' : Char) ∉ ks) (hksl : ('/' : Char) ∉ ks)
    (hknl : ('\n' : Char) ∉ ks ∧ ('\x0d' : Char) ∉ ks)
    (hkc : (ks.dropWhile pyIsSpace).head? ≠ Option.some '#')
    (hcu : c ≠ 'p' ∧ c ≠ 's' ∧ c ≠ 'b' ∧ c ≠ 'i' ∧ c ≠ 'f' ∧ c ≠ 'r' ∧
      c ≠ '3' ∧ c ≠ '6')
    (hcnl : c ≠ '=' ∧ c ≠ '\n' ∧ c ≠ '\x0d')
    (hmeq : ('=' : Char) ∉ mrest)
    (hmnl : ('\n' : Char) ∉ mrest ∧ ('\x0d' : Char) ∉ mrest)
    (hp : ∀ ch ∈ payload, 32 ≤ ch.toNat)
    (hA : dictGet (.str ks) db = Option.none) :
    lineEntry (ks ++ '/' :: (c :: mrest) ++ '=' :: payload ++ ['\n']) =
      .kv ks (c :: mrest) (ks ++ '/' :: (c :: mrest) ++ '=' :: payload ++ ['\n']) ∧
    lineStep db (ks ++ '/' :: (c :: mrest) ++ '=' :: payload ++ ['\n']) = db ∧
    (writeEntries true db
        (.kv ks (c :: mrest)
          (ks ++ '/' :: (c :: mrest) ++ '=' :: payload ++ ['\n']) :: es)).1 =
      (ks ++ '/' :: (c :: mrest) ++ '=' :: payload ++ ['\n']) ::
        (writeEntries true db es).1 := by
  have hmeq' : ('=' : Char) ∉ c :: mrest := by
    intro hm
    rcases List.mem_cons.mp hm with h' | h'
    · exact hcnl.1 h'.symm
    · exact hmeq h'
  have hbad : applyMods (c :: mrest) (.str payload) = Option.none :=
    applyMods_unknown c mrest _ hcu
  refine ⟨?_, ?_, ?_⟩
  · exact lineEntry_mod ks (c :: mrest) payload hkeq hksl hkc hmeq' hp
  · exact lineStep_bad db ks (c :: mrest) payload hkeq hksl hkc hmeq' hp hbad
  · rw [writeEntries, if_pos hk, hA]
    rfl

/-- Witness for C4 at a concrete undecodable line. -/
theorem claim_C4_witness :
    lineEntry (['x'] ++ '/' :: ('z' :: []) ++ '=' :: ['1'] ++ ['\n']) =
      .kv ['x'] ('z' :: []) (['x'] ++ '/' :: ('z' :: []) ++ '=' :: ['1'] ++ ['\n']) ∧
    lineStep [] (['x'] ++ '/' :: ('z' :: []) ++ '=' :: ['1'] ++ ['\n']) = [] ∧
    (writeEntries true []
        (.kv ['x'] ('z' :: [])
          (['x'] ++ '/' :: ('z' :: []) ++ '=' :: ['1'] ++ ['\n']) :: [])).1 =
      (['x'] ++ '/' :: ('z' :: []) ++ '=' :: ['1'] ++ ['\n']) ::
        (writeEntries true [] []).1 :=
  claim_C4 ['x'] ['1'] 'z' [] [] [] (by decide) (by decide) (by decide)
    ⟨by decide, by decide⟩ (by decide)
    ⟨by decide, by decide, by decide, by decide, by decide, by decide,
      by decide, by decide⟩
    ⟨by decide, by decide, by decide⟩ (by decide) ⟨by decide, by decide⟩
    (by decide) (by decide)

/-- Counterexample to the original C4: the undecodable line `x/z=1` is
recorded as a key/value structure entry, and `write_config` with
`rewrite_old=True` re-emits it verbatim. -/
theorem claim_C4_counterexample :
    lineEntry ['x', '/', 'z', '=', '1', '\n'] =
      .kv ['x'] ['z'] ['x', '/', 'z', '=', '1', '\n'] ∧
    (writeConfig [] (readConfig [['x', '/', 'z', '=', '1', '\n']]).2 true).1 =
      [['x', '/', 'z', '=', '1', '\n']] := by decide


/-- C5 (confirmed): reading is total — `read_config` is a function
returning a best-effort mapping and one structure entry per line — and a
line whose modifier begins with an unrecognized character leaves the
mapping exactly as the remaining lines produce it, its own key absent
when no other line sets it.  (Key and modifier avoid `\n`/`\r`, which
the file's line splitting would tear apart outside this per-line
model.) -/
theorem claim_C5 (pre post : List PyStr) (db : PyDict) (ks payload : PyStr)
    (c : Char) (mrest : List Char)
    (hkeq : ('=' : Char) ∉ ks) (hksl : ('/' : Char) ∉ ks)
    (hknl : ('\n' : Char) ∉ ks ∧ ('\x0d' : Char) ∉ ks)
    (hkc : (ks.dropWhile pyIsSpace).head? ≠ Option.some '#')
    (hcu : c ≠ 'p' ∧ c ≠ 's' ∧ c ≠ 'b' ∧ c ≠ 'i' ∧ c ≠ 'f' ∧ c ≠ 'r' ∧
      c ≠ '3' ∧ c ≠ '6')
    (hcnl : c ≠ '=' ∧ c ≠ '\n' ∧ c ≠ '\x0d')
    (hmeq : ('=' : Char) ∉ mrest)
    (hmnl : ('\n' : Char) ∉ mrest ∧ ('\x0d' : Char) ∉ mrest)
    (hp : ∀ ch ∈ payload, 32 ≤ ch.toNat) :
    lineStep db (ks ++ '/' :: (c :: mrest) ++ '=' :: payload ++ ['\n']) = db ∧
    (readConfig (pre ++
        (ks ++ '/' :: (c :: mrest) ++ '=' :: payload ++ ['\n']) :: post)).1 =
      (readConfig (pre ++ post)).1 ∧
    dictGet (.str ks)
      (readConfig [ks ++ '/' :: (c :: mrest) ++ '=' :: payload ++ ['\n']]).1 =
      Option.none ∧
    (readConfig (pre ++
        (ks ++ '/' :: (c :: mrest) ++ '=' :: payload ++ ['\n']) :: post)).2.length =
      pre.length + post.length + 1 := by
  have hmeq' : ('=' : Char) ∉ c :: mrest := by
    intro hm
    rcases List.mem_cons.mp hm with h' | h'
    · exact hcnl.1 h'.symm
    · exact hmeq h'
  have hbad : applyMods (c :: mrest) (.str payload) = Option.none :=
    applyMods_unknown c mrest _ hcu
  have hstep := fun d =>
    lineStep_bad d ks (c :: mrest) payload hkeq hksl hkc hmeq' hp hbad
  refine ⟨hstep db, ?_, ?_, ?_⟩
  · show (pre ++ _ :: post).foldl lineStep [] = (pre ++ post).foldl lineStep []
    rw [List.foldl_append, List.foldl_cons, hstep (pre.foldl lineStep []),
      ← List.foldl_append]
  · show dictGet (.str ks) (lineStep [] _) = Option.none
    rw [hstep []]
    rfl
  · show ((pre ++ _ :: post).map lineEntry).length = _
    simp only [List.length_map, List.length_append, List.length_cons]
    omega

/-- Witness for C5: an unknown modifier `q` between two good lines. -/
theorem claim_C5_witness :
    lineStep [] (['k'] ++ '/' :: ('q' :: []) ++ '=' :: ['1'] ++ ['\n']) = [] ∧
    (readConfig ([['a', '=', '1', '\n']] ++
        (['k'] ++ '/' :: ('q' :: []) ++ '=' :: ['1'] ++ ['\n']) :: [['b', '=', '2', '\n']])).1 =
      (readConfig ([['a', '=', '1', '\n']] ++ [['b', '=', '2', '\n']])).1 ∧
    dictGet (.str ['k'])
      (readConfig [['k'] ++ '/' :: ('q' :: []) ++ '=' :: ['1'] ++ ['\n']]).1 =
      Option.none ∧
    (readConfig ([['a', '=', '1', '\n']] ++
        (['k'] ++ '/' :: ('q' :: []) ++ '=' :: ['1'] ++ ['\n']) :: [['b', '=', '2', '\n']])).2.length =
      [['a', '=', '1', '\n']].length + [['b', '=', '2', '\n']].length + 1 :=
  claim_C5 [['a', '=', '1', '\n']] [['b', '=', '2', '\n']] [] ['k'] ['1'] 'q' []
    (by decide) (by decide) ⟨by decide, by decide⟩ (by decide)
    ⟨by decide, by decide, by decide, by decide, by decide, by decide,
      by decide, by decide⟩
    ⟨by decide, by decide, by decide⟩ (by decide) ⟨by decide, by decide⟩
    (by decide)

/-- C6 (corrected): encoding a string value containing any character
with code below 32 — including when tab, carriage return or line feed
are its only control characters — produces the modifier `64s` with the
base64 encoding of the UTF-8 bytes of the string as payload, not the
modifier `r` with the quoted literal representation that the original
claim describes. -/
theorem claim_C6 (ks s : PyStr)
    (hkeq : ('=' : Char) ∉ ks) (hksl : ('/' : Char) ∉ ks)
    (hctl : s.any (fun j => j.toNat < 32) = true) :
    writeKV (.str ks) (.str s) =
      Except.ok (ks ++ ['/', '6', '4', 's', '='] ++
        b64encode (utf8Encode s) ++ ['\n']) := by
  have hcond : ¬((ks.contains '=' || ks.contains '/') = true) := by
    rw [contains_false_of_not_mem hkeq, contains_false_of_not_mem hksl]
    simp
  rw [writeKV, if_neg hcond]
  rw [if_pos hctl]

/-- Witness for C6: a string whose only control character is a tab. -/
theorem claim_C6_witness :
    writeKV (.str ['k']) (.str ['a', '\t', 'b']) =
      Except.ok (['k'] ++ ['/', '6', '4', 's', '='] ++
        b64encode (utf8Encode ['a', '\t', 'b']) ++ ['\n']) :=
  claim_C6 ['k'] ['a', '\t', 'b'] (by decide) (by decide) (by decide)

/-- Counterexample to the original C6: for `"a\tb"` — tab its only
control character — the written line is `k/64s=YQli`, whose modifier is
`64s`, not the `r`/repr form the claim predicts. -/
theorem claim_C6_counterexample :
    writeKV (.str ['k']) (.str ['a', '\t', 'b']) =
      Except.ok ['k', '/', '6', '4', 's', '=', 'Y', 'Q', 'l', 'i', '\n'] := rfl

/-- C7 (corrected): applying the `s` operation to a payload that is
neither bytes, a boolean nor an integer — or the `b` operation to a
payload that is not a string — does not fail the line: the source only
logs a warning and leaves the running value unchanged, so decoding
continues and the key is inserted into the mapping, contrary to the
original claim that the line fails and its key stays absent. -/
theorem claim_C7 :
    (∀ (rest : List Char) (v : PyValue),
      (∀ bs, v ≠ .bytes bs) → (∀ b, v ≠ .bool b) → (∀ n, v ≠ .int n) →
      applyMods ('s' :: rest) v = applyMods rest v) ∧
    (∀ (rest : List Char) (v : PyValue), (∀ s, v ≠ .str s) →
      applyMods ('b' :: rest) v = applyMods rest v) ∧
    dictGet (.str ['k'])
      (readConfig [['k', '/', 'f', 's', '=', '1', '.', '5', '\n']]).1 =
      Option.some (.float ['1', '.', '5']) := by
  refine ⟨?_, ?_, by decide⟩
  · intro rest v h1 h2 h3
    cases v with
    | bytes bs => exact absurd rfl (h1 bs)
    | bool b => exact absurd rfl (h2 b)
    | int n => exact absurd rfl (h3 n)
    | str s => rw [applyMods] <;> simp
    | float s => rw [applyMods] <;> simp
    | none => rw [applyMods] <;> simp
    | tup xs => rw [applyMods] <;> simp
    | list xs => rw [applyMods] <;> simp
    | set xs => rw [applyMods] <;> simp
    | dict ps => rw [applyMods] <;> simp
  · intro rest v h1
    cases v with
    | str s => exact absurd rfl (h1 s)
    | bytes bs => rw [applyMods] <;> simp
    | bool b => rw [applyMods] <;> simp
    | int n => rw [applyMods] <;> simp
    | float s => rw [applyMods] <;> simp
    | none => rw [applyMods] <;> simp
    | tup xs => rw [applyMods] <;> simp
    | list xs => rw [applyMods] <;> simp
    | set xs => rw [applyMods] <;> simp
    | dict ps => rw [applyMods] <;> simp

/-- Witness for C7: `s` on a float and `b` on an integer pass through. -/
theorem claim_C7_witness :
    applyMods ['s'] (.float ['1', '.', '5']) =
      applyMods [] (.float ['1', '.', '5']) ∧
    applyMods ['b'] (.int 3) = applyMods [] (.int 3) :=
  ⟨claim_C7.1 [] (.float ['1', '.', '5'])
      (fun _ h => PyValue.noConfusion h) (fun _ h => PyValue.noConfusion h)
      (fun _ h => PyValue.noConfusion h),
    claim_C7.2.1 [] (.int 3) (fun _ h => PyValue.noConfusion h)⟩

/-- Counterexample to the original C7: the line `k/fs=1.5` applies `s`
to a float, which the claim says must fail and leave `k` unset; in fact
the key is present in the mapping. -/
theorem claim_C7_counterexample :
    dictGet (.str ['k'])
      (readConfig [['k', '/', 'f', 's', '=', '1', '.', '5', '\n']]).1 ≠
      Option.none := by decide

/-- C8 (corrected): a key containing `=` or `/`, or a non-string key,
makes `write_k_v` raise the invalid-key error, and `write_config` stops
at the offending key — but lines already emitted for earlier keys (and
re-emitted prior structure) have been written by then, so output may
precede the failure, contrary to the original claim that no line at all
is written. -/
theorem claim_C8 (ks kbad : PyStr) (v w : PyValue) (rest : PyDict) (ro : Bool)
    (hkeq : ('=' : Char) ∉ ks) (hksl : ('/' : Char) ∉ ks)
    (hbad : ('=' : Char) ∈ kbad ∨ ('/' : Char) ∈ kbad) :
    writeKV (.str kbad) w = Except.error .invalidKey ∧
    (∀ k' v', (∀ s, k' ≠ PyValue.str s) →
      writeKV k' v' = Except.error .invalidKey) ∧
    ∃ line, writeKV (.str ks) v = Except.ok line ∧
      writeConfig ((.str ks, v) :: (.str kbad, w) :: rest) [] ro =
        ([line], Option.some .invalidKey) := by
  have hbadc : (kbad.contains '=' || kbad.contains '/') = true := by
    rcases hbad with h | h
    · have : kbad.contains '=' = true := by simpa using h
      rw [this]
      rfl
    · have : kbad.contains '/' = true := by simpa using h
      rw [this]
      simp
  have h1 : writeKV (.str kbad) w = Except.error .invalidKey := by
    cases w <;> rw [writeKV, if_pos hbadc] <;> simp
  refine ⟨h1, ?_, ?_⟩
  · intro k' v' hk'
    cases k' with
    | str s => exact absurd rfl (hk' s)
    | bytes bs => rw [writeKV] <;> simp
    | bool b => rw [writeKV] <;> simp
    | none => rw [writeKV] <;> simp
    | int n => rw [writeKV] <;> simp
    | float s => rw [writeKV] <;> simp
    | tup xs => rw [writeKV] <;> simp
    | list xs => rw [writeKV] <;> simp
    | set xs => rw [writeKV] <;> simp
    | dict ps => rw [writeKV] <;> simp
  · obtain ⟨line, hline⟩ := writeKV_ok ks v hkeq hksl
    refine ⟨line, hline, ?_⟩
    have hwn : writeNew ((.str ks, v) :: (.str kbad, w) :: rest) =
        ([line], Option.some .invalidKey) := by
      rw [writeNew, hline]
      dsimp only
      rw [writeNew, h1]
    simp only [writeConfig]
    rw [show writeEntries ro ((.str ks, v) :: (.str kbad, w) :: rest) []
        = ([], (.str ks, v) :: (.str kbad, w) :: rest, Option.none) from rfl]
    dsimp only
    rw [hwn]
    rfl

/-- Witness for C8: a good key followed by a key containing `/`. -/
theorem claim_C8_witness :
    writeKV (.str ['b', '/', 'd']) (.int 2) = Except.error .invalidKey ∧
    (∀ k' v', (∀ s, k' ≠ PyValue.str s) →
      writeKV k' v' = Except.error .invalidKey) ∧
    ∃ line, writeKV (.str ['g']) (.int 1) = Except.ok line ∧
      writeConfig ((.str ['g'], .int 1) :: (.str ['b', '/', 'd'], .int 2) :: []) [] false =
        ([line], Option.some .invalidKey) :=
  claim_C8 ['g'] ['b', '/', 'd'] (.int 1) (.int 2) [] false
    (by decide) (by decide) (Or.inr (by decide))

/-- Counterexample to the original C8: with a good key before the bad
one, the error is raised and yet a line has already been written. -/
theorem claim_C8_counterexample :
    (writeConfig [(.str ['g'], .none), (.str ['b', '/', 'd'], .none)] [] false).1 =
      [['g', '/', 'r', '=', 'N', 'o', 'n', 'e', '\n']] ∧
    (writeConfig [(.str ['g'], .none), (.str ['b', '/', 'd'], .none)] [] false).2 =
      Option.some .invalidKey := by decide

/-- C2 (confirmed, modelled from the spec: no wrapping code exists under
`src/`): for a payload long enough to trigger wrapping at `maxWidth`,
the renderer emits at least two lines, the continuation character is
drawn from the candidate list and absent from the payload, the first
line parses back to the key and the `C<char>`-prefixed modifier, and the
reader's continuation loop reassembles exactly the original payload,
consuming every emitted line. -/
theorem claim_C2 (key mod payload : PyStr) (maxW : Nat) (cands : List Char)
    (c : Char)
    (hkeq : ('=' : Char) ∉ key) (hksl : ('/' : Char) ∉ key)
    (hmeq : ('=' : Char) ∉ mod) (hcne : c ≠ '=')
    (hmw : maxW ≠ 0)
    (htrig : ¬(key.length + mod.length + payload.length + 2 < maxW))
    (hbud : key.length + mod.length + 5 ≤ maxW)
    (hpick : pickCont cands payload = Option.some c)
    (hppr : ∀ ch ∈ payload, 32 ≤ ch.toNat) (hcpr : 32 ≤ c.toNat) :
    2 ≤ (render key mod payload maxW cands).length ∧
    c ∈ cands ∧ c ∉ payload ∧
    ∃ s0 rest,
      render key mod payload maxW cands =
        (key ++ '/' :: 'C' :: c :: mod ++ '=' :: s0) :: rest ∧
      parseKV (key ++ '/' :: 'C' :: c :: mod ++ '=' :: s0) =
        Option.some (key, 'C' :: c :: mod, s0) ∧
      joinCont c s0 rest = Option.some (payload, []) := by
  obtain ⟨hcm, hcp⟩ := pickCont_spec payload cands c hpick
  have hgt : maxW - (key.length + (mod.length + 2) + 2) < payload.length := by
    omega
  have hrend : render key mod payload maxW cands =
      match markSegs c
          (wrapSegs maxW (maxW - (key.length + (mod.length + 2) + 2)) payload) with
      | [] => []
      | s0 :: rest => (key ++ '/' :: 'C' :: c :: mod ++ '=' :: s0) :: rest := by
    rw [render, if_neg (by simp [hmw, htrig]), hpick]
  cases hms : markSegs c
      (wrapSegs maxW (maxW - (key.length + (mod.length + 2) + 2)) payload) with
  | nil => exact absurd hms (markSegs_ne_nil c _ (wrapSegs_ne_nil _ _ _))
  | cons s0 rest =>
      rw [hms] at hrend
      dsimp only at hrend
      have hflat : (wrapSegs maxW
          (maxW - (key.length + (mod.length + 2) + 2)) payload).flatten = payload :=
        wrapSegs_flatten _ _ _
      have hlen2 : 2 ≤ (s0 :: rest).length := by
        have h1 := markSegs_length c
          (wrapSegs maxW (maxW - (key.length + (mod.length + 2) + 2)) payload)
        rw [hms] at h1
        have h2 := wrapSegs_two maxW
          (maxW - (key.length + (mod.length + 2) + 2)) payload hgt
        simp only [List.length_cons] at h1 ⊢
        omega
      refine ⟨?_, hcm, hcp, s0, rest, hrend, ?_, ?_⟩
      · rw [hrend]
        simpa using hlen2
      · refine parseKV_mod_nonl key ('C' :: c :: mod) s0 hkeq hksl ?_ ?_
        · intro hm'
          rcases List.mem_cons.mp hm' with h' | h'
          · exact absurd h' (by decide)
          · rcases List.mem_cons.mp h' with h'' | h''
            · exact hcne h''.symm
            · exact hmeq h''
        · intro ch hch
          have hs0m : s0 ∈ markSegs c
              (wrapSegs maxW (maxW - (key.length + (mod.length + 2) + 2)) payload) := by
            rw [hms]
            exact List.mem_cons_self _ _
          rcases markSegs_mem c _ s0 hs0m ch hch with hin | rfl
          · rw [hflat] at hin
            exact hppr ch hin
          · exact hcpr
      · have hlastne : (([] : PyStr) ++ (wrapSegs maxW
            (maxW - (key.length + (mod.length + 2) + 2)) payload).flatten).getLast? ≠
            Option.some c := by
          rw [List.nil_append, hflat]
          intro hgl
          exact hcp (mem_of_getLast hgl)
        have hj := joinCont_markSegs c
          (wrapSegs maxW (maxW - (key.length + (mod.length + 2) + 2)) payload)
          [] hlastne
        rw [hms] at hj
        dsimp only at hj
        rw [List.nil_append, hflat] at hj
        exact hj

/-- Witness for C2: a 12-character payload wrapped at width 10 with the
candidate `@`. -/
theorem claim_C2_witness :
    2 ≤ (render ['k'] []
        ['a', 'a', 'a', 'a', 'a', 'a', 'a', 'a', 'a', 'a', 'a', 'a'] 10 ['@']).length ∧
    '@' ∈ ['@'] ∧
    '@' ∉ ['a', 'a', 'a', 'a', 'a', 'a', 'a', 'a', 'a', 'a', 'a', 'a'] ∧
    ∃ s0 rest,
      render ['k'] [] ['a', 'a', 'a', 'a', 'a', 'a', 'a', 'a', 'a', 'a', 'a', 'a']
          10 ['@'] =
        (['k'] ++ '/' :: 'C' :: '@' :: [] ++ '=' :: s0) :: rest ∧
      parseKV (['k'] ++ '/' :: 'C' :: '@' :: [] ++ '=' :: s0) =
        Option.some (['k'], 'C' :: '@' :: [], s0) ∧
      joinCont '@' s0 rest =
        Option.some (['a', 'a', 'a', 'a', 'a', 'a', 'a', 'a', 'a', 'a', 'a', 'a'], []) :=
  claim_C2 ['k'] [] ['a', 'a', 'a', 'a', 'a', 'a', 'a', 'a', 'a', 'a', 'a', 'a']
    10 ['@'] '@' (by decide) (by decide) (by decide) (by decide) (by decide)
    (by decide) (by decide) (by decide) (by decide) (by decide)

end PlainConfig
